import Mathlib

/-!
Text subtitle decoder (`modules/codec/subtitles/subsdec.c`).

A shallow embedding of the two markup passes of the decoder, `StripTags` and
`CreateHtmlSubtitle`, together with the C library routines they call.

Memory model:

* A byte is a `Nat`; a text is a `List Nat`.  The list is the content of a
  character array in front of its last byte, which is a NUL: the array holds
  the bytes of the list followed by one `0`, and nothing behind that `0`
  belongs to it.  The string in the array ends at its first NUL.
  An input text of the decoder is a list without a `0` byte (`IsText`): the
  decoder allocates its strings exactly (`strndup`, `realloc`), so the array
  ends with the terminator of the string.  A list with a `0` inside stands
  for a string that is followed by more bytes in the same array.
* A `char *` that walks over the array is the suffix of the list that is still
  in front of it (`psz_subtitle` is `sub`).  Loading `*p` is `peek`; it yields
  `0` at the terminator.
* Moving the pointer is `adv`.  Moving it beyond the terminator is the fault
  `Fault.readOOB`: in the source every such move is directly followed by a load
  through the moved pointer, which is a load outside the array.
* An output buffer is the list of bytes stored so far between its start and
  its write cursor, together with its size in bytes.  A store that does not
  fit below the size is the fault `Fault.writeOOB`.
* `psz_tagStack[100]` is the list of the tag characters in it, oldest first.  A
  `strcat` that does not fit into the 100 bytes is the fault `Fault.stackOOB`.
* Loops are recursions on a step bound; a bound that runs out is
  `Fault.fuel`.  The passes are called with a bound of one more than the
  input length, and the theorems below show that it never runs out.
* `int`/`size_t` values are natural numbers; lengths are assumed to stay
  below `2^31`, so no wrap-around is modelled.
* A store through a pointer into a buffer that has been handed to `free` is
  the fault `Fault.writeFreed`.
* A time (`mtime_t`, a signed 64-bit integer) is an `Int` in the range from
  `-2^63` to `2^63 - 1`.  The source adds two times with no test of the
  range; the sum is the one of the 64-bit machine, reduced modulo `2^64` into
  that range (`addTime`).
* Functions of other files that `OpenDecoder` and `ParseText` call, and the
  values of configuration variables, are fields of an environment
  (`OpenEnv`, `DecEnv`); allocation is taken to succeed.
-/

namespace Subsdec

/-- The ways in which a pass can leave defined behaviour. -/
inductive Fault where
  | readOOB
  | writeOOB
  | stackOOB
  | fuel
  | writeFreed
  deriving DecidableEq, Repr

deriving instance DecidableEq for Except

/-- A text: the bytes of a character array in front of its terminator. -/
abbrev Text := List Nat

/-- The bytes of an ASCII string literal. -/
def B (s : String) : Text := s.toList.map Char.toNat

/-- An input text of the decoder: a C string holds no NUL byte. -/
def IsText (s : Text) : Prop := ∀ c ∈ s, c ≠ 0

instance (s : Text) : Decidable (IsText s) := by
  unfold IsText; infer_instance

/-- `tolower` of the C locale. -/
def tolower (c : Nat) : Nat := if 65 ≤ c ∧ c ≤ 90 then c + 32 else c

/-- The load `*p`. -/
def peek (sub : Text) : Nat := sub.headD 0

/-- The move `p += n`, which faults when it passes the terminator. -/
def adv (n : Nat) (sub : Text) : Except Fault Text :=
  if n ≤ sub.length then .ok (sub.drop n) else .error .readOOB

/-- `strlen(p)`. -/
def strlen : Text → Nat
  | [] => 0
  | c :: r => if c = 0 then 0 else strlen r + 1

/-- `strcspn(p, r)` for a one-character reject string `r`: the number of
leading bytes of `p` that are neither the terminator nor `c`. -/
def strcspn : Text → Nat → Nat
  | [], _ => 0
  | x :: r, c => if x = 0 ∨ x = c then 0 else strcspn r c + 1

/-- `strncasecmp(p, q, n) == 0`.  The comparison stops at the first
difference and at a terminator, so it loads nothing behind the terminator. -/
def strncasecmp : Text → Text → Nat → Bool
  | _, _, 0 => true
  | p, q, n + 1 =>
    if tolower (peek p) ≠ tolower (peek q) then false
    else if peek p = 0 then true
    else strncasecmp p.tail q.tail n

/-- `strncmp(p, q, n) == 0`. -/
def strncmp : Text → Text → Nat → Bool
  | _, _, 0 => true
  | p, q, n + 1 =>
    if peek p ≠ peek q then false
    else if peek p = 0 then true
    else strncmp p.tail q.tail n

/-- The bytes that `strncpy(dst, p, n)` stores: the first `n` bytes of the
string at `p`, filled up with NUL bytes to exactly `n` bytes. -/
def strncpy (p : Text) (n : Nat) : Text :=
  let t := (p.takeWhile (fun c => c ≠ 0)).take n
  t ++ List.replicate (n - t.length) 0

/-- The store `*dst++ = c` into a buffer of `cap` bytes. -/
def put (cap : Nat) (out : Text) (c : Nat) : Except Fault Text :=
  if out.length < cap then .ok (out ++ [c]) else .error .writeOOB

/-! ## StripTags -/

/-- One turn of the `while` body of `StripTags` up to, and not including, the
common `psz_subtitle++` at its end.  `sub` is `psz_subtitle`, `out` the bytes
between `psz_text_start` and `psz_text`, `cap` the size of that buffer. -/
def stripBody (cap : Nat) (sub out : Text) : Except Fault (Text × Text) :=
  if peek sub = 60 then do
    let out1 ← if strncasecmp sub (B "<br/>") 5 then put cap out 10 else pure out
    let sub1 ← adv (strcspn sub 62) sub
    pure (sub1, out1)
  else if peek sub = 38 then
    if strncasecmp sub (B "&lt;") 4 then do
      let out1 ← put cap out 60
      let sub1 ← adv (strcspn sub 59) sub
      pure (sub1, out1)
    else if strncasecmp sub (B "&gt;") 4 then do
      let out1 ← put cap out 62
      let sub1 ← adv (strcspn sub 59) sub
      pure (sub1, out1)
    else if strncasecmp sub (B "&amp;") 5 then do
      let out1 ← put cap out 38
      let sub1 ← adv (strcspn sub 59) sub
      pure (sub1, out1)
    else if strncasecmp sub (B "&quot;") 6 then do
      let out1 ← put cap out 34
      let sub1 ← adv (strcspn sub 59) sub
      pure (sub1, out1)
    else do
      let out1 ← put cap out 38
      pure (sub, out1)
  else do
    let out1 ← put cap out (peek sub)
    pure (sub, out1)

/-- The `while( *psz_subtitle )` loop of `StripTags` and the final
`*psz_text = 0`. -/
def stripLoop (cap : Nat) : Nat → Text → Text → Except Fault Text
  | 0, _, _ => .error .fuel
  | fuel + 1, sub, out =>
    if peek sub = 0 then
      if out.length < cap then .ok out else .error .writeOOB
    else do
      let (sub1, out1) ← stripBody cap sub out
      let sub2 ← adv 1 sub1
      stripLoop cap fuel sub2 out1

/-- `StripTags`: the output buffer has `strlen( psz_subtitle ) + 1` bytes. -/
def StripTags (s : Text) : Except Fault Text :=
  stripLoop (strlen s + 1) (s.length + 1) s []

/-- The four entities that `StripTags` decodes, in lower case. -/
def entities : List Text := [B "&lt;", B "&gt;", B "&amp;", B "&quot;"]

/-- Whether the text starts with one of the four entities in some letter
case. -/
def startsEntity (x : Text) : Bool :=
  entities.any (fun e => (x.take e.length).map tolower == e)

/-- Whether no entity, in any letter case, occurs anywhere in the text: no
suffix of the text starts with one. -/
def noEntity : Text → Bool
  | [] => true
  | c :: r => !startsEntity (c :: r) && noEntity r

/-! ## CreateHtmlSubtitle -/

/-- The variables of `CreateHtmlSubtitle`: `sub` is `psz_subtitle`, `html` the
bytes between `psz_html_start` and `psz_html`, `size` is `i_buf_size` and
`stack` the string in `psz_tagStack`. -/
structure HState where
  sub : Text
  html : Text
  size : Nat
  stack : Text
  deriving DecidableEq, Repr

/-- `strcpy( psz_html, lit ); psz_html += strlen( lit )`: the literal and its
terminator are stored at the write cursor. -/
def emit (st : HState) (lit : Text) : Except Fault HState :=
  if st.html.length + lit.length + 1 ≤ st.size then
    .ok { st with html := st.html ++ lit }
  else .error .writeOOB

/-- `strncpy( psz_html, p, n ); psz_html += n`. -/
def copy (st : HState) (p : Text) (n : Nat) : Except Fault HState :=
  if st.html.length + n ≤ st.size then
    .ok { st with html := st.html ++ strncpy p n }
  else .error .writeOOB

/-- `strcat( psz_tagStack, c )` into the 100 bytes of the array: the
character and the terminator behind it have to fit. -/
def push (st : HState) (c : Nat) : Except Fault HState :=
  if st.stack.length + 2 ≤ 100 then
    .ok { st with stack := st.stack ++ [c] }
  else .error .stackOOB

/-- `psz_subtitle += n`. -/
def skip (n : Nat) (st : HState) : Except Fault HState := do
  let sub ← adv n st.sub
  pure { st with sub := sub }

/-- The table `psz_attribs` of the font attributes that are let through. -/
def psz_attribs : List Text :=
  [B "face=\"", B "family=\"", B "size=\"", B "color=\"", B "outline-color=\"",
   B "shadow-color=\"", B "outline-level=\"", B "shadow-level=\"",
   B "back-color=\"", B "alpha=\""]

/-- The `for( k=0; psz_attribs[ k ]; k++ )` search: the first entry of the
table that `psz_subtitle` starts with, ignoring case. -/
def findAttrib (sub : Text) : List Text → Option Text
  | [] => none
  | a :: r => if strncasecmp sub a a.length then some a else findAttrib sub r

/-- One attribute of a `<font ` tag: a listed attribute is copied through its
closing quote, any other text is jumped over through the second quote. -/
def fontAttr (st : HState) : Except Fault HState :=
  match findAttrib st.sub psz_attribs with
  | some a => do
    let r ← adv a.length st.sub
    let i_len := a.length + strcspn r 34 + 1
    let st1 ← copy st st.sub i_len
    skip i_len st1
  | none => do
    let i_len := strcspn st.sub 34 + 1
    let r ← adv i_len st.sub
    let i_len2 := i_len + strcspn r 34 + 1
    skip i_len2 st

/-- The loop `while (*psz_subtitle == 0x20) *psz_html++ = *psz_subtitle++;`. -/
def copyBlanks (size : Nat) : Text → Text → Except Fault (Text × Text)
  | [], html => .ok ([], html)
  | c :: r, html =>
    if c = 32 then
      if html.length < size then copyBlanks size r (html ++ [32])
      else .error .writeOOB
    else .ok (c :: r, html)

/-- The loop `while( *psz_subtitle != 0x3e )` over the attributes of a
`<font ` tag. -/
def fontLoop : Nat → HState → Except Fault HState
  | 0, _ => .error .fuel
  | fuel + 1, st =>
    if peek st.sub = 62 then .ok st
    else do
      let st1 ← fontAttr st
      let (sub2, html2) ← copyBlanks st1.size st1.sub st1.html
      fontLoop fuel { st1 with sub := sub2, html := html2 }

/-- The `b_match`/`i_len` pair that the `switch( *psz_lastTag )` computes for
the innermost open tag; an empty stack leaves `b_match` false. -/
def closeMatch (st : HState) : Bool × Nat :=
  match st.stack.getLast? with
  | none => (false, 0)
  | some t =>
    if t = 98 then (strncasecmp st.sub (B "</b>") 4, 4)
    else if t = 105 then (strncasecmp st.sub (B "</i>") 4, 4)
    else if t = 117 then (strncasecmp st.sub (B "</u>") 4, 4)
    else if t = 102 then (strncasecmp st.sub (B "</font>") 7, 7)
    else (false, 0)

/-- The branch for a closing tag.  `none` is the exit
`free( psz_html_start ); psz_html_start = NULL; break;`. -/
def closeTag (st : HState) : Except Fault (Option HState) :=
  if (closeMatch st).1 = false then pure none
  else do
    let st1 ← copy { st with stack := st.stack.dropLast } st.sub (closeMatch st).2
    let st2 ← skip (closeMatch st).2 st1
    pure (some st2)

/-- The characters that count as white space in the double-space check. -/
def isBlank (c : Nat) : Bool := c = 32 || c = 9

/-- The final `else` branch: an ordinary character.  It is stored at the write
cursor; when it and the byte stored before it are both blanks, the marker
`nbsp` (`NO_BREAKING_SPACE`) is stored over it instead. -/
def plainChar (nbsp : Text) (st : HState) : Except Fault HState :=
  if st.size ≤ st.html.length then .error .writeOOB
  else if st.html ≠ [] ∧ isBlank (peek st.sub) = true ∧
      isBlank (st.html.getLastD 0) = true then do
    let st1 ← emit st nbsp
    skip 1 st1
  else skip 1 { st with html := st.html ++ [peek st.sub] }

/-- The branch for a left angle bracket. -/
def tagBranch (st : HState) : Except Fault (Option HState) :=
  if strncasecmp st.sub (B "<br/>") 5 then do
    let st1 ← emit st (B "<br/>")
    let st2 ← skip 5 st1
    pure (some st2)
  else if strncasecmp st.sub (B "<b>") 3 then do
    let st1 ← emit st (B "<b>")
    let st2 ← push st1 98
    let st3 ← skip 3 st2
    pure (some st3)
  else if strncasecmp st.sub (B "<i>") 3 then do
    let st1 ← emit st (B "<i>")
    let st2 ← push st1 105
    let st3 ← skip 3 st2
    pure (some st3)
  else if strncasecmp st.sub (B "<u>") 3 then do
    let st1 ← emit st (B "<u>")
    let st2 ← push st1 117
    let st3 ← skip 3 st2
    pure (some st3)
  else if strncasecmp st.sub (B "<font ") 6 then do
    let st1 ← emit st (B "<font ")
    let st2 ← push st1 102
    let st3 ← skip 6 st2
    let st4 ← fontLoop (st3.sub.length + 1) st3
    let html5 ← put st4.size st4.html (peek st4.sub)
    let st6 ← skip 1 { st4 with html := html5 }
    pure (some st6)
  else if strncmp st.sub (B "</") 2 then closeTag st
  else do
    let st1 ← skip (strcspn st.sub 62) st
    pure (some st1)

/-- The branch for an ampersand. -/
def ampBranch (st : HState) : Except Fault HState :=
  if strncasecmp st.sub (B "&lt;") 4 then do
    let st1 ← emit st (B "&lt;")
    skip 4 st1
  else if strncasecmp st.sub (B "&gt;") 4 then do
    let st1 ← emit st (B "&gt;")
    skip 4 st1
  else if strncasecmp st.sub (B "&amp;") 5 then do
    let st1 ← emit st (B "&amp;")
    skip 5 st1
  else do
    let st1 ← emit st (B "&amp;")
    skip 1 st1

/-- One turn of the `while( *psz_subtitle )` body of `CreateHtmlSubtitle`, up
to the buffer check at its end.  `none` is the exit through `break` with
`psz_html_start = NULL`. -/
def htmlBody (nbsp : Text) (st : HState) : Except Fault (Option HState) :=
  if peek st.sub = 10 then do
    let st1 ← emit st (B "<br/>")
    let st2 ← skip 1 st1
    pure (some st2)
  else if peek st.sub = 60 then tagBranch st
  else if peek st.sub = 38 then do
    let st1 ← ampBranch st
    pure (some st1)
  else do
    let st1 ← plainChar nbsp st
    pure (some st1)

/-- The buffer check at the end of the loop body: 100 more bytes once the
write cursor is above `i_buf_size - 10`.  The NUL stored at the cursor after
the `realloc` lies inside the enlarged buffer. -/
def grow (st : HState) : HState :=
  if st.html.length > st.size - 10 then { st with size := st.size + 100 } else st

/-- The `while( *psz_subtitle )` loop of `CreateHtmlSubtitle`.  The result
`none` is the exit through `break`. -/
def htmlLoop (nbsp : Text) : Nat → HState → Except Fault (Option HState)
  | 0, _ => .error .fuel
  | fuel + 1, st =>
    if peek st.sub = 0 then .ok (some st)
    else do
      match ← htmlBody nbsp st with
      | none => pure none
      | some st1 => htmlLoop nbsp fuel (grow st1)

/-- The state at the head of the loop after `k` full turns; `none` when the
loop has been left before. -/
def htmlIter (nbsp : Text) : Nat → HState → Except Fault (Option HState)
  | 0, st => .ok (some st)
  | k + 1, st =>
    if peek st.sub = 0 then .ok none
    else do
      match ← htmlBody nbsp st with
      | none => pure none
      | some st1 => htmlIter nbsp k (grow st1)

/-- The state in which the loop is entered: the buffer of
`strlen( psz_subtitle ) + 100` bytes holds the opening root tag. -/
def htmlInit (s : Text) : Except Fault HState :=
  emit { sub := s, html := [], size := strlen s + 100, stack := [] } (B "<text>")

/-- `CreateHtmlSubtitle`, with the marker `NO_BREAKING_SPACE` of `subsdec.h`
as the parameter `nbsp`.  `none` is the result `NULL`.  Allocation is taken to
succeed.  On the exit through `break`, behind a closing tag that closes
nothing, the buffer has been handed to `free`, and the `strcpy` of the closing
root tag behind the loop stores through the write cursor that still points
into it: the fault `Fault.writeFreed`. -/
def CreateHtmlSubtitle (nbsp : Text) (s : Text) : Except Fault (Option Text) := do
  let st1 ← htmlInit s
  match ← htmlLoop nbsp (s.length + 1) st1 with
  | none => .error .writeFreed
  | some st2 => do
    let st3 ← emit st2 (B "</text>")
    if st3.stack ≠ [] then pure none else pure (some st3.html)

/-- Modelled from the spec: the marker `NO_BREAKING_SPACE` is defined in
`subsdec.h`, which is not among the sources; this is its upstream value, the
character reference of the no-break space.  The passes take the marker as a
parameter; this value is used where a pass is evaluated on a concrete text. -/
def nbsp160 : Text := B "&#160;"

/-! ## OpenDecoder -/

/-- `strcasecmp(p, q) == 0`. -/
def strcasecmp : Text → Text → Bool
  | [], q => if tolower 0 ≠ tolower (peek q) then false else true
  | c :: p, q =>
    if tolower c ≠ tolower (peek q) then false
    else if c = 0 then true
    else strcasecmp p q.tail

/-- `strdup(p)` and `strndup(p, n)` for an array `p` of `n` bytes: the
string at `p`. -/
def strdup (p : Text) : Text := p.takeWhile (fun c => c ≠ 0)

/-- The values of `p_dec->fmt_in.i_codec` that `OpenDecoder` tells apart. -/
inductive Codec where
  | subt
  | ssa
  | t140
  | other
  deriving DecidableEq, Repr

/-- The fields of `decoder_sys_t` that the text path uses.  `iconv_handle` is
`none` for `(vlc_iconv_t)-1`. -/
structure decoder_sys_t where
  iconv_handle : Option Nat
  b_autodetect_utf8 : Bool
  i_align : Nat
  i_original_height : Int
  i_original_width : Int
  deriving DecidableEq, Repr

/-- What `OpenDecoder` gets from outside its file: the macro `DEFAULT_NAME`
of `subsdec.h`, the results of `var_CreateGetNonEmptyString` for
`subsdec-encoding`, of `strdup( GetFallbackEncoding() )`, of
`var_CreateGetBool` for `subsdec-autodetect-utf8` and `subsdec-formatted`, of
`var_Get` for `subsdec-align`, and the functions `vlc_iconv_open( "UTF-8", . )`
and `ParseSSAHeader`. -/
structure OpenEnv where
  DEFAULT_NAME : Text
  subsdec_encoding : Option Text
  GetFallbackEncoding : Option Text
  autodetect_utf8 : Bool
  formatted : Bool
  subsdec_align : Nat
  vlc_iconv_open : Text → Option Nat
  ParseSSAHeader : decoder_sys_t → decoder_sys_t

/-- The value of `psz_charset` in `OpenDecoder` when the four attempts are
over, and the value that `p_sys->b_autodetect_utf8` has then. -/
def OpenDecoder_charset (env : OpenEnv) (codec : Codec) (psz_encoding : Option Text) :
    Text × Bool :=
  let c0 : Option Text :=
    if codec = Codec.t140 then some (strdup (B "UTF-8"))
    else
      match psz_encoding with
      | some e => if peek e ≠ 0 then some (strdup e) else none
      | none => none
  let c1 : Option Text :=
    if c0.isNone then
      match env.subsdec_encoding with
      | some v => if strcasecmp v env.DEFAULT_NAME then none else some v
      | none => none
    else c0
  let c2 : Option Text × Bool :=
    if c1.isNone then (env.GetFallbackEncoding, env.autodetect_utf8) else (c1, false)
  match c2.1 with
  | some c => (c, c2.2)
  | none => (strdup (B "UTF-8"), c2.2)

/-- The value that `OpenDecoder` gives `p_sys->iconv_handle` for the chosen
character set. -/
def OpenDecoder_iconv (env : OpenEnv) (psz_charset : Text) : Option Nat :=
  if !strcasecmp psz_charset (B "UTF-8") && !strcasecmp psz_charset (B "utf8") then
    env.vlc_iconv_open psz_charset
  else none

/-- `OpenDecoder`: the decoder state it leaves in `p_dec->p_sys`, `none` for
the result `VLC_EGENERIC`. -/
def OpenDecoder (env : OpenEnv) (codec : Codec) (psz_encoding : Option Text)
    (i_extra : Int) : Option decoder_sys_t :=
  if codec = Codec.other then none
  else
    let cs := OpenDecoder_charset env codec psz_encoding
    let p_sys : decoder_sys_t :=
      { iconv_handle := OpenDecoder_iconv env cs.1
        b_autodetect_utf8 := cs.2
        i_align := env.subsdec_align
        i_original_height := -1
        i_original_width := -1 }
    if codec = Codec.ssa ∧ env.formatted = true ∧ 0 < i_extra then
      some (env.ParseSSAHeader p_sys)
    else some p_sys

/-- The choice of the character set in the words of the specification: the
first of the candidates that is there, by priority. -/
def firstPresent : List (Option Text) → Text → Text
  | [], d => d
  | some c :: _, _ => c
  | none :: r, d => firstPresent r d

/-- The choice of the character set as the specification words it: `UTF-8`
when the codec is t140; otherwise the demuxer name when present and
non-empty; otherwise the configured value when present and not the default
name in any letter case; otherwise the locale fallback when available;
otherwise the hard-coded `UTF-8`. -/
def charsetByPriority (t140 : Bool) (demuxer configured fallback : Option Text)
    (sentinel : Text) : Text :=
  firstPresent
    [ if t140 then some (B "UTF-8") else none,
      (demuxer.map strdup).filter (fun d => d ≠ []),
      configured.filter (fun v => !strcasecmp v sentinel),
      fallback ]
    (B "UTF-8")

/-! ## ParseText -/

/-- A packet, `block_t`: `p_buffer` is the array of `i_buffer` bytes. -/
structure block_t where
  i_pts : Int
  i_length : Int
  p_buffer : Text
  deriving DecidableEq, Repr

/-- The fields of `subpicture_region_t` that `ParseText` sets. -/
structure subpicture_region_t where
  psz_text : Option Text
  psz_html : Option Text
  i_align : Nat
  deriving DecidableEq, Repr

/-- The fields of `subpicture_t` that `ParseText` sets. -/
structure subpicture_t where
  p_region : Option subpicture_region_t
  i_start : Int
  i_stop : Int
  b_ephemer : Bool
  b_absolute : Bool
  b_pausable : Bool
  i_x : Int
  i_y : Int
  i_original_picture_width : Int
  i_original_picture_height : Int
  deriving DecidableEq, Repr

/-- What `ParseText` gets from outside its file.  `EnsureUTF8` gives the
string as it has repaired it in place and whether its result was not `NULL`;
`IsUTF8` whether its result was not `NULL`; `vlc_iconv` whether it returned
`(size_t)(-1)`, the value it left in `inbytes_left`, and the bytes it has
written; `pf_spu_buffer_new` and `pf_create_region` the fresh object, `none`
for `NULL`.  `ParseSSAString` is taken to write the subpicture only. -/
structure DecEnv where
  NO_BREAKING_SPACE : Text
  SUBPICTURE_ALIGN_BOTTOM : Nat
  formatted : Bool
  EnsureUTF8 : Text → Text × Bool
  IsUTF8 : Text → Bool
  vlc_iconv : Nat → Text → Bool × Nat × Text
  pf_spu_buffer_new : Option subpicture_t
  pf_create_region : Option subpicture_region_t
  ParseSSAString : Text → subpicture_t → subpicture_t

/-- The sum of two times in `mtime_t`: the source adds with no test of the
range, and the 64-bit sum is the mathematical one reduced modulo `2^64` into
the range from `-2^63` to `2^63 - 1`. -/
def addTime (a b : Int) : Int := (a + b + 2 ^ 63) % 2 ^ 64 - 2 ^ 63

/-- The second half of `ParseText`, from `pf_spu_buffer_new` on, for the
string `psz_subtitle` that the conversion has left. -/
def ParseText_spu (env : DecEnv) (ssa : Bool) (p_sys : decoder_sys_t) (p_block : block_t)
    (psz_subtitle : Text) : Except Fault (Option subpicture_t × decoder_sys_t) :=
  match env.pf_spu_buffer_new with
  | none => pure (none, p_sys)
  | some spu0 =>
    match env.pf_create_region with
    | none => pure (none, p_sys)
    | some region =>
      if ssa = false then do
        let text ← StripTags psz_subtitle
        let html ← (if env.formatted then CreateHtmlSubtitle env.NO_BREAKING_SPACE psz_subtitle
          else pure region.psz_html)
        let stop := addTime p_block.i_pts p_block.i_length
        pure (some
          { spu0 with
            b_pausable := true
            p_region := some
              { region with
                i_align := env.SUBPICTURE_ALIGN_BOTTOM ||| p_sys.i_align
                psz_text := some text
                psz_html := html }
            i_x := if p_sys.i_align ≠ 0 then 20 else 0
            i_y := 10
            i_start := p_block.i_pts
            i_stop := stop
            b_ephemer := decide (p_block.i_length = 0)
            b_absolute := false }, p_sys)
      else do
        let spu2 := env.ParseSSAString psz_subtitle
          { spu0 with b_pausable := true, p_region := some region }
        let stop := addTime p_block.i_pts p_block.i_length
        pure (some
          { spu2 with
            i_start := p_block.i_pts
            i_stop := stop
            b_ephemer := decide (p_block.i_length = 0)
            b_absolute := false
            i_original_picture_width := p_sys.i_original_width
            i_original_picture_height := p_sys.i_original_height }, p_sys)

/-- The value of `p_sys->b_autodetect_utf8` behind the validity check that
`ParseText` makes when a converter is open: the flag is cleared when it was
set and `IsUTF8` returns `NULL`. -/
def ParseText_autodetect (env : DecEnv) (p_sys : decoder_sys_t) (psz_subtitle : Text) :
    Bool :=
  if p_sys.b_autodetect_utf8 then (if env.IsUTF8 psz_subtitle then true else false)
  else false

/-- `ParseText` for a packet of a decoder whose codec is SSA (`ssa`) or not:
the subpicture it returns, `none` for `NULL`, and the decoder state it
leaves. -/
def ParseText (env : DecEnv) (ssa : Bool) (p_sys : decoder_sys_t) (p_block : block_t) :
    Except Fault (Option subpicture_t × decoder_sys_t) :=
  if p_block.i_pts = 0 then pure (none, p_sys)
  else if p_block.p_buffer.length < 1 then pure (none, p_sys)
  else
    match p_sys.iconv_handle with
    | none =>
      ParseText_spu env ssa p_sys p_block (env.EnsureUTF8 (strdup p_block.p_buffer)).1
    | some handle =>
      if ParseText_autodetect env p_sys (strdup p_block.p_buffer) = false then
        if (env.vlc_iconv handle (strdup p_block.p_buffer)).1 = true ∨
            (env.vlc_iconv handle (strdup p_block.p_buffer)).2.1 ≠ 0 then
          pure (none, { p_sys with b_autodetect_utf8 := false })
        else
          ParseText_spu env ssa { p_sys with b_autodetect_utf8 := false } p_block
            (env.vlc_iconv handle (strdup p_block.p_buffer)).2.2
      else
        ParseText_spu env ssa { p_sys with b_autodetect_utf8 := true } p_block
          (strdup p_block.p_buffer)

/-- An environment for the evaluation of `ParseText` on concrete packets: the
upstream marker, `SUBPICTURE_ALIGN_BOTTOM` as `0x8`, formatting switched on,
a text that is valid UTF-8, a converter that copies its input, and allocators
that give objects with cleared fields. -/
def envDemo : DecEnv :=
  { NO_BREAKING_SPACE := nbsp160
    SUBPICTURE_ALIGN_BOTTOM := 8
    formatted := true
    EnsureUTF8 := fun p => (p, true)
    IsUTF8 := fun _ => true
    vlc_iconv := fun _ p => (false, 0, p)
    pf_spu_buffer_new := some
      { p_region := none, i_start := 0, i_stop := 0, b_ephemer := false, b_absolute := true,
        b_pausable := false, i_x := 0, i_y := 0, i_original_picture_width := 0,
        i_original_picture_height := 0 }
    pf_create_region := some { psz_text := none, psz_html := none, i_align := 0 }
    ParseSSAString := fun p spu =>
      { spu with p_region := some { psz_text := some p, psz_html := none, i_align := 0 } } }

/-- The subpicture that `ParseText` gives in `envDemo` for the plain text
`Hello <b>world</b>!` at time 1000 with duration 0. -/
def spuDemoText : subpicture_t :=
  { p_region := some
      { psz_text := some (B "Hello world!")
        psz_html := some (B "<text>Hello <b>world</b>!</text>")
        i_align := 8 }
    i_start := 1000, i_stop := 1000, b_ephemer := true, b_absolute := false,
    b_pausable := true, i_x := 0, i_y := 10, i_original_picture_width := 0,
    i_original_picture_height := 0 }

/-- The subpicture that `ParseText` gives in `envDemo` for the SSA text
`Dialogue` at time 1000 with duration 250. -/
def spuDemoSSA : subpicture_t :=
  { p_region := some { psz_text := some (B "Dialogue"), psz_html := none, i_align := 0 }
    i_start := 1000, i_stop := 1250, b_ephemer := false, b_absolute := false,
    b_pausable := true, i_x := 0, i_y := 0, i_original_picture_width := -1,
    i_original_picture_height := -1 }

/-- A decoder state for the evaluation of `ParseText`: no converter open. -/
def sysDemo : decoder_sys_t :=
  { iconv_handle := none, b_autodetect_utf8 := false, i_align := 0,
    i_original_height := -1, i_original_width := -1 }

/-- An environment for the evaluation of `OpenDecoder`: the upstream default
name, nothing configured, a locale fallback, and a converter for every
name. -/
def openDemo : OpenEnv :=
  { DEFAULT_NAME := B "Default"
    subsdec_encoding := none
    GetFallbackEncoding := some (B "CP1252")
    autodetect_utf8 := true
    formatted := true
    subsdec_align := 0
    vlc_iconv_open := fun _ => some 1
    ParseSSAHeader := fun p_sys => p_sys }

/-! ## GotoNextLine -/

/-- The inner loop of `GotoNextLine`,
`while( p_newline[0] == '\n' || p_newline[0] == '\r' ) p_newline++;`. -/
def GotoNextLine_run : Nat → Text → Except Fault Text
  | 0, _ => .error .fuel
  | fuel + 1, p =>
    if peek p = 10 ∨ peek p = 13 then do
      let p1 ← adv 1 p
      GotoNextLine_run fuel p1
    else pure p

/-- The loop `while( p_newline[0] != '\0' )` of `GotoNextLine`; the inner loop
is followed by `break`. -/
def GotoNextLine_loop : Nat → Text → Except Fault Text
  | 0, _ => .error .fuel
  | fuel + 1, p =>
    if peek p ≠ 0 then
      if peek p = 10 ∨ peek p = 13 then do
        let p1 ← adv 1 p
        GotoNextLine_run fuel p1
      else do
        let p1 ← adv 1 p
        GotoNextLine_loop fuel p1
    else pure p

/-- `GotoNextLine`: the pointer it returns, as the text in front of it. -/
def GotoNextLine (psz_text : Text) : Except Fault Text :=
  GotoNextLine_loop (psz_text.length + 1) psz_text

/-! ## Notions used in the statements and proofs -/

/-- The pass of `StripTags` over a text with a buffer and a step bound that
are large enough for it. -/
def strip (sub : Text) : Except Fault Text :=
  stripLoop (sub.length + 1) (sub.length + 1) sub []

/-- The second state is one that the scan can move to from the first: the
read cursor has not moved back, the buffer has the same size, and the write
cursor is inside the buffer if it was before. -/
def Follows (st st1 : HState) : Prop :=
  st1.sub.length ≤ st.sub.length ∧ st1.size = st.size ∧
    (st.html.length ≤ st.size → st1.html.length ≤ st1.size)

/-- The head-room that the buffer check at the end of the loop body keeps:
at the head of the loop ten bytes are free behind the write cursor. -/
def Inv (st : HState) : Prop := st.html.length + 10 ≤ st.size

/-- The well-nested texts with at most `d` tags open at once: ordinary
characters (no NUL, left angle bracket, ampersand or line feed), `<br/>`, and
nested pairs of `<b>`, `<i>`, `<u>`, all tags in lower case. -/
inductive Markup : Nat → Text → Prop
  | nil (d : Nat) : Markup d []
  | plain (d c : Nat) (x : Text) : c ≠ 0 → c ≠ 60 → c ≠ 38 → c ≠ 10 → Markup d x →
      Markup d (c :: x)
  | br (d : Nat) (x : Text) : Markup d x → Markup d (B "<br/>" ++ x)
  | pair (d t : Nat) (x y : Text) : (t = 98 ∨ t = 105 ∨ t = 117) → Markup d x →
      Markup (d + 1) y → Markup (d + 1) ([60, t, 62] ++ x ++ [60, 47, t, 62] ++ y)

/-- No blank stands directly behind a blank. -/
def noDoubleBlank : Text → Bool
  | a :: b :: r => !(isBlank a && isBlank b) && noDoubleBlank (b :: r)
  | _ => true

/-- The computation does not stop for want of steps. -/
def NoFuel {α : Type} (x : Except Fault α) : Prop := x ≠ .error .fuel

/-- The bytes of the literals that the loop of `CreateHtmlSubtitle` stores:
the tags `<br/>`, `<b>`, `<i>`, `<u>`, `<font ` and the entities `&lt;`, `&gt;`,
`&amp;`. -/
def loopBytes : Text := B "<br/><b><i><u><font &lt;&gt;&amp;"

/-- What the scan has stored between two states is made of bytes with the
property `P`, and so is the text still in front of the read cursor, if the
text in front of the read cursor was before. -/
def Emits (P : Nat → Prop) (st st1 : HState) : Prop :=
  (∀ c ∈ st.sub, P c) →
    (∃ e, st1.html = st.html ++ e ∧ ∀ c ∈ e, P c) ∧ ∀ c ∈ st1.sub, P c

/-- What the loop stores for a run of blanks, as the claim on double white
space is to be read: a blank that follows a blank in the output is replaced by
the marker, and the blank behind a marker is stored as it is.  The flag says
whether the byte stored last is a blank. -/
def markRun (nbsp : Text) : Bool → Text → Text
  | _, [] => []
  | true, _ :: r => nbsp ++ markRun nbsp false r
  | false, c :: r => c :: markRun nbsp true r

/-- The names of the font attributes that are let through: the entries of
`psz_attribs` without the `="` at their end. -/
def fontNames : List Text :=
  [B "face", B "family", B "size", B "color", B "outline-color", B "shadow-color",
   B "outline-level", B "shadow-level", B "back-color", B "alpha"]

/-- An attribute of the form `name="value"`, with the number of spaces that
stand behind its closing quote. -/
structure Attribute where
  name : Text
  value : Text
  blanks : Nat

/-- The form of an attribute: no NUL and no quote in the name and in the
value, and a name that starts with neither a space nor a right angle
bracket. -/
def AttrOk (a : Attribute) : Prop :=
  IsText a.name ∧ 34 ∉ a.name ∧ a.name.headD 61 ≠ 62 ∧ a.name.headD 61 ≠ 32 ∧
    IsText a.value ∧ 34 ∉ a.value

/-- The text of a list of attributes, as it stands in the tag. -/
def attrsIn : List Attribute → Text
  | [] => []
  | a :: r =>
    a.name ++ 61 :: 34 :: (a.value ++ 34 :: (List.replicate a.blanks 32 ++ attrsIn r))

/-- What the claim on the font tag lets through of a list of attributes: the
attributes with a name of the table, in any letter case, as they stand.  The
spaces behind an attribute are kept also where the attribute is dropped. -/
def attrsOut : List Attribute → Text
  | [] => []
  | a :: r =>
    (if a.name.map tolower ∈ fontNames then a.name ++ 61 :: 34 :: (a.value ++ [34]) else []) ++
      (List.replicate a.blanks 32 ++ attrsOut r)

/-- Two states of the scan that differ at most in the size of the buffer. -/
def Resized (st st1 : HState) : Prop :=
  st1.sub = st.sub ∧ st1.html = st.html ∧ st1.stack = st.stack

/-- Two results of a turn that differ at most in the size of the buffer. -/
def ResizedOpt : Option HState → Option HState → Prop
  | none, none => True
  | some st, some st1 => Resized st st1
  | _, _ => False

/-- Two runs agree unless one of them writes behind its buffer: they stop
with the same fault, or they give results that are related by `R`. -/
def Agree {α : Type} (R : α → α → Prop) (x y : Except Fault α) : Prop :=
  x = .error .writeOOB ∨ y = .error .writeOOB ∨
    match x, y with
    | .ok a, .ok b => R a b
    | .error e, .error e1 => e = e1
    | _, _ => False

/-- Two results of a turn that differ at most in the size of the buffer and in
the text in front of the read cursor, which is `r` in the one and `r1` in the
other. -/
def Tails (r r1 : Text) : Option HState → Option HState → Prop
  | some st, some st1 =>
    st.sub = r ∧ st1.sub = r1 ∧ st1.html = st.html ∧ st1.stack = st.stack
  | _, _ => False

/-- The decoder state after `ParseText` has been called on the packets of a
list, one after the other, each call starting from the state that the call
before it has left. -/
def ParseText_seq (env : DecEnv) (ssa : Bool) :
    decoder_sys_t → List block_t → Except Fault decoder_sys_t
  | p_sys, [] => pure p_sys
  | p_sys, p_block :: r => do
    let res ← ParseText env ssa p_sys p_block
    ParseText_seq env ssa res.2 r

/-- An environment for the evaluation of `ParseText` on packets that are not
valid UTF-8: as `envDemo`, with a validity check that fails on every text with
a byte above 127. -/
def envLatin : DecEnv :=
  { envDemo with IsUTF8 := fun p => p.all (fun c => decide (c < 128)) }

/-- The subpicture that `ParseText` gives in `envLatin` for the plain text
`caf`, `0xE9` at time 7 with duration 5. -/
def spuDemoLatin : subpicture_t :=
  { p_region := some
      { psz_text := some (B "caf" ++ [233])
        psz_html := some (B "<text>caf" ++ [233] ++ B "</text>")
        i_align := 8 }
    i_start := 7, i_stop := 12, b_ephemer := false, b_absolute := false,
    b_pausable := true, i_x := 0, i_y := 10, i_original_picture_width := 0,
    i_original_picture_height := 0 }

/-- The tags of the claim on the agreement of markup and plain text, in lower
case. -/
def simpleTags : List Text :=
  [B "<br/>", B "<b>", B "<i>", B "<u>", B "</b>", B "</i>", B "</u>"]

/-- The entities of the claim on the agreement of markup and plain text, in
lower case. -/
def simpleEntities : List Text := [B "&lt;", B "&gt;", B "&amp;"]

/-- The texts of the claim on the agreement of markup and plain text:
characters other than NUL, left angle bracket and ampersand (line feeds among
them), the tags of `simpleTags` and the entities of `simpleEntities` in any
letter case, and ampersands that start none of the four entities of
`StripTags`. -/
inductive Simple : Text → Prop
  | nil : Simple []
  | char (c : Nat) (x : Text) : c ≠ 0 → c ≠ 60 → c ≠ 38 → Simple x → Simple (c :: x)
  | tag (T x : Text) : T.map tolower ∈ simpleTags → Simple x → Simple (T ++ x)
  | entity (E x : Text) : E.map tolower ∈ simpleEntities → Simple x → Simple (E ++ x)
  | amp (x : Text) : startsEntity (38 :: x) = false → Simple x → Simple (38 :: x)

/-- The bytes `e`, stored for the text `x`, give the plain text of `x`: the
pass of `StripTags` over `x` gives a text `o`, and over `e` in front of any text
`t` it gives `o` in front of what it gives for `t`. -/
def SamePlain (x e : Text) : Prop :=
  IsText e ∧ ∃ o, strip x = .ok o ∧ ∀ t, strip (e ++ t) = (fun y => o ++ y) <$> strip t

/-! ## Library routines -/

theorem B_br : B "<br/>" = [60, 98, 114, 47, 62] := by decide
theorem B_lt : B "&lt;" = [38, 108, 116, 59] := by decide
theorem B_gt : B "&gt;" = [38, 103, 116, 59] := by decide
theorem B_amp : B "&amp;" = [38, 97, 109, 112, 59] := by decide
theorem B_quot : B "&quot;" = [38, 113, 117, 111, 116, 59] := by decide
theorem B_b : B "<b>" = [60, 98, 62] := by decide
theorem B_i : B "<i>" = [60, 105, 62] := by decide
theorem B_u : B "<u>" = [60, 117, 62] := by decide
theorem B_font : B "<font " = [60, 102, 111, 110, 116, 32] := by decide
theorem B_close : B "</" = [60, 47] := by decide
theorem B_cb : B "</b>" = [60, 47, 98, 62] := by decide
theorem B_ci : B "</i>" = [60, 47, 105, 62] := by decide
theorem B_cu : B "</u>" = [60, 47, 117, 62] := by decide
theorem B_cfont : B "</font>" = [60, 47, 102, 111, 110, 116, 62] := by decide
theorem B_text : B "<text>" = [60, 116, 101, 120, 116, 62] := by decide
theorem B_ctext : B "</text>" = [60, 47, 116, 101, 120, 116, 62] := by decide

theorem isText_nil : IsText [] := by simp [IsText]

theorem isText_cons {c : Nat} {r : Text} : IsText (c :: r) ↔ c ≠ 0 ∧ IsText r := by
  simp [IsText]

theorem isText_append {a b : Text} : IsText (a ++ b) ↔ IsText a ∧ IsText b := by
  simp only [IsText, List.mem_append]
  constructor
  · intro h; exact ⟨fun c hc => h c (Or.inl hc), fun c hc => h c (Or.inr hc)⟩
  · rintro ⟨h1, h2⟩ c (hc | hc)
    · exact h1 c hc
    · exact h2 c hc

theorem strlen_of_isText {s : Text} (h : IsText s) : strlen s = s.length := by
  induction s with
  | nil => rfl
  | cons c r ih =>
    rw [isText_cons] at h
    simp [strlen, h.1, ih h.2]

theorem strcspn_le (sub : Text) (c : Nat) : strcspn sub c ≤ sub.length := by
  induction sub with
  | nil => simp [strcspn]
  | cons x r ih =>
    simp only [strcspn, List.length_cons]
    split
    · omega
    · omega

/-- Up to the first `c` the scan of `strcspn` runs over the whole prefix. -/
theorem strcspn_append {t : Text} (c : Nat) (b : Text) (ht : IsText t) (hc : c ∉ t) :
    strcspn (t ++ c :: b) c = t.length := by
  induction t with
  | nil => simp [strcspn]
  | cons x r ih =>
    rw [isText_cons] at ht
    simp only [List.mem_cons, not_or] at hc
    have hx : ¬ (x = 0 ∨ x = c) := by
      rintro (h | h)
      · exact ht.1 h
      · exact hc.1 h.symm
    simp [strcspn, hx, ih ht.2 hc.2]

/-- A pattern in lower case without a NUL byte matches exactly the texts that
start with one of its spellings. -/
theorem strncasecmp_iff (q : Text) (hq : ∀ c ∈ q, c ≠ 0 ∧ tolower c = c) (p : Text) :
    strncasecmp p q q.length = true ↔ (p.take q.length).map tolower = q := by
  induction q generalizing p with
  | nil => simp [strncasecmp]
  | cons y q ih =>
    have hy := hq y (List.mem_cons_self _ _)
    have ih2 := ih (fun c hc => hq c (List.mem_cons_of_mem _ hc))
    cases p with
    | nil =>
      simp [strncasecmp, peek, hy.2]
      intro h; exact hy.1 (by rw [← h]; rfl)
    | cons x p =>
      simp only [List.length_cons, strncasecmp, peek, List.headD_cons, hy.2, List.tail_cons,
        List.take_succ_cons, List.map_cons, List.cons.injEq]
      by_cases hxy : tolower x = y
      · have hx0 : x ≠ 0 := fun h => hy.1 (by rw [← hxy, h]; rfl)
        simp [hxy, hx0, ih2 p]
      · simp [hxy]

theorem adv_ok {n : Nat} {sub : Text} (h : n ≤ sub.length) : adv n sub = .ok (sub.drop n) := by
  simp [adv, h]

theorem put_ok {cap : Nat} {out : Text} (c : Nat) (h : out.length < cap) :
    put cap out c = .ok (out ++ [c]) := by
  simp [put, h]

/-! ## StripTags: the shape of one turn -/

/-- One turn of `StripTags` in front of the common increment emits at most
one byte and moves the read cursor inside the text; what it emits and how far
it moves depend on the text in front of the cursor only. -/
theorem stripBody_shape (sub : Text) :
    ∃ (e : Text) (k : Nat), e.length ≤ 1 ∧ k ≤ sub.length ∧
      ∀ cap out, out.length < cap → stripBody cap sub out = .ok (sub.drop k, out ++ e) := by
  unfold stripBody
  by_cases h60 : peek sub = 60
  · by_cases hbr : strncasecmp sub (B "<br/>") 5 = true
    · refine ⟨[10], strcspn sub 62, by simp, strcspn_le _ _, fun cap out h => ?_⟩
      simp [h60, hbr, put_ok _ h, adv_ok (strcspn_le sub 62), bind, Except.bind, pure, Except.pure]
    · refine ⟨[], strcspn sub 62, by simp, strcspn_le _ _, fun cap out h => ?_⟩
      simp [h60, hbr, adv_ok (strcspn_le sub 62), bind, Except.bind, pure, Except.pure]
  · by_cases h38 : peek sub = 38
    · by_cases h1 : strncasecmp sub (B "&lt;") 4 = true
      · refine ⟨[60], strcspn sub 59, by simp, strcspn_le _ _, fun cap out h => ?_⟩
        simp [h38, h1, put_ok _ h, adv_ok (strcspn_le sub 59), bind, Except.bind, pure, Except.pure]
      · by_cases h2 : strncasecmp sub (B "&gt;") 4 = true
        · refine ⟨[62], strcspn sub 59, by simp, strcspn_le _ _, fun cap out h => ?_⟩
          simp [h38, h1, h2, put_ok _ h, adv_ok (strcspn_le sub 59), bind, Except.bind, pure,
            Except.pure]
        · by_cases h3 : strncasecmp sub (B "&amp;") 5 = true
          · refine ⟨[38], strcspn sub 59, by simp, strcspn_le _ _, fun cap out h => ?_⟩
            simp [h38, h1, h2, h3, put_ok _ h, adv_ok (strcspn_le sub 59), bind, Except.bind,
              pure, Except.pure]
          · by_cases h4 : strncasecmp sub (B "&quot;") 6 = true
            · refine ⟨[34], strcspn sub 59, by simp, strcspn_le _ _, fun cap out h => ?_⟩
              simp [h38, h1, h2, h3, h4, put_ok _ h, adv_ok (strcspn_le sub 59), bind,
                Except.bind, pure, Except.pure]
            · refine ⟨[38], 0, by simp, by simp, fun cap out h => ?_⟩
              simp [h38, h1, h2, h3, h4, put_ok _ h, bind, Except.bind, pure, Except.pure]
    · refine ⟨[peek sub], 0, by simp, by simp, fun cap out h => ?_⟩
      simp [h60, h38, put_ok _ h, bind, Except.bind, pure, Except.pure]

theorem peek_ne_zero_length {sub : Text} (h : peek sub ≠ 0) : 0 < sub.length := by
  cases sub with
  | nil => simp [peek] at h
  | cons c r => simp

/-- One full turn of the loop of `StripTags`, the common increment included. -/
theorem stripLoop_step {sub : Text} (h0 : peek sub ≠ 0) :
    ∃ (e : Text) (k : Nat), e.length ≤ 1 ∧ k ≤ sub.length ∧
      (∀ cap out, out.length < cap → stripBody cap sub out = .ok (sub.drop k, out ++ e)) ∧
      ∀ cap f out, out.length < cap →
        stripLoop cap (f + 1) sub out =
          if k < sub.length then stripLoop cap f (sub.drop (k + 1)) (out ++ e)
          else .error .readOOB := by
  obtain ⟨e, k, he, hk, hb⟩ := stripBody_shape sub
  refine ⟨e, k, he, hk, hb, fun cap f out h => ?_⟩
  simp only [stripLoop, h0, if_false, hb cap out h, bind, Except.bind, adv, List.length_drop]
  by_cases hlt : k < sub.length
  · have h1 : 1 ≤ sub.length - k := by omega
    simp [hlt, h1, Nat.add_comm]
  · have h1 : ¬ 1 ≤ sub.length - k := by omega
    simp [hlt, h1]

/-- The result of the loop of `StripTags` does not depend on the step bound
nor on the buffer size as long as both are large enough, and the bytes
already emitted are a prefix of what it returns. -/
theorem stripLoop_out (n : Nat) : ∀ (sub : Text), sub.length ≤ n →
    ∀ (cap f : Nat) (out : Text) (cap2 f2 : Nat), sub.length < f → sub.length < f2 →
      out.length + sub.length < cap → sub.length < cap2 →
      stripLoop cap f sub out = (fun r => out ++ r) <$> stripLoop cap2 f2 sub [] := by
  induction n with
  | zero =>
    intro sub hn cap f out cap2 f2 hf hf2 hc hc2
    have hs : sub = [] := List.length_eq_zero.mp (by omega)
    subst hs
    obtain ⟨f, rfl⟩ : ∃ g, f = g + 1 := ⟨f - 1, by omega⟩
    obtain ⟨f2, rfl⟩ : ∃ g, f2 = g + 1 := ⟨f2 - 1, by omega⟩
    have h1 : out.length < cap := by omega
    have h2 : 0 < cap2 := by omega
    simp [stripLoop, peek, h1, h2, Functor.map, Except.map]
  | succ n ih =>
    intro sub hn cap f out cap2 f2 hf hf2 hc hc2
    obtain ⟨f, rfl⟩ : ∃ g, f = g + 1 := ⟨f - 1, by omega⟩
    obtain ⟨f2, rfl⟩ : ∃ g, f2 = g + 1 := ⟨f2 - 1, by omega⟩
    by_cases h0 : peek sub = 0
    · have h1 : out.length < cap := by omega
      have h2 : 0 < cap2 := by omega
      simp [stripLoop, h0, h1, h2, Functor.map, Except.map]
    · obtain ⟨e, k, he, hk, -, hstep⟩ := stripLoop_step h0
      have hpos := peek_ne_zero_length h0
      rw [hstep cap f out (by omega), hstep cap2 f2 [] (by simpa using (by omega : 0 < cap2))]
      by_cases hlt : k < sub.length
      · simp only [hlt, if_true, List.nil_append]
        have hd : (sub.drop (k + 1)).length ≤ n := by simp; omega
        have hd2 : (sub.drop (k + 1)).length + (k + 1) = sub.length := by simp; omega
        rw [ih _ hd cap f (out ++ e) cap2 f2 (by omega) (by omega)
          (by simp; omega) (by omega)]
        rw [ih _ hd cap2 f2 e cap2 f2 (by omega) (by omega) (by omega) (by omega)]
        cases stripLoop cap2 f2 (sub.drop (k + 1)) [] <;>
          simp [Functor.map, Except.map]
      · simp [hlt, Functor.map, Except.map]

/-- The loop of `StripTags` never runs out of steps and never stores behind
its buffer, and what it returns is no longer than the bytes emitted before
plus the text still to be read.  The only way out of defined behaviour is a
read cursor that passes the terminator. -/
theorem stripLoop_bound (n : Nat) : ∀ (sub : Text), sub.length ≤ n →
    ∀ (cap f : Nat) (out : Text), sub.length < f → out.length + sub.length < cap →
      stripLoop cap f sub out = .error .readOOB ∨
      ∃ y, stripLoop cap f sub out = .ok y ∧ y.length ≤ out.length + sub.length := by
  induction n with
  | zero =>
    intro sub hn cap f out hf hc
    have hs : sub = [] := List.length_eq_zero.mp (by omega)
    subst hs
    obtain ⟨f, rfl⟩ : ∃ g, f = g + 1 := ⟨f - 1, by omega⟩
    have h1 : out.length < cap := by omega
    right
    exact ⟨out, by simp [stripLoop, peek, h1], by simp⟩
  | succ n ih =>
    intro sub hn cap f out hf hc
    obtain ⟨f, rfl⟩ : ∃ g, f = g + 1 := ⟨f - 1, by omega⟩
    by_cases h0 : peek sub = 0
    · have h1 : out.length < cap := by omega
      right
      exact ⟨out, by simp [stripLoop, h0, h1], by omega⟩
    · obtain ⟨e, k, he, hk, -, hstep⟩ := stripLoop_step h0
      have hpos := peek_ne_zero_length h0
      rw [hstep cap f out (by omega)]
      by_cases hlt : k < sub.length
      · simp only [hlt, if_true]
        have hd : (sub.drop (k + 1)).length ≤ n := by simp; omega
        have hd2 : (sub.drop (k + 1)).length + (k + 1) = sub.length := by simp; omega
        rcases ih _ hd cap f (out ++ e) (by omega) (by simp; omega) with h | ⟨y, hy, hlen⟩
        · exact Or.inl h
        · refine Or.inr ⟨y, hy, ?_⟩
          simp at hlen
          omega
      · simp [hlt]

theorem StripTags_eq_strip {s : Text} (h : IsText s) : StripTags s = strip s := by
  simp [StripTags, strip, strlen_of_isText h]

theorem stripLoop_eq_strip {cap f : Nat} {sub out : Text} (hf : sub.length < f)
    (hc : out.length + sub.length < cap) :
    stripLoop cap f sub out = (fun r => out ++ r) <$> strip sub :=
  stripLoop_out sub.length sub (Nat.le_refl _) cap f out _ _ hf (by omega) hc (by omega)

theorem strcspn_all {t : Text} (c : Nat) (ht : IsText t) (hc : c ∉ t) :
    strcspn t c = t.length := by
  have := strcspn_append c [] ht hc
  induction t with
  | nil => simp [strcspn]
  | cons x r ih =>
    rw [isText_cons] at ht
    simp only [List.mem_cons, not_or] at hc
    have hx : ¬ (x = 0 ∨ x = c) := by
      rintro (h | h)
      · exact ht.1 h
      · exact hc.1 h.symm
    simp [strcspn, hx, ih ht.2 hc.2 (strcspn_append c [] ht.2 hc.2)]

theorem br_match (p : Text) :
    strncasecmp p (B "<br/>") 5 = true ↔ (p.take 5).map tolower = [60, 98, 114, 47, 62] := by
  have := strncasecmp_iff [60, 98, 114, 47, 62] (by decide) p
  simpa [B_br] using this

theorem lt_match (p : Text) :
    strncasecmp p (B "&lt;") 4 = true ↔ (p.take 4).map tolower = [38, 108, 116, 59] := by
  have := strncasecmp_iff [38, 108, 116, 59] (by decide) p
  simpa [B_lt] using this

theorem gt_match (p : Text) :
    strncasecmp p (B "&gt;") 4 = true ↔ (p.take 4).map tolower = [38, 103, 116, 59] := by
  have := strncasecmp_iff [38, 103, 116, 59] (by decide) p
  simpa [B_gt] using this

theorem amp_match (p : Text) :
    strncasecmp p (B "&amp;") 5 = true ↔ (p.take 5).map tolower = [38, 97, 109, 112, 59] := by
  have := strncasecmp_iff [38, 97, 109, 112, 59] (by decide) p
  simpa [B_amp] using this

theorem quot_match (p : Text) :
    strncasecmp p (B "&quot;") 6 = true ↔
      (p.take 6).map tolower = [38, 113, 117, 111, 116, 59] := by
  have := strncasecmp_iff [38, 113, 117, 111, 116, 59] (by decide) p
  simpa [B_quot] using this

/-- The characters that no letter is mapped to by `tolower`. -/
theorem tolower_eq_fixed {c d : Nat} (hd : d < 65 ∨ (90 < d ∧ d < 97) ∨ 122 < d) :
    tolower c = d ↔ c = d := by
  unfold tolower
  by_cases h : 65 ≤ c ∧ c ≤ 90
  · rw [if_pos h]; constructor <;> intro h2 <;> omega
  · rw [if_neg h]

/-- An ordinary character is copied by `StripTags`. -/
theorem strip_cons_plain {c : Nat} (r : Text) (h0 : c ≠ 0) (h60 : c ≠ 60) (h38 : c ≠ 38) :
    strip (c :: r) = (fun y => c :: y) <$> strip r := by
  have h1 : stripLoop ((c :: r).length + 1) ((c :: r).length + 1) (c :: r) [] =
      stripLoop ((c :: r).length + 1) (c :: r).length r [c] := by
    simp [stripLoop, stripBody, peek, h0, h60, h38, put, adv, bind, Except.bind, pure,
      Except.pure]
  rw [strip, h1, stripLoop_eq_strip (by simp) (by simp; omega)]
  rfl

/-- A text without a left angle bracket and an ampersand in front of the read
cursor is copied by `StripTags`. -/
theorem strip_plain_prefix {a : Text} (rest : Text) (ha : IsText a) (h60 : 60 ∉ a)
    (h38 : 38 ∉ a) : strip (a ++ rest) = (fun y => a ++ y) <$> strip rest := by
  induction a with
  | nil =>
    rw [List.nil_append]
    cases strip rest <;> simp [Functor.map, Except.map]
  | cons c r ih =>
    rw [isText_cons] at ha
    simp only [List.mem_cons, not_or] at h60 h38
    rw [List.cons_append, strip_cons_plain _ ha.1 (fun h => h60.1 h.symm) (fun h => h38.1 h.symm),
      ih ha.2 h60.2 h38.2]
    cases strip rest <;> simp [Functor.map, Except.map]

/-- Whether the tag body `t` in front of its closing bracket is `br/` in some
letter case decides the `strncasecmp` of `StripTags`. -/
theorem br_tag_iff {t : Text} (b : Text) (h62 : 62 ∉ t) :
    strncasecmp (60 :: (t ++ 62 :: b)) (B "<br/>") 5 = true ↔
      t.map tolower = [98, 114, 47] := by
  rw [br_match]
  have e62 : ∀ c, tolower c = 62 ↔ c = 62 := fun c => tolower_eq_fixed (by omega)
  have t62 : tolower 62 = 62 := by decide
  have t60 : tolower 60 = 60 := by decide
  rcases t with _ | ⟨x, _ | ⟨y, _ | ⟨z, _ | ⟨w, r⟩⟩⟩⟩
  · simp [t60, t62]
  · simp [t60, t62]
  · simp [t60, t62]
  · simp [t60, t62]
  · simp only [List.mem_cons, not_or] at h62
    simp [t60, e62]
    intro _ _ _ h
    exact absurd h.symm h62.2.2.2.1

/-- A closed tag is jumped over by `StripTags`; it leaves a line feed when
its body is `br/` in some letter case and nothing otherwise. -/
theorem strip_tag {t : Text} (b : Text) (ht : IsText t) (h62 : 62 ∉ t) :
    strip (60 :: (t ++ 62 :: b)) =
      (fun y => (if t.map tolower = [98, 114, 47] then [10] else []) ++ y) <$> strip b := by
  have hs : strcspn (60 :: (t ++ 62 :: b)) 62 = t.length + 1 := by
    simp [strcspn, strcspn_append 62 b ht h62]
  have hbr := br_tag_iff b h62
  have h1 : stripLoop ((60 :: (t ++ 62 :: b)).length + 1) ((60 :: (t ++ 62 :: b)).length + 1)
      (60 :: (t ++ 62 :: b)) [] =
      stripLoop ((60 :: (t ++ 62 :: b)).length + 1) (60 :: (t ++ 62 :: b)).length b
        (if t.map tolower = [98, 114, 47] then [10] else []) := by
    by_cases h : t.map tolower = [98, 114, 47]
    · have hb : strncasecmp (60 :: (t ++ 62 :: b)) (B "<br/>") 5 = true := hbr.mpr h
      simp [stripLoop, stripBody, peek, hb, hs, h, put, adv, bind, Except.bind, pure,
        Except.pure]
    · have hb : strncasecmp (60 :: (t ++ 62 :: b)) (B "<br/>") 5 = false := by
        simpa using (not_congr hbr).mpr h
      simp [stripLoop, stripBody, peek, hb, hs, h, adv, bind, Except.bind, pure, Except.pure]
  rw [strip, h1, stripLoop_eq_strip (by simp; omega) (by split <;> simp <;> omega)]

/-- A left angle bracket with no right angle bracket behind it takes the read
cursor of `StripTags` past the terminator. -/
theorem strip_tag_open {t : Text} (ht : IsText t) (h62 : 62 ∉ t) :
    strip (60 :: t) = .error .readOOB := by
  have hs : strcspn (60 :: t) 62 = t.length + 1 := by
    simp [strcspn, strcspn_all 62 ht h62]
  unfold strip
  by_cases hb : strncasecmp (60 :: t) (B "<br/>") 5 = true
  · simp [stripLoop, stripBody, peek, hb, hs, put, adv, bind, Except.bind, pure, Except.pure]
  · simp [stripLoop, stripBody, peek, hb, hs, adv, bind, Except.bind, pure, Except.pure]

theorem tolower_ne {c d : Nat} (x : Nat) (h : tolower c = d) (hx : tolower x ≠ d) : c ≠ x := by
  rintro rfl; exact hx h

/-- The four entities of `StripTags`, each in any letter case, are replaced by
their character. -/
theorem strip_entity (E b : Text) :
    (E.map tolower = [38, 108, 116, 59] → strip (E ++ b) = (fun y => 60 :: y) <$> strip b) ∧
    (E.map tolower = [38, 103, 116, 59] → strip (E ++ b) = (fun y => 62 :: y) <$> strip b) ∧
    (E.map tolower = [38, 97, 109, 112, 59] →
      strip (E ++ b) = (fun y => 38 :: y) <$> strip b) ∧
    (E.map tolower = [38, 113, 117, 111, 116, 59] →
      strip (E ++ b) = (fun y => 34 :: y) <$> strip b) := by
  have e38 : ∀ c, tolower c = 38 ↔ c = 38 := fun c => tolower_eq_fixed (by omega)
  have e59 : ∀ c, tolower c = 59 ↔ c = 59 := fun c => tolower_eq_fixed (by omega)
  refine ⟨?_, ?_, ?_, ?_⟩
  · intro h
    rcases E with _ | ⟨e0, _ | ⟨e1, _ | ⟨e2, _ | ⟨e3, _ | ⟨e4, r⟩⟩⟩⟩⟩ <;> simp [e38, e59] at h
    obtain ⟨rfl, h1, h2, rfl⟩ := h
    have a1 := tolower_ne 0 h1 (by decide)
    have a2 := tolower_ne 59 h1 (by decide)
    have b1 := tolower_ne 0 h2 (by decide)
    have b2 := tolower_ne 59 h2 (by decide)
    have hm : strncasecmp (38 :: e1 :: e2 :: 59 :: b) (B "&lt;") 4 = true := by
      rw [lt_match]; simp [h1, h2]; decide
    have hstep : stripLoop ((38 :: e1 :: e2 :: 59 :: b).length + 1)
        ((38 :: e1 :: e2 :: 59 :: b).length + 1) (38 :: e1 :: e2 :: 59 :: b) [] =
        stripLoop ((38 :: e1 :: e2 :: 59 :: b).length + 1) (38 :: e1 :: e2 :: 59 :: b).length
          b [60] := by
      simp [stripLoop, stripBody, peek, hm, strcspn, a1, a2, b1, b2, put, adv, bind,
        Except.bind, pure, Except.pure]
    simp only [List.cons_append, List.nil_append]
    rw [strip, hstep, stripLoop_eq_strip (by simp; omega) (by simp; omega)]
    rfl
  · intro h
    rcases E with _ | ⟨e0, _ | ⟨e1, _ | ⟨e2, _ | ⟨e3, _ | ⟨e4, r⟩⟩⟩⟩⟩ <;> simp [e38, e59] at h
    obtain ⟨rfl, h1, h2, rfl⟩ := h
    have a1 := tolower_ne 0 h1 (by decide)
    have a2 := tolower_ne 59 h1 (by decide)
    have b1 := tolower_ne 0 h2 (by decide)
    have b2 := tolower_ne 59 h2 (by decide)
    have hl : strncasecmp (38 :: e1 :: e2 :: 59 :: b) (B "&lt;") 4 = false := by
      rw [← Bool.not_eq_true, lt_match]; simp [h1, h2]
    have hm : strncasecmp (38 :: e1 :: e2 :: 59 :: b) (B "&gt;") 4 = true := by
      rw [gt_match]; simp [h1, h2]; decide
    have hstep : stripLoop ((38 :: e1 :: e2 :: 59 :: b).length + 1)
        ((38 :: e1 :: e2 :: 59 :: b).length + 1) (38 :: e1 :: e2 :: 59 :: b) [] =
        stripLoop ((38 :: e1 :: e2 :: 59 :: b).length + 1) (38 :: e1 :: e2 :: 59 :: b).length
          b [62] := by
      simp [stripLoop, stripBody, peek, hl, hm, strcspn, a1, a2, b1, b2, put, adv, bind,
        Except.bind, pure, Except.pure]
    simp only [List.cons_append, List.nil_append]
    rw [strip, hstep, stripLoop_eq_strip (by simp; omega) (by simp; omega)]
    rfl
  · intro h
    rcases E with _ | ⟨e0, _ | ⟨e1, _ | ⟨e2, _ | ⟨e3, _ | ⟨e4, _ | ⟨e5, r⟩⟩⟩⟩⟩⟩ <;>
      simp [e38, e59] at h
    obtain ⟨rfl, h1, h2, h3, rfl⟩ := h
    have a1 := tolower_ne 0 h1 (by decide)
    have a2 := tolower_ne 59 h1 (by decide)
    have b1 := tolower_ne 0 h2 (by decide)
    have b2 := tolower_ne 59 h2 (by decide)
    have c1 := tolower_ne 0 h3 (by decide)
    have c2 := tolower_ne 59 h3 (by decide)
    have hl : strncasecmp (38 :: e1 :: e2 :: e3 :: 59 :: b) (B "&lt;") 4 = false := by
      rw [← Bool.not_eq_true, lt_match]; simp [h1, h2, h3]
    have hg : strncasecmp (38 :: e1 :: e2 :: e3 :: 59 :: b) (B "&gt;") 4 = false := by
      rw [← Bool.not_eq_true, gt_match]; simp [h1, h2, h3]
    have hm : strncasecmp (38 :: e1 :: e2 :: e3 :: 59 :: b) (B "&amp;") 5 = true := by
      rw [amp_match]; simp [h1, h2, h3]; decide
    have hstep : stripLoop ((38 :: e1 :: e2 :: e3 :: 59 :: b).length + 1)
        ((38 :: e1 :: e2 :: e3 :: 59 :: b).length + 1) (38 :: e1 :: e2 :: e3 :: 59 :: b) [] =
        stripLoop ((38 :: e1 :: e2 :: e3 :: 59 :: b).length + 1)
          (38 :: e1 :: e2 :: e3 :: 59 :: b).length b [38] := by
      simp [stripLoop, stripBody, peek, hl, hg, hm, strcspn, a1, a2, b1, b2, c1, c2, put, adv,
        bind, Except.bind, pure, Except.pure]
    simp only [List.cons_append, List.nil_append]
    rw [strip, hstep, stripLoop_eq_strip (by simp; omega) (by simp; omega)]
    rfl
  · intro h
    rcases E with _ | ⟨e0, _ | ⟨e1, _ | ⟨e2, _ | ⟨e3, _ | ⟨e4, _ | ⟨e5, _ | ⟨e6, r⟩⟩⟩⟩⟩⟩⟩ <;>
      simp [e38, e59] at h
    obtain ⟨rfl, h1, h2, h3, h4, rfl⟩ := h
    have a1 := tolower_ne 0 h1 (by decide)
    have a2 := tolower_ne 59 h1 (by decide)
    have b1 := tolower_ne 0 h2 (by decide)
    have b2 := tolower_ne 59 h2 (by decide)
    have c1 := tolower_ne 0 h3 (by decide)
    have c2 := tolower_ne 59 h3 (by decide)
    have d1 := tolower_ne 0 h4 (by decide)
    have d2 := tolower_ne 59 h4 (by decide)
    have hl : strncasecmp (38 :: e1 :: e2 :: e3 :: e4 :: 59 :: b) (B "&lt;") 4 = false := by
      rw [← Bool.not_eq_true, lt_match]; simp [h1, h2, h3]
    have hg : strncasecmp (38 :: e1 :: e2 :: e3 :: e4 :: 59 :: b) (B "&gt;") 4 = false := by
      rw [← Bool.not_eq_true, gt_match]; simp [h1, h2, h3]
    have ha : strncasecmp (38 :: e1 :: e2 :: e3 :: e4 :: 59 :: b) (B "&amp;") 5 = false := by
      rw [← Bool.not_eq_true, amp_match]; simp [h1, h2, h3, h4]
    have hm : strncasecmp (38 :: e1 :: e2 :: e3 :: e4 :: 59 :: b) (B "&quot;") 6 = true := by
      rw [quot_match]; simp [h1, h2, h3, h4]; decide
    have hstep : stripLoop ((38 :: e1 :: e2 :: e3 :: e4 :: 59 :: b).length + 1)
        ((38 :: e1 :: e2 :: e3 :: e4 :: 59 :: b).length + 1)
        (38 :: e1 :: e2 :: e3 :: e4 :: 59 :: b) [] =
        stripLoop ((38 :: e1 :: e2 :: e3 :: e4 :: 59 :: b).length + 1)
          (38 :: e1 :: e2 :: e3 :: e4 :: 59 :: b).length b [34] := by
      simp [stripLoop, stripBody, peek, hl, hg, ha, hm, strcspn, a1, a2, b1, b2, c1, c2, d1, d2,
        put, adv, bind, Except.bind, pure, Except.pure]
    simp only [List.cons_append, List.nil_append]
    rw [strip, hstep, stripLoop_eq_strip (by simp; omega) (by simp; omega)]
    rfl

/-- An ampersand that starts none of the four entities is copied by
`StripTags`. -/
theorem strip_amp_bare (r : Text) (h : startsEntity (38 :: r) = false) :
    strip (38 :: r) = (fun y => 38 :: y) <$> strip r := by
  simp only [startsEntity, entities, List.any_cons, List.any_nil, Bool.or_false,
    Bool.or_eq_false_iff, beq_eq_false_iff_ne, ne_eq] at h
  obtain ⟨h1, h2, h3, h4⟩ := h
  have hl : strncasecmp (38 :: r) (B "&lt;") 4 = false := by
    rw [← Bool.not_eq_true, lt_match]; simpa [B_lt] using h1
  have hg : strncasecmp (38 :: r) (B "&gt;") 4 = false := by
    rw [← Bool.not_eq_true, gt_match]; simpa [B_gt] using h2
  have ha : strncasecmp (38 :: r) (B "&amp;") 5 = false := by
    rw [← Bool.not_eq_true, amp_match]; simpa [B_amp] using h3
  have hq : strncasecmp (38 :: r) (B "&quot;") 6 = false := by
    rw [← Bool.not_eq_true, quot_match]; simpa [B_quot] using h4
  have hstep : stripLoop ((38 :: r).length + 1) ((38 :: r).length + 1) (38 :: r) [] =
      stripLoop ((38 :: r).length + 1) (38 :: r).length r [38] := by
    simp [stripLoop, stripBody, peek, hl, hg, ha, hq, put, adv, bind, Except.bind, pure,
      Except.pure]
  rw [strip, hstep, stripLoop_eq_strip (by simp) (by simp; omega)]
  rfl

/-- A text without a left angle bracket and without an entity is returned
unchanged. -/
theorem strip_fixed {x : Text} (hx : IsText x) (h60 : 60 ∉ x) (hne : noEntity x = true) :
    strip x = .ok x := by
  induction x with
  | nil => simp [strip, stripLoop, peek]
  | cons c r ih =>
    rw [isText_cons] at hx
    simp only [List.mem_cons, not_or] at h60
    simp only [noEntity, Bool.and_eq_true, Bool.not_eq_true'] at hne
    by_cases h38 : c = 38
    · subst h38
      rw [strip_amp_bare r hne.1, ih hx.2 h60.2 hne.2]
      rfl
    · rw [strip_cons_plain r hx.1 (fun h => h60.1 h.symm) h38, ih hx.2 h60.2 hne.2]
      rfl

/-! ## StripTags: the claims -/

/-- C1 (the code at the failing input): on the truncated text `a<b`, whose
left angle bracket has no right angle bracket behind it, `StripTags` moves its
read cursor past the terminator. -/
theorem StripTags_truncated_tag_overrun : StripTags (B "a<b") = .error .readOOB := by
  decide

/-- Every text that ends inside a tag (ordinary text, then a left angle
bracket with no right angle bracket behind it) takes the read cursor of
`StripTags` past the terminator. -/
theorem StripTags_unclosed_tag (a t : Text) (ha : IsText a) (ht : IsText t) (ha60 : 60 ∉ a)
    (ha38 : 38 ∉ a) (ht62 : 62 ∉ t) : StripTags (a ++ B "<" ++ t) = .error .readOOB := by
  have hall : IsText (a ++ B "<" ++ t) := by
    rw [isText_append, isText_append]; exact ⟨⟨ha, by decide⟩, ht⟩
  have e : a ++ B "<" ++ t = a ++ 60 :: t := by
    have : B "<" = [60] := by decide
    simp [this]
  rw [StripTags_eq_strip hall, e, strip_plain_prefix _ ha ha60 ha38, strip_tag_open ht ht62]
  rfl

/-- C6: for a text `a` without a left angle bracket and an ampersand in front
of a closed tag with body `t`, `StripTags` returns `a`, then a line feed when
`t` is `br/` in some letter case and nothing otherwise, then what it returns
for the text `b` behind the tag. -/
theorem StripTags_closed_tag (a t b : Text) (ha : IsText a) (ht : IsText t) (hb : IsText b)
    (ha60 : 60 ∉ a) (ha38 : 38 ∉ a) (ht62 : 62 ∉ t) :
    StripTags (a ++ B "<" ++ t ++ B ">" ++ b) =
      (fun y => a ++ (if t.map tolower = B "br/" then [10] else []) ++ y) <$> StripTags b := by
  have e1 : B "<" = [60] := by decide
  have e2 : B ">" = [62] := by decide
  have e3 : B "br/" = [98, 114, 47] := by decide
  have hall : IsText (a ++ B "<" ++ t ++ B ">" ++ b) := by
    simp only [isText_append]; exact ⟨⟨⟨⟨ha, by decide⟩, ht⟩, by decide⟩, hb⟩
  have e : a ++ B "<" ++ t ++ B ">" ++ b = a ++ 60 :: (t ++ 62 :: b) := by
    simp [e1, e2]
  rw [StripTags_eq_strip hall, StripTags_eq_strip hb, e, strip_plain_prefix _ ha ha60 ha38,
    strip_tag b ht ht62, e3]
  cases strip b <;> simp [Functor.map, Except.map]

/-- C6 at `Line1<br/>Line2`, which gives `Line1`, a line feed, `Line2`. -/
theorem StripTags_closed_tag_witness :
    StripTags (B "Line1" ++ B "<" ++ B "br/" ++ B ">" ++ B "Line2") =
        (fun y => B "Line1" ++ (if (B "br/").map tolower = B "br/" then [10] else []) ++ y) <$>
          StripTags (B "Line2") ∧
      StripTags (B "Line1<br/>Line2") = .ok (B "Line1\nLine2") :=
  ⟨StripTags_closed_tag (B "Line1") (B "br/") (B "Line2") (by decide) (by decide) (by decide)
    (by decide) (by decide) (by decide), by decide⟩

/-- C7: for a text `a` without a left angle bracket and an ampersand in front
of a spelling `E`, in any letter case, of one of the four entities,
`StripTags` returns `a`, then the one character the entity stands for, then
what it returns for the text `b` behind the entity. -/
theorem StripTags_entity (a E b : Text) (ha : IsText a) (hb : IsText b) (ha60 : 60 ∉ a)
    (ha38 : 38 ∉ a) :
    (E.map tolower = B "&lt;" →
      StripTags (a ++ E ++ b) = (fun y => a ++ B "<" ++ y) <$> StripTags b) ∧
    (E.map tolower = B "&gt;" →
      StripTags (a ++ E ++ b) = (fun y => a ++ B ">" ++ y) <$> StripTags b) ∧
    (E.map tolower = B "&amp;" →
      StripTags (a ++ E ++ b) = (fun y => a ++ B "&" ++ y) <$> StripTags b) ∧
    (E.map tolower = B "&quot;" →
      StripTags (a ++ E ++ b) = (fun y => a ++ B "\"" ++ y) <$> StripTags b) := by
  have c1 : B "<" = [60] := by decide
  have c2 : B ">" = [62] := by decide
  have c3 : B "&" = [38] := by decide
  have c4 : B "\"" = [34] := by decide
  have hE : ∀ q : Text, IsText q → E.map tolower = q → IsText (a ++ E ++ b) := by
    intro q hq h
    simp only [isText_append]
    refine ⟨⟨ha, ?_⟩, hb⟩
    intro c hc h0
    have : tolower c ∈ q := by rw [← h]; exact List.mem_map_of_mem _ hc
    exact hq _ this (by rw [h0]; rfl)
  obtain ⟨s1, s2, s3, s4⟩ := strip_entity E b
  rw [B_lt, B_gt, B_amp, B_quot, c1, c2, c3, c4]
  refine ⟨fun h => ?_, fun h => ?_, fun h => ?_, fun h => ?_⟩
  · rw [StripTags_eq_strip (hE _ (by decide) h), StripTags_eq_strip hb, List.append_assoc,
      strip_plain_prefix _ ha ha60 ha38, s1 h]
    cases strip b <;> simp [Functor.map, Except.map]
  · rw [StripTags_eq_strip (hE _ (by decide) h), StripTags_eq_strip hb, List.append_assoc,
      strip_plain_prefix _ ha ha60 ha38, s2 h]
    cases strip b <;> simp [Functor.map, Except.map]
  · rw [StripTags_eq_strip (hE _ (by decide) h), StripTags_eq_strip hb, List.append_assoc,
      strip_plain_prefix _ ha ha60 ha38, s3 h]
    cases strip b <;> simp [Functor.map, Except.map]
  · rw [StripTags_eq_strip (hE _ (by decide) h), StripTags_eq_strip hb, List.append_assoc,
      strip_plain_prefix _ ha ha60 ha38, s4 h]
    cases strip b <;> simp [Functor.map, Except.map]

/-- C7 at `5 &LT; 10`, where the upper-case spelling of the entity gives the
left angle bracket, and the text `5 &lt; 10 &amp; 10 &gt; 5` of the
specification. -/
theorem StripTags_entity_witness :
    StripTags (B "5 " ++ B "&LT;" ++ B " 10") = (fun y => B "5 " ++ B "<" ++ y) <$>
        StripTags (B " 10") ∧
      StripTags (B "5 &lt; 10 &amp; 10 &gt; 5") = .ok (B "5 < 10 & 10 > 5") :=
  ⟨(StripTags_entity (B "5 ") (B "&LT;") (B " 10") (by decide) (by decide) (by decide)
    (by decide)).1 (by decide), by decide⟩

/-- While the read cursor of `StripTags` stays inside the text, the pass
never stores behind the `strlen + 1` bytes of its output buffer, it never
exhausts its step bound, and every text it returns is at most as long as the
input: every turn consumes at least one byte and emits at most one. -/
theorem StripTags_length_le (x : Text) (hx : IsText x) :
    StripTags x ≠ .error .writeOOB ∧ StripTags x ≠ .error .fuel ∧
      ∀ y, StripTags x = .ok y → y.length ≤ x.length := by
  have h := stripLoop_bound x.length x (Nat.le_refl _) (strlen x + 1) (x.length + 1) []
    (by omega) (by rw [strlen_of_isText hx]; simp)
  unfold StripTags
  rcases h with h | ⟨y, hy, hlen⟩
  · rw [h]
    exact ⟨by decide, by decide, fun y hy => by cases hy⟩
  · rw [hy]
    refine ⟨by simp, by simp, fun z hz => ?_⟩
    cases hz
    simpa using hlen

/-- C8 (the code at the failing input): on `x<y` the pass of `StripTags`
does not stay inside the text, so it returns no text whose length the input
bounds: the read cursor passes the terminator and the loop goes on copying
the bytes that follow the text in memory.  When four more bytes `zzzz` follow
the terminator in the same array, the pass stores `x`, `z`, `z`, `z` and then
a fifth byte behind the `strlen + 1 = 4` bytes of its output buffer. -/
theorem StripTags_truncated_tag_output :
    StripTags (B "x<y") = .error .readOOB ∧
      strlen (B "x<y" ++ [0] ++ B "zzzz") + 1 = 4 ∧
      StripTags (B "x<y" ++ [0] ++ B "zzzz") = .error .writeOOB := by
  decide

/-- C9: a text without a left angle bracket and without an occurrence, in any
letter case, of one of the four entities is returned unchanged by
`StripTags`, a bare ampersand included; so stripping what `StripTags` has
returned for it changes nothing. -/
theorem StripTags_fixed (x : Text) (hx : IsText x) (h60 : 60 ∉ x)
    (hne : noEntity x = true) :
    StripTags x = .ok x ∧ (StripTags x >>= StripTags) = StripTags x := by
  have h : StripTags x = .ok x := by
    rw [StripTags_eq_strip hx]; exact strip_fixed hx h60 hne
  refine ⟨h, ?_⟩
  rw [h]
  show StripTags x = .ok x
  exact h

/-- C9 at `AT&T &co`. -/
theorem StripTags_fixed_witness :
    StripTags (B "AT&T &co") = .ok (B "AT&T &co") ∧
      (StripTags (B "AT&T &co") >>= StripTags) = StripTags (B "AT&T &co") :=
  StripTags_fixed (B "AT&T &co") (by decide) (by decide) (by decide)

/-! ## CreateHtmlSubtitle: what one turn of the loop preserves -/

theorem Follows.refl (st : HState) : Follows st st := ⟨Nat.le_refl _, rfl, fun h => h⟩

theorem Follows.trans {a b c : HState} (h1 : Follows a b) (h2 : Follows b c) : Follows a c := by
  obtain ⟨a1, a2, a3⟩ := h1
  obtain ⟨b1, b2, b3⟩ := h2
  exact ⟨by omega, by omega, fun h => b3 (by have := a3 h; omega)⟩

theorem bind_ok {α β : Type} {x : Except Fault α} {f : α → Except Fault β} {b : β}
    (h : (x >>= f) = .ok b) : ∃ a, x = .ok a ∧ f a = .ok b := by
  cases x with
  | error e => cases h
  | ok a => exact ⟨a, rfl, h⟩

theorem emit_ok {st st1 : HState} {lit : Text} (h : emit st lit = .ok st1) :
    st1 = { st with html := st.html ++ lit } ∧ st.html.length + lit.length + 1 ≤ st.size := by
  unfold emit at h
  split at h
  · cases h; exact ⟨rfl, by assumption⟩
  · cases h

theorem copy_ok {st st1 : HState} {p : Text} {n : Nat} (h : copy st p n = .ok st1) :
    st1 = { st with html := st.html ++ strncpy p n } ∧ st.html.length + n ≤ st.size := by
  unfold copy at h
  split at h
  · cases h; exact ⟨rfl, by assumption⟩
  · cases h

theorem push_ok {st st1 : HState} {c : Nat} (h : push st c = .ok st1) :
    st1 = { st with stack := st.stack ++ [c] } ∧ st.stack.length ≤ 98 := by
  unfold push at h
  split at h
  · cases h; exact ⟨rfl, by omega⟩
  · cases h

theorem skip_ok {st st1 : HState} {n : Nat} (h : skip n st = .ok st1) :
    st1 = { st with sub := st.sub.drop n } ∧ n ≤ st.sub.length := by
  unfold skip adv at h
  split at h
  · cases h; exact ⟨rfl, by assumption⟩
  · cases h

theorem put_inv {cap c : Nat} {out out1 : Text} (h : put cap out c = .ok out1) :
    out1 = out ++ [c] ∧ out.length < cap := by
  unfold put at h
  split at h
  · cases h; exact ⟨rfl, by assumption⟩
  · cases h

theorem strncpy_length (p : Text) (n : Nat) : (strncpy p n).length = n := by
  simp only [strncpy, List.length_append, List.length_replicate, List.length_take]
  omega

theorem emit_follows {st st1 : HState} {lit : Text} (h : emit st lit = .ok st1) :
    Follows st st1 ∧ st1.sub = st.sub := by
  obtain ⟨rfl, hfit⟩ := emit_ok h
  exact ⟨⟨Nat.le_refl _, rfl, fun _ => by simp; omega⟩, rfl⟩

theorem copy_follows {st st1 : HState} {p : Text} {n : Nat} (h : copy st p n = .ok st1) :
    Follows st st1 ∧ st1.sub = st.sub := by
  obtain ⟨rfl, hfit⟩ := copy_ok h
  exact ⟨⟨Nat.le_refl _, rfl, fun _ => by simp [strncpy_length]; omega⟩, rfl⟩

theorem push_follows {st st1 : HState} {c : Nat} (h : push st c = .ok st1) :
    Follows st st1 ∧ st1.sub = st.sub := by
  obtain ⟨rfl, -⟩ := push_ok h
  exact ⟨Follows.refl _, rfl⟩

theorem skip_follows {st st1 : HState} {n : Nat} (h : skip n st = .ok st1) :
    Follows st st1 ∧ st1.sub.length + n = st.sub.length := by
  obtain ⟨rfl, hn⟩ := skip_ok h
  exact ⟨⟨by simp, rfl, fun h => h⟩, by simp; omega⟩

theorem copyBlanks_follows (size : Nat) : ∀ (sub html sub2 html2 : Text),
    copyBlanks size sub html = .ok (sub2, html2) →
      sub2.length ≤ sub.length ∧ (html.length ≤ size → html2.length ≤ size) := by
  intro sub
  induction sub with
  | nil =>
    intro html sub2 html2 h
    simp only [copyBlanks, Except.ok.injEq, Prod.mk.injEq] at h
    obtain ⟨rfl, rfl⟩ := h
    exact ⟨Nat.le_refl _, fun h => h⟩
  | cons c r ih =>
    intro html sub2 html2 h
    simp only [copyBlanks] at h
    split at h
    · split at h
      · obtain ⟨h1, h2⟩ := ih _ _ _ h
        exact ⟨by simp; omega, fun _ => h2 (by simp; omega)⟩
      · cases h
    · simp only [Except.ok.injEq, Prod.mk.injEq] at h
      obtain ⟨rfl, rfl⟩ := h
      exact ⟨Nat.le_refl _, fun h => h⟩

theorem fontAttr_follows {st st1 : HState} (h : fontAttr st = .ok st1) :
    Follows st st1 ∧ st1.sub.length + 1 ≤ st.sub.length := by
  unfold fontAttr at h
  split at h
  · obtain ⟨r, hr, h⟩ := bind_ok h
    obtain ⟨st2, h2, h⟩ := bind_ok h
    obtain ⟨f2, e2⟩ := copy_follows h2
    obtain ⟨f3, e3⟩ := skip_follows h
    refine ⟨f2.trans f3, ?_⟩
    rw [e2] at e3
    omega
  · obtain ⟨r, hr, h⟩ := bind_ok h
    obtain ⟨f3, e3⟩ := skip_follows h
    exact ⟨f3, by omega⟩

theorem fontLoop_follows : ∀ (f : Nat) (st st1 : HState), fontLoop f st = .ok st1 →
    Follows st st1 := by
  intro f
  induction f with
  | zero => intro st st1 h; cases h
  | succ f ih =>
    intro st st1 h
    simp only [fontLoop] at h
    split at h
    · cases h; exact Follows.refl _
    · obtain ⟨st2, h2, h⟩ := bind_ok h
      obtain ⟨⟨sub3, html3⟩, h3, h⟩ := bind_ok h
      obtain ⟨f2, -⟩ := fontAttr_follows h2
      obtain ⟨c1, c2⟩ := copyBlanks_follows _ _ _ _ _ h3
      have f3 : Follows st2 { st2 with sub := sub3, html := html3 } := ⟨c1, rfl, c2⟩
      exact (f2.trans f3).trans (ih _ _ h)

theorem closeMatch_len {st : HState} (h : (closeMatch st).1 = true) :
    4 ≤ (closeMatch st).2 := by
  unfold closeMatch at h ⊢
  split
  · simp_all
  · split_ifs <;> simp_all

theorem closeTag_follows {st st1 : HState} (h : closeTag st = .ok (some st1)) :
    Follows st st1 ∧ st1.sub.length + 1 ≤ st.sub.length := by
  unfold closeTag at h
  split at h
  · cases h
  · rename_i hm
    have hlen := closeMatch_len (by simpa using hm)
    obtain ⟨st2, h2, h⟩ := bind_ok h
    obtain ⟨st3, h3, h⟩ := bind_ok h
    cases h
    obtain ⟨f2, e2⟩ := copy_follows h2
    obtain ⟨f3, e3⟩ := skip_follows h3
    have f0 : Follows st { st with stack := st.stack.dropLast } := ⟨Nat.le_refl _, rfl, fun h => h⟩
    refine ⟨(f0.trans f2).trans f3, ?_⟩
    rw [e2] at e3
    simp only at e3
    omega

theorem strcspn_pos {sub : Text} {c : Nat} (h0 : peek sub ≠ 0) (hc : peek sub ≠ c) :
    1 ≤ strcspn sub c := by
  cases sub with
  | nil => simp [peek] at h0
  | cons x r =>
    simp only [peek, List.headD_cons] at h0 hc
    simp [strcspn, h0, hc]

theorem tagBranch_follows {st st1 : HState} (h60 : peek st.sub = 60)
    (h : tagBranch st = .ok (some st1)) :
    Follows st st1 ∧ st1.sub.length + 1 ≤ st.sub.length := by
  unfold tagBranch at h
  split at h
  · obtain ⟨st2, h2, h⟩ := bind_ok h
    obtain ⟨st3, h3, h⟩ := bind_ok h
    cases h
    obtain ⟨f2, e2⟩ := emit_follows h2
    obtain ⟨f3, e3⟩ := skip_follows h3
    exact ⟨f2.trans f3, by rw [e2] at e3; omega⟩
  split at h
  · obtain ⟨st2, h2, h⟩ := bind_ok h
    obtain ⟨st3, h3, h⟩ := bind_ok h
    obtain ⟨st4, h4, h⟩ := bind_ok h
    cases h
    obtain ⟨f2, e2⟩ := emit_follows h2
    obtain ⟨f3, e3⟩ := push_follows h3
    obtain ⟨f4, e4⟩ := skip_follows h4
    exact ⟨(f2.trans f3).trans f4, by rw [e3, e2] at e4; omega⟩
  split at h
  · obtain ⟨st2, h2, h⟩ := bind_ok h
    obtain ⟨st3, h3, h⟩ := bind_ok h
    obtain ⟨st4, h4, h⟩ := bind_ok h
    cases h
    obtain ⟨f2, e2⟩ := emit_follows h2
    obtain ⟨f3, e3⟩ := push_follows h3
    obtain ⟨f4, e4⟩ := skip_follows h4
    exact ⟨(f2.trans f3).trans f4, by rw [e3, e2] at e4; omega⟩
  split at h
  · obtain ⟨st2, h2, h⟩ := bind_ok h
    obtain ⟨st3, h3, h⟩ := bind_ok h
    obtain ⟨st4, h4, h⟩ := bind_ok h
    cases h
    obtain ⟨f2, e2⟩ := emit_follows h2
    obtain ⟨f3, e3⟩ := push_follows h3
    obtain ⟨f4, e4⟩ := skip_follows h4
    exact ⟨(f2.trans f3).trans f4, by rw [e3, e2] at e4; omega⟩
  split at h
  · obtain ⟨st2, h2, h⟩ := bind_ok h
    obtain ⟨st3, h3, h⟩ := bind_ok h
    obtain ⟨st4, h4, h⟩ := bind_ok h
    obtain ⟨st5, h5, h⟩ := bind_ok h
    obtain ⟨html6, h6, h⟩ := bind_ok h
    obtain ⟨st7, h7, h⟩ := bind_ok h
    cases h
    obtain ⟨f2, e2⟩ := emit_follows h2
    obtain ⟨f3, e3⟩ := push_follows h3
    obtain ⟨f4, e4⟩ := skip_follows h4
    have f5 := fontLoop_follows _ _ _ h5
    obtain ⟨rfl, hp⟩ := put_inv h6
    have f6 : Follows st5 { st5 with html := st5.html ++ [peek st5.sub] } :=
      ⟨Nat.le_refl _, rfl, fun _ => by simp; omega⟩
    obtain ⟨f7, e7⟩ := skip_follows h7
    refine ⟨((((f2.trans f3).trans f4).trans f5).trans f6).trans f7, ?_⟩
    have := f5.1
    rw [e3, e2] at e4
    simp only at e7
    omega
  split at h
  · exact closeTag_follows h
  · obtain ⟨st2, h2, h⟩ := bind_ok h
    cases h
    obtain ⟨f2, e2⟩ := skip_follows h2
    have := strcspn_pos (c := 62) (by omega : peek st.sub ≠ 0) (by omega)
    exact ⟨f2, by omega⟩

theorem ampBranch_follows {st st1 : HState} (h : ampBranch st = .ok st1) :
    Follows st st1 ∧ st1.sub.length + 1 ≤ st.sub.length := by
  unfold ampBranch at h
  split at h
  · obtain ⟨st2, h2, h⟩ := bind_ok h
    obtain ⟨f2, e2⟩ := emit_follows h2
    obtain ⟨f3, e3⟩ := skip_follows h
    exact ⟨f2.trans f3, by rw [e2] at e3; omega⟩
  split at h
  · obtain ⟨st2, h2, h⟩ := bind_ok h
    obtain ⟨f2, e2⟩ := emit_follows h2
    obtain ⟨f3, e3⟩ := skip_follows h
    exact ⟨f2.trans f3, by rw [e2] at e3; omega⟩
  split at h
  · obtain ⟨st2, h2, h⟩ := bind_ok h
    obtain ⟨f2, e2⟩ := emit_follows h2
    obtain ⟨f3, e3⟩ := skip_follows h
    exact ⟨f2.trans f3, by rw [e2] at e3; omega⟩
  · obtain ⟨st2, h2, h⟩ := bind_ok h
    obtain ⟨f2, e2⟩ := emit_follows h2
    obtain ⟨f3, e3⟩ := skip_follows h
    exact ⟨f2.trans f3, by rw [e2] at e3; omega⟩

theorem plainChar_follows {nbsp : Text} {st st1 : HState} (h : plainChar nbsp st = .ok st1) :
    Follows st st1 ∧ st1.sub.length + 1 ≤ st.sub.length := by
  unfold plainChar at h
  split at h
  · cases h
  split at h
  · obtain ⟨st2, h2, h⟩ := bind_ok h
    obtain ⟨f2, e2⟩ := emit_follows h2
    obtain ⟨f3, e3⟩ := skip_follows h
    exact ⟨f2.trans f3, by rw [e2] at e3; omega⟩
  · rename_i hfit _
    obtain ⟨f3, e3⟩ := skip_follows h
    have f2 : Follows st { st with html := st.html ++ [peek st.sub] } :=
      ⟨Nat.le_refl _, rfl, fun _ => by simp; omega⟩
    exact ⟨f2.trans f3, by simp only at e3; omega⟩

/-- Every turn of the loop body that does not leave the loop moves the read
cursor forward by at least one byte, keeps the buffer size, and leaves the
write cursor inside the buffer. -/
theorem htmlBody_follows {nbsp : Text} {st st1 : HState}
    (h : htmlBody nbsp st = .ok (some st1)) :
    Follows st st1 ∧ st1.sub.length + 1 ≤ st.sub.length := by
  unfold htmlBody at h
  split at h
  · obtain ⟨st2, h2, h⟩ := bind_ok h
    obtain ⟨st3, h3, h⟩ := bind_ok h
    cases h
    obtain ⟨f2, e2⟩ := emit_follows h2
    obtain ⟨f3, e3⟩ := skip_follows h3
    exact ⟨f2.trans f3, by rw [e2] at e3; omega⟩
  split at h
  · rename_i h60
    exact tagBranch_follows h60 h
  split at h
  · obtain ⟨st2, h2, h⟩ := bind_ok h
    cases h
    exact ampBranch_follows h2
  · obtain ⟨st2, h2, h⟩ := bind_ok h
    cases h
    exact plainChar_follows h2

/-! ## CreateHtmlSubtitle: the loop -/

theorem grow_sub (st : HState) : (grow st).sub = st.sub := by
  unfold grow; split <;> rfl

theorem grow_stack (st : HState) : (grow st).stack = st.stack := by
  unfold grow; split <;> rfl

theorem grow_inv {st : HState} (h : st.html.length ≤ st.size) (h10 : 10 ≤ st.size) :
    Inv (grow st) := by
  unfold grow Inv
  split
  · simp only; omega
  · omega

theorem grow_id {st : HState} (h : st.html.length + 10 ≤ st.size) : grow st = st := by
  unfold grow
  rw [if_neg (by omega)]

theorem htmlBody_inv {nbsp : Text} {st st1 : HState} (h : htmlBody nbsp st = .ok (some st1))
    (hi : Inv st) : Inv (grow st1) := by
  obtain ⟨⟨-, hs, hh⟩, -⟩ := htmlBody_follows h
  unfold Inv at hi
  exact grow_inv (hh (by omega)) (by omega)

theorem htmlIter_succ {nbsp : Text} {k : Nat} {st st1 : HState} (h0 : peek st.sub ≠ 0)
    (h : htmlBody nbsp st = .ok (some st1)) :
    htmlIter nbsp (k + 1) st = htmlIter nbsp k (grow st1) := by
  simp [htmlIter, h0, h, bind, Except.bind]

theorem htmlLoop_succ {nbsp : Text} {f : Nat} {st st1 : HState} (h0 : peek st.sub ≠ 0)
    (h : htmlBody nbsp st = .ok (some st1)) :
    htmlLoop nbsp (f + 1) st = htmlLoop nbsp f (grow st1) := by
  simp [htmlLoop, h0, h, bind, Except.bind]

/-- The first turn of a scan of at least one turn. -/
theorem htmlIter_inv_succ {nbsp : Text} {k : Nat} {st st2 : HState}
    (h : htmlIter nbsp (k + 1) st = .ok (some st2)) :
    peek st.sub ≠ 0 ∧ ∃ st1, htmlBody nbsp st = .ok (some st1) ∧
      htmlIter nbsp k (grow st1) = .ok (some st2) := by
  simp only [htmlIter] at h
  split at h
  · cases h
  · rename_i h0
    refine ⟨h0, ?_⟩
    obtain ⟨r, hr, h⟩ := bind_ok h
    cases r with
    | none => cases h
    | some st1 => exact ⟨st1, hr, h⟩

theorem htmlIter_trans {nbsp : Text} : ∀ (k : Nat) {j : Nat} {st st1 : HState}
    {r : Except Fault (Option HState)}, htmlIter nbsp k st = .ok (some st1) →
    htmlIter nbsp j st1 = r → htmlIter nbsp (k + j) st = r := by
  intro k
  induction k with
  | zero =>
    intro j st st1 r h1 h2
    simp only [htmlIter, Except.ok.injEq, Option.some.injEq] at h1
    subst h1
    simpa using h2
  | succ k ih =>
    intro j st st1 r h1 h2
    obtain ⟨h0, st2, hb, hk⟩ := htmlIter_inv_succ h1
    rw [show k + 1 + j = (k + j) + 1 by omega, htmlIter_succ h0 hb]
    exact ih hk h2

/-- A state that the scan reaches keeps the head-room, and every turn on the
way to it has moved the read cursor forward. -/
theorem htmlIter_inv {nbsp : Text} : ∀ (k : Nat) {st st1 : HState},
    htmlIter nbsp k st = .ok (some st1) → Inv st →
      Inv st1 ∧ st1.sub.length + k ≤ st.sub.length := by
  intro k
  induction k with
  | zero =>
    intro st st1 h hi
    simp only [htmlIter, Except.ok.injEq, Option.some.injEq] at h
    subst h
    exact ⟨hi, by omega⟩
  | succ k ih =>
    intro st st1 h hi
    obtain ⟨h0, st2, hb, hk⟩ := htmlIter_inv_succ h
    obtain ⟨i2, l2⟩ := ih hk (htmlBody_inv hb hi)
    obtain ⟨-, hlt⟩ := htmlBody_follows hb
    rw [grow_sub] at l2
    exact ⟨i2, by omega⟩

/-- The loop, started with a step bound above the length of the text, passes
through every state that the scan reaches, with a step bound that is still
above the length of the text left. -/
theorem htmlLoop_of_iter {nbsp : Text} : ∀ (k : Nat) {st st1 : HState} {f : Nat},
    htmlIter nbsp k st = .ok (some st1) → st.sub.length < f →
      htmlLoop nbsp f st = htmlLoop nbsp (f - k) st1 ∧ st1.sub.length < f - k := by
  intro k
  induction k with
  | zero =>
    intro st st1 f h hf
    simp only [htmlIter, Except.ok.injEq, Option.some.injEq] at h
    subst h
    exact ⟨rfl, hf⟩
  | succ k ih =>
    intro st st1 f h hf
    obtain ⟨h0, st2, hb, hk⟩ := htmlIter_inv_succ h
    obtain ⟨-, hlt⟩ := htmlBody_follows hb
    obtain ⟨f, rfl⟩ : ∃ g, f = g + 1 := ⟨f - 1, by omega⟩
    rw [htmlLoop_succ h0 hb]
    have := ih hk (f := f) (by rw [grow_sub]; omega)
    rw [show f + 1 - (k + 1) = f - k by omega]
    exact this

theorem htmlInit_ok (s : Text) :
    htmlInit s = .ok { sub := s, html := B "<text>", size := strlen s + 100, stack := [] } := by
  simp [htmlInit, emit, B_text]

theorem htmlInit_inv (s : Text) :
    Inv { sub := s, html := B "<text>", size := strlen s + 100, stack := [] } := by
  simp [Inv, B_text]

/-- A text that starts with the two characters of a closing tag starts with
none of the opening tags. -/
theorem close_not_open {sub r : Text} (h : sub = B "</" ++ r) :
    strncasecmp sub (B "<br/>") 5 = false ∧ strncasecmp sub (B "<b>") 3 = false ∧
    strncasecmp sub (B "<i>") 3 = false ∧ strncasecmp sub (B "<u>") 3 = false ∧
    strncasecmp sub (B "<font ") 6 = false ∧ strncmp sub (B "</") 2 = true := by
  subst h
  simp [B_close, B_br, B_b, B_i, B_u, B_font, strncasecmp, strncmp, peek, tolower]

/-- The exit through `break`: in front of a closing tag that does not close
the innermost open tag the loop body gives up. -/
theorem htmlBody_mismatch {nbsp : Text} {st : HState} {r : Text} (h : st.sub = B "</" ++ r)
    (hm : st.stack = [] ∨ (closeMatch st).1 = false) : htmlBody nbsp st = .ok none := by
  obtain ⟨h1, h2, h3, h4, h5, h6⟩ := close_not_open h
  have hm2 : (closeMatch st).1 = false := by
    rcases hm with hm | hm
    · simp [closeMatch, hm]
    · exact hm
  have hp : peek st.sub = 60 := by rw [h]; simp [B_close, peek]
  simp [htmlBody, hp, tagBranch, h1, h2, h3, h4, h5, h6, closeTag, hm2, pure, Except.pure]

/-- An entity spelling holds neither a NUL nor a left angle bracket. -/
theorem spelling_plain {E q : Text} (h : E.map tolower = q) (hq : ∀ c ∈ q, c ≠ 0 ∧ c ≠ 60) :
    ∀ c ∈ E, c ≠ 0 ∧ c ≠ 60 := by
  intro c hc
  have hm : tolower c ∈ q := by rw [← h]; exact List.mem_map_of_mem _ hc
  obtain ⟨a, b⟩ := hq _ hm
  exact ⟨fun h0 => a (by rw [h0]; rfl), fun h0 => b (by rw [h0]; rfl)⟩

theorem take_length_of_map {p q : Text} {n : Nat} (h : (p.take n).map tolower = q)
    (hn : q.length = n) : n ≤ p.length := by
  have := congrArg List.length h
  simp only [List.length_map, List.length_take] at this
  omega

/-- One turn of the loop in front of a character other than a left angle
bracket: it never gives up and never leaves defined behaviour, it keeps the
tag stack, and the bytes it consumes hold neither the terminator nor a left
angle bracket. -/
theorem htmlBody_plain {nbsp : Text} {st : HState} (hn : nbsp.length ≤ 9)
    (h0 : peek st.sub ≠ 0) (h60 : peek st.sub ≠ 60) (hi : Inv st) :
    ∃ j h1, htmlBody nbsp st = .ok (some { st with sub := st.sub.drop j, html := h1 }) ∧
      1 ≤ j ∧ j ≤ st.sub.length ∧ ∀ c ∈ st.sub.take j, c ≠ 0 ∧ c ≠ 60 := by
  obtain ⟨sub, html, size, stack⟩ := st
  simp only [Inv] at hi
  simp only at h0 h60 ⊢
  have hpos : 1 ≤ sub.length := peek_ne_zero_length h0
  have hone : ∀ c ∈ sub.take 1, c ≠ 0 ∧ c ≠ 60 := by
    cases sub with
    | nil => simp
    | cons x r => simpa [peek] using And.intro h0 h60
  by_cases h10 : peek sub = 10
  · have hfit : html.length + (B "<br/>").length + 1 ≤ size := by
      rw [B_br]; simp only [List.length_cons, List.length_nil]; omega
    refine ⟨1, html ++ B "<br/>", ?_, Nat.le_refl _, hpos, hone⟩
    simp [htmlBody, h10, emit, hfit, skip, adv, hpos, bind, Except.bind, pure,
      Except.pure]
  by_cases h38 : peek sub = 38
  · have hfit4 : html.length + (B "&lt;").length + 1 ≤ size := by
      rw [B_lt]; simp only [List.length_cons, List.length_nil]; omega
    have hfit4g : html.length + (B "&gt;").length + 1 ≤ size := by
      rw [B_gt]; simp only [List.length_cons, List.length_nil]; omega
    have hfit5 : html.length + (B "&amp;").length + 1 ≤ size := by
      rw [B_amp]; simp only [List.length_cons, List.length_nil]; omega
    by_cases hl : strncasecmp sub (B "&lt;") 4 = true
    · have hm := (lt_match sub).mp hl
      have h4 : 4 ≤ sub.length := take_length_of_map hm rfl
      refine ⟨4, html ++ B "&lt;", ?_, by omega, h4, spelling_plain hm (by decide)⟩
      simp [htmlBody, h10, h60, h38, ampBranch, hl, emit, hfit4, skip, adv, h4, bind,
        Except.bind, pure, Except.pure]
    by_cases hg : strncasecmp sub (B "&gt;") 4 = true
    · have hm := (gt_match sub).mp hg
      have h4 : 4 ≤ sub.length := take_length_of_map hm rfl
      refine ⟨4, html ++ B "&gt;", ?_, by omega, h4, spelling_plain hm (by decide)⟩
      simp [htmlBody, h10, h60, h38, ampBranch, hl, hg, emit, hfit4g, skip, adv, h4, bind,
        Except.bind, pure, Except.pure]
    by_cases ha : strncasecmp sub (B "&amp;") 5 = true
    · have hm := (amp_match sub).mp ha
      have h5 : 5 ≤ sub.length := take_length_of_map hm rfl
      refine ⟨5, html ++ B "&amp;", ?_, by omega, h5, spelling_plain hm (by decide)⟩
      simp [htmlBody, h10, h60, h38, ampBranch, hl, hg, ha, emit, hfit5, skip, adv, h5,
        bind, Except.bind, pure, Except.pure]
    · refine ⟨1, html ++ B "&amp;", ?_, Nat.le_refl _, hpos, hone⟩
      simp [htmlBody, h10, h60, h38, ampBranch, hl, hg, ha, emit, hfit5, skip, adv, hpos,
        bind, Except.bind, pure, Except.pure]
  · have hfit1 : ¬ size ≤ html.length := by omega
    have hfitn : html.length + nbsp.length + 1 ≤ size := by omega
    by_cases hd : html ≠ [] ∧ isBlank (peek sub) = true ∧ isBlank (html.getLastD 0) = true
    · refine ⟨1, html ++ nbsp, ?_, Nat.le_refl _, hpos, hone⟩
      simp only [htmlBody, h10, h60, h38, if_false, plainChar, hfit1, if_pos hd, emit, hfitn,
        if_true, skip, adv, hpos, bind, Except.bind, pure, Except.pure]
    · refine ⟨1, html ++ [peek sub], ?_, Nat.le_refl _, hpos, hone⟩
      simp only [htmlBody, h10, h60, h38, if_false, plainChar, hfit1, if_neg hd, skip, adv,
        hpos, bind, Except.bind, pure, Except.pure]
      simp

/-- Bytes without a left angle bracket in front of a left angle bracket, or in
front of the end of the text, lie inside the text in front of it. -/
theorem prefix_inside {p rest : Text} {j : Nat} (hr : rest = [] ∨ ∃ r, rest = 60 :: r)
    (hj : j ≤ (p ++ rest).length) (hc : ∀ c ∈ (p ++ rest).take j, c ≠ 0 ∧ c ≠ 60) :
    j ≤ p.length := by
  by_contra hlt
  rcases hr with rfl | ⟨r, rfl⟩
  · simp at hj; omega
  · have hmem : 60 ∈ (p ++ 60 :: r).take j := by
      rw [List.take_append_eq_append_take]
      apply List.mem_append_right
      obtain ⟨m, hm⟩ : ∃ m, j - p.length = m + 1 := ⟨j - p.length - 1, by omega⟩
      rw [hm, List.take_succ_cons]
      exact List.mem_cons_self _ _
    exact (hc 60 hmem).2 rfl

/-- The scan over a text `p` without a left angle bracket, in front of a left
angle bracket or of the end of the text: it reaches the end of `p` with the
tag stack it started with. -/
theorem scan_plain {nbsp : Text} (hn : nbsp.length ≤ 9) (n : Nat) :
    ∀ (p rest : Text) (st : HState), p.length ≤ n → IsText p → 60 ∉ p →
      (rest = [] ∨ ∃ r, rest = 60 :: r) → st.sub = p ++ rest → Inv st →
      ∃ k st1, htmlIter nbsp k st = .ok (some st1) ∧ st1.sub = rest ∧
        st1.stack = st.stack ∧ Inv st1 := by
  induction n with
  | zero =>
    intro p rest st hp _ _ _ hs hi
    have : p = [] := List.length_eq_zero.mp (by omega)
    subst this
    exact ⟨0, st, rfl, by simpa using hs, rfl, hi⟩
  | succ n ih =>
    intro p rest st hp ht h60 hr hs hi
    cases p with
    | nil => exact ⟨0, st, rfl, by simpa using hs, rfl, hi⟩
    | cons c p =>
      rw [isText_cons] at ht
      simp only [List.mem_cons, not_or] at h60
      have hpk : peek st.sub = c := by rw [hs]; rfl
      have h0 : peek st.sub ≠ 0 := by rw [hpk]; exact ht.1
      have h6 : peek st.sub ≠ 60 := by rw [hpk]; exact fun h => h60.1 h.symm
      obtain ⟨j, h1, hb, hj1, hj2, hc⟩ := htmlBody_plain hn h0 h6 hi
      generalize hst1 : ({ st with sub := st.sub.drop j, html := h1 } : HState) = st1 at hb
      have hsub : st1.sub = st.sub.drop j := by rw [← hst1]
      have hstk : st1.stack = st.stack := by rw [← hst1]
      rw [hs] at hj2 hc
      have hin := prefix_inside hr hj2 hc
      have hsub2 : (grow st1).sub = (c :: p).drop j ++ rest := by
        rw [grow_sub, hsub, hs, List.drop_append_of_le_length hin]
      have hlen : ((c :: p).drop j).length ≤ n := by
        simp only [List.length_drop, List.length_cons] at hp ⊢; omega
      have htx : IsText ((c :: p).drop j) := fun x hx =>
        (isText_cons.mpr ht) x (List.mem_of_mem_drop hx)
      have h60x : 60 ∉ (c :: p).drop j := fun hx => by
        have := List.mem_of_mem_drop hx
        simp only [List.mem_cons] at this
        rcases this with h | h
        · exact h60.1 h
        · exact h60.2 h
      obtain ⟨k, st2, hk, hs2, hstk2, hi2⟩ :=
        ih _ rest (grow st1) hlen htx h60x hr hsub2 (htmlBody_inv hb hi)
      refine ⟨k + 1, st2, ?_, hs2, ?_, hi2⟩
      · rw [htmlIter_succ h0 hb]; exact hk
      · rw [hstk2, grow_stack, hstk]

theorem htmlLoop_none {nbsp : Text} {st : HState} (f : Nat) (h0 : peek st.sub ≠ 0)
    (h : htmlBody nbsp st = .ok none) : htmlLoop nbsp (f + 1) st = .ok none := by
  simp [htmlLoop, h0, h, bind, Except.bind, pure, Except.pure]

theorem htmlLoop_end {nbsp : Text} {st : HState} (f : Nat) (h0 : peek st.sub = 0) :
    htmlLoop nbsp (f + 1) st = .ok (some st) := by
  simp [htmlLoop, h0]

/-- When the loop is left through `break`, with the buffer freed, the store
of the closing root tag behind the loop goes into the freed buffer. -/
theorem CreateHtmlSubtitle_freed {nbsp s : Text}
    (h : htmlLoop nbsp (s.length + 1)
      { sub := s, html := B "<text>", size := strlen s + 100, stack := [] } = .ok none) :
    CreateHtmlSubtitle nbsp s = .error .writeFreed := by
  simp [CreateHtmlSubtitle, htmlInit_ok, h, bind, Except.bind]

/-- A turn that gives up in a state that the scan reaches ends the loop
through `break`. -/
theorem htmlLoop_gives_up {nbsp s : Text} {k : Nat} {st : HState}
    (hk : htmlIter nbsp k { sub := s, html := B "<text>", size := strlen s + 100, stack := [] }
      = .ok (some st))
    (h0 : peek st.sub ≠ 0) (hb : htmlBody nbsp st = .ok none) :
    htmlLoop nbsp (s.length + 1)
      { sub := s, html := B "<text>", size := strlen s + 100, stack := [] } = .ok none := by
  obtain ⟨e, hlt⟩ := htmlLoop_of_iter k hk (f := s.length + 1) (by simp)
  rw [e]
  obtain ⟨g, hg⟩ : ∃ g, s.length + 1 - k = g + 1 := ⟨s.length + 1 - k - 1, by omega⟩
  rw [hg]
  exact htmlLoop_none g h0 hb

/-- A turn that gives up in a state that the scan reaches frees the buffer,
and the store behind the loop goes into the freed buffer. -/
theorem CreateHtmlSubtitle_gives_up {nbsp s : Text} {k : Nat} {st : HState}
    (hk : htmlIter nbsp k { sub := s, html := B "<text>", size := strlen s + 100, stack := [] }
      = .ok (some st))
    (h0 : peek st.sub ≠ 0) (hb : htmlBody nbsp st = .ok none) :
    CreateHtmlSubtitle nbsp s = .error .writeFreed :=
  CreateHtmlSubtitle_freed (htmlLoop_gives_up hk h0 hb)

/-- The branch for one of the opening tags `<b>`, `<i>`, `<u>`, spelled in
lower case. -/
theorem htmlBody_open (nbsp : Text) (st : HState) {t : Nat} {r : Text}
    (ht : t = 98 ∨ t = 105 ∨ t = 117) (hs : st.sub = 60 :: t :: 62 :: r)
    (hfit : st.html.length + 4 ≤ st.size) (hstk : st.stack.length ≤ 98) :
    htmlBody nbsp st =
      .ok (some { st with sub := r, html := st.html ++ [60, t, 62], stack := st.stack ++ [t] }) := by
  obtain ⟨sub, html, size, stack⟩ := st
  simp only at hs hfit hstk ⊢
  subst hs
  have hs2 : stack.length + 2 ≤ 100 := by omega
  rcases ht with rfl | rfl | rfl
  · have hf : html.length + 3 + 1 ≤ size := by omega
    simp [htmlBody, tagBranch, peek, strncasecmp, tolower, B_br, B_b, emit, push, skip, adv,
      hf, hs2, bind, Except.bind, pure, Except.pure]
  · have hf : html.length + 3 + 1 ≤ size := by omega
    simp [htmlBody, tagBranch, peek, strncasecmp, tolower, B_br, B_b, B_i, emit, push, skip,
      adv, hf, hs2, bind, Except.bind, pure, Except.pure]
  · have hf : html.length + 3 + 1 ≤ size := by omega
    simp [htmlBody, tagBranch, peek, strncasecmp, tolower, B_br, B_b, B_i, B_u, emit, push,
      skip, adv, hf, hs2, bind, Except.bind, pure, Except.pure]

/-- The branch for one of the closing tags `</b>`, `</i>`, `</u>`, spelled in
lower case, when it closes the innermost open tag. -/
theorem htmlBody_close (nbsp : Text) (st : HState) (stk : Text) {t : Nat} {r : Text}
    (ht : t = 98 ∨ t = 105 ∨ t = 117) (hs : st.sub = 60 :: 47 :: t :: 62 :: r)
    (hstk : st.stack = stk ++ [t]) (hfit : st.html.length + 4 ≤ st.size) :
    htmlBody nbsp st =
      .ok (some { st with sub := r, html := st.html ++ [60, 47, t, 62], stack := stk }) := by
  obtain ⟨sub, html, size, stack⟩ := st
  simp only at hs hfit hstk ⊢
  subst hs hstk
  rcases ht with rfl | rfl | rfl
  · simp [htmlBody, tagBranch, peek, strncasecmp, strncmp, tolower, B_br, B_b, B_i, B_u, B_font,
      B_close, B_cb, closeTag, closeMatch, copy, strncpy, skip, adv, hfit, bind, Except.bind,
      pure, Except.pure]
  · simp [htmlBody, tagBranch, peek, strncasecmp, strncmp, tolower, B_br, B_b, B_i, B_u, B_font,
      B_close, B_ci, closeTag, closeMatch, copy, strncpy, skip, adv, hfit, bind, Except.bind,
      pure, Except.pure]
  · simp [htmlBody, tagBranch, peek, strncasecmp, strncmp, tolower, B_br, B_b, B_i, B_u, B_font,
      B_close, B_cu, closeTag, closeMatch, copy, strncpy, skip, adv, hfit, bind, Except.bind,
      pure, Except.pure]

/-- The branch for the tag `<br/>`, spelled in lower case. -/
theorem htmlBody_br (nbsp : Text) (st : HState) {r : Text}
    (hs : st.sub = 60 :: 98 :: 114 :: 47 :: 62 :: r) (hfit : st.html.length + 6 ≤ st.size) :
    htmlBody nbsp st =
      .ok (some { st with sub := r, html := st.html ++ [60, 98, 114, 47, 62] }) := by
  obtain ⟨sub, html, size, stack⟩ := st
  simp only at hs hfit ⊢
  subst hs
  simp [htmlBody, tagBranch, peek, strncasecmp, tolower, B_br, emit, skip, adv, hfit, bind,
    Except.bind, pure, Except.pure]

/-- The branch for an ordinary character that is not a second blank. -/
theorem htmlBody_char (nbsp : Text) (st : HState) {c : Nat} {r : Text} (hs : st.sub = c :: r)
    (h60 : c ≠ 60) (h38 : c ≠ 38) (h10 : c ≠ 10)
    (hd : ¬ (isBlank c = true ∧ isBlank (st.html.getLastD 0) = true))
    (hfit : st.html.length + 1 ≤ st.size) :
    htmlBody nbsp st = .ok (some { st with sub := r, html := st.html ++ [c] }) := by
  obtain ⟨sub, html, size, stack⟩ := st
  simp only at hs hfit hd ⊢
  subst hs
  have hfit1 : ¬ size ≤ html.length := by omega
  have hd2 : ¬ (html ≠ [] ∧ isBlank (peek (c :: r)) = true ∧ isBlank (html.getLastD 0) = true) :=
    fun h => hd ⟨h.2.1, h.2.2⟩
  simp only [htmlBody, peek, List.headD_cons, h10, h60, h38, if_false, plainChar, hfit1]
  rw [if_neg (by simpa [peek] using hd2)]
  simp [skip, adv, bind, Except.bind, pure, Except.pure]

/-- The result of `CreateHtmlSubtitle` when its scan reaches the end of the
text: `NULL` with a tag still open, the buffer with the closing root tag
otherwise. -/
theorem CreateHtmlSubtitle_at_end {nbsp s : Text} {k : Nat} {st : HState}
    (hk : htmlIter nbsp k { sub := s, html := B "<text>", size := strlen s + 100, stack := [] }
      = .ok (some st))
    (h0 : peek st.sub = 0) :
    CreateHtmlSubtitle nbsp s =
      .ok (if st.stack ≠ [] then none else some (st.html ++ B "</text>")) := by
  obtain ⟨e, hlt⟩ := htmlLoop_of_iter k hk (f := s.length + 1) (by simp)
  obtain ⟨g, hg⟩ : ∃ g, s.length + 1 - k = g + 1 := ⟨s.length + 1 - k - 1, by omega⟩
  rw [hg, htmlLoop_end g h0] at e
  obtain ⟨hi, -⟩ := htmlIter_inv k hk (htmlInit_inv s)
  have hfit : st.html.length + (B "</text>").length + 1 ≤ st.size := by
    unfold Inv at hi
    rw [B_ctext]; simp only [List.length_cons, List.length_nil]; omega
  simp only [CreateHtmlSubtitle, htmlInit_ok, e, emit, hfit, bind, Except.bind, pure,
    Except.pure, if_true]
  split <;> simp_all

theorem noDoubleBlank_tail {a : Nat} {l : Text} (h : noDoubleBlank (a :: l) = true) :
    noDoubleBlank l = true := by
  cases l with
  | nil => rfl
  | cons b r => simp only [noDoubleBlank, Bool.and_eq_true] at h; exact h.2

theorem noDoubleBlank_drop {l : Text} (n : Nat) (h : noDoubleBlank l = true) :
    noDoubleBlank (l.drop n) = true := by
  induction n generalizing l with
  | zero => simpa using h
  | succ n ih =>
    cases l with
    | nil => simp [noDoubleBlank]
    | cons a r => exact ih (noDoubleBlank_tail h)

theorem noDoubleBlank_cons {a : Nat} {l : Text} (ha : isBlank a = false)
    (h : noDoubleBlank l = true) : noDoubleBlank (a :: l) = true := by
  cases l with
  | nil => rfl
  | cons b r => simp [noDoubleBlank, ha, h]

theorem markup_isText {d : Nat} {x : Text} (h : Markup d x) : IsText x := by
  induction h with
  | nil d => exact isText_nil
  | plain d c x h0 _ _ _ _ ih => exact isText_cons.mpr ⟨h0, ih⟩
  | br d x _ ih => exact isText_append.mpr ⟨by rw [B_br]; decide, ih⟩
  | pair d t x y ht _ _ ihx ihy =>
    simp only [isText_append]
    refine ⟨⟨⟨?_, ihx⟩, ?_⟩, ihy⟩
    · rcases ht with rfl | rfl | rfl <;> decide
    · rcases ht with rfl | rfl | rfl <;> decide

/-- The scan over a well-nested text: it copies the text to the buffer and
ends on the tag stack it started with. -/
theorem scan_markup (nbsp : Text) {d : Nat} {x : Text} (hx : Markup d x) :
    ∀ (rest : Text) (st : HState), st.sub = x ++ rest → st.stack.length + d ≤ 99 →
      st.html.length + st.sub.length + 14 ≤ st.size →
      noDoubleBlank (st.html.getLastD 0 :: (x ++ rest)) = true →
      ∃ k, htmlIter nbsp k st = .ok (some { st with sub := rest, html := st.html ++ x }) := by
  induction hx with
  | nil d =>
    intro rest st hs _ _ _
    refine ⟨0, ?_⟩
    obtain ⟨sub, html, size, stack⟩ := st
    simp only [List.nil_append] at hs
    simp [htmlIter, hs]
  | plain d c x h0 h60 h38 h10 _ ih =>
    intro rest st hs hd hfit hnd
    obtain ⟨sub, html, size, stack⟩ := st
    simp only at hs hd hfit hnd
    subst hs
    have hblank : ¬ (isBlank c = true ∧ isBlank (html.getLastD 0) = true) := by
      simp only [List.cons_append, noDoubleBlank, Bool.and_eq_true, Bool.not_eq_true',
        Bool.and_eq_false_iff] at hnd
      rintro ⟨h1, h2⟩
      rcases hnd.1 with h | h
      · rw [h2] at h; cases h
      · rw [h1] at h; cases h
    have hb := htmlBody_char nbsp
      ⟨c :: x ++ rest, html, size, stack⟩ (r := x ++ rest) rfl h60 h38 h10 hblank
      (by simp only; omega)
    have hg : grow ⟨x ++ rest, html ++ [c], size, stack⟩ = ⟨x ++ rest, html ++ [c], size, stack⟩ :=
      grow_id (by simp at hfit ⊢; omega)
    obtain ⟨k, hk⟩ := ih rest ⟨x ++ rest, html ++ [c], size, stack⟩ rfl hd
      (by simp at hfit ⊢; omega)
      (by simpa using noDoubleBlank_tail hnd)
    refine ⟨k + 1, ?_⟩
    rw [htmlIter_succ (by simp [peek, h0]) hb]
    simp only [hg]
    simpa using hk
  | br d x _ ih =>
    intro rest st hs hd hfit hnd
    obtain ⟨sub, html, size, stack⟩ := st
    simp only at hs hd hfit hnd
    subst hs
    have hb := htmlBody_br nbsp
      ⟨B "<br/>" ++ x ++ rest, html, size, stack⟩ (r := x ++ rest) (by simp [B_br])
      (by simp only; omega)
    have hg : grow ⟨x ++ rest, html ++ [60, 98, 114, 47, 62], size, stack⟩ =
        ⟨x ++ rest, html ++ [60, 98, 114, 47, 62], size, stack⟩ :=
      grow_id (by simp [B_br] at hfit ⊢; omega)
    obtain ⟨k, hk⟩ := ih rest ⟨x ++ rest, html ++ [60, 98, 114, 47, 62], size, stack⟩ rfl hd
      (by simp [B_br] at hfit ⊢; omega)
      (by
        have := noDoubleBlank_drop 5 (noDoubleBlank_tail hnd)
        simp only [B_br, List.cons_append, List.nil_append, List.drop_succ_cons, List.drop_zero,
          List.append_assoc] at this
        simpa using noDoubleBlank_cons (by decide) this)
    refine ⟨k + 1, ?_⟩
    rw [htmlIter_succ (by simp [peek, B_br]) hb]
    simp only [hg]
    simpa [B_br] using hk
  | pair d t x y ht _ _ ihx ihy =>
    intro rest st hs hd hfit hnd
    obtain ⟨sub, html, size, stack⟩ := st
    simp only at hs hd hfit hnd
    subst hs
    simp only [List.cons_append, List.nil_append, List.append_assoc, List.length_cons,
      List.length_append] at hfit hnd
    -- the opening tag
    have hb1 := htmlBody_open nbsp
      ⟨[60, t, 62] ++ x ++ [60, 47, t, 62] ++ y ++ rest, html, size, stack⟩
      (r := x ++ (60 :: 47 :: t :: 62 :: (y ++ rest))) ht (by simp)
      (by simp only; omega) (by simp only; omega)
    have hg1 : grow ⟨x ++ (60 :: 47 :: t :: 62 :: (y ++ rest)), html ++ [60, t, 62], size,
        stack ++ [t]⟩ = ⟨x ++ (60 :: 47 :: t :: 62 :: (y ++ rest)), html ++ [60, t, 62], size,
        stack ++ [t]⟩ := grow_id (by simp; omega)
    have hnd1 : noDoubleBlank (x ++ (60 :: 47 :: t :: 62 :: (y ++ rest))) = true := by
      have := noDoubleBlank_drop 4 hnd
      simpa using this
    -- the text inside the pair
    obtain ⟨k1, hk1⟩ := ihx (60 :: 47 :: t :: 62 :: (y ++ rest))
      ⟨x ++ (60 :: 47 :: t :: 62 :: (y ++ rest)), html ++ [60, t, 62], size, stack ++ [t]⟩ rfl
      (by simp; omega) (by simp; omega)
      (by simpa using noDoubleBlank_cons (by decide) hnd1)
    -- the closing tag
    have hb2 := htmlBody_close nbsp
      ⟨60 :: 47 :: t :: 62 :: (y ++ rest), html ++ [60, t, 62] ++ x, size, stack ++ [t]⟩
      stack (r := y ++ rest) ht rfl rfl (by simp; omega)
    have hg2 : grow ⟨y ++ rest, html ++ [60, t, 62] ++ x ++ [60, 47, t, 62], size, stack⟩ =
        ⟨y ++ rest, html ++ [60, t, 62] ++ x ++ [60, 47, t, 62], size, stack⟩ :=
      grow_id (by simp; omega)
    have hnd2 : noDoubleBlank (y ++ rest) = true := by
      have := noDoubleBlank_drop (x.length + 4) hnd1
      rw [show x.length + 4 = x.length + 4 from rfl] at this
      have e : (x ++ (60 :: 47 :: t :: 62 :: (y ++ rest))).drop (x.length + 4) = y ++ rest := by
        rw [← List.drop_drop]
        simp
      rwa [e] at this
    -- the text behind the pair
    obtain ⟨k2, hk2⟩ := ihy rest
      ⟨y ++ rest, html ++ [60, t, 62] ++ x ++ [60, 47, t, 62], size, stack⟩ rfl
      (by simp only; omega) (by simp; omega)
      (by
        show noDoubleBlank ((html ++ [60, t, 62] ++ x ++ [60, 47, t, 62]).getLastD 0 ::
          (y ++ rest)) = true
        have e62 : (html ++ [60, t, 62] ++ x ++ [60, 47, t, 62]).getLastD 0 = 62 := by
          have e : html ++ [60, t, 62] ++ x ++ [60, 47, t, 62] =
              (html ++ [60, t, 62] ++ x ++ [60, 47, t]) ++ [62] := by simp
          rw [e, List.getLastD_concat]
        rw [e62]
        exact noDoubleBlank_cons (by decide) hnd2)
    refine ⟨(0 + 1) + (k1 + ((0 + 1) + k2)), ?_⟩
    have s1 : htmlIter nbsp (0 + 1)
        ⟨[60, t, 62] ++ x ++ [60, 47, t, 62] ++ y ++ rest, html, size, stack⟩ =
        .ok (some ⟨x ++ (60 :: 47 :: t :: 62 :: (y ++ rest)), html ++ [60, t, 62], size,
          stack ++ [t]⟩) := by
      rw [htmlIter_succ (by simp [peek]) hb1, hg1]; rfl
    have s2 : htmlIter nbsp (0 + 1)
        ⟨60 :: 47 :: t :: 62 :: (y ++ rest), html ++ [60, t, 62] ++ x, size, stack ++ [t]⟩ =
        .ok (some ⟨y ++ rest, html ++ [60, t, 62] ++ x ++ [60, 47, t, 62], size, stack⟩) := by
      rw [htmlIter_succ (by simp [peek]) hb2, hg2]; rfl
    have := htmlIter_trans _ s1 (htmlIter_trans _ hk1 (htmlIter_trans _ s2 hk2))
    simpa using this

/-! ## CreateHtmlSubtitle: the step bounds suffice -/

theorem NoFuel.bind {α β : Type} {x : Except Fault α} {f : α → Except Fault β}
    (hx : NoFuel x) (hf : ∀ a, x = .ok a → NoFuel (f a)) : NoFuel (x >>= f) := by
  cases x with
  | error e =>
    intro h
    apply hx
    cases e
    · cases h
    · cases h
    · cases h
    · rfl
    · cases h
  | ok a => exact hf a rfl

theorem noFuel_ok {α : Type} (a : α) : NoFuel (Except.ok a : Except Fault α) := by
  intro h; cases h

theorem noFuel_pure {α : Type} (a : α) : NoFuel (pure a : Except Fault α) := by
  intro h; cases h

theorem noFuel_adv (n : Nat) (sub : Text) : NoFuel (adv n sub) := by
  unfold adv NoFuel; split <;> simp

theorem noFuel_put (cap c : Nat) (out : Text) : NoFuel (put cap out c) := by
  unfold put NoFuel; split <;> simp

theorem noFuel_emit (st : HState) (lit : Text) : NoFuel (emit st lit) := by
  unfold emit NoFuel; split <;> simp

theorem noFuel_copy (st : HState) (p : Text) (n : Nat) : NoFuel (copy st p n) := by
  unfold copy NoFuel; split <;> simp

theorem noFuel_push (st : HState) (c : Nat) : NoFuel (push st c) := by
  unfold push NoFuel; split <;> simp

theorem noFuel_skip (n : Nat) (st : HState) : NoFuel (skip n st) := by
  unfold skip
  exact (noFuel_adv _ _).bind (fun _ _ => noFuel_pure _)

theorem noFuel_copyBlanks (size : Nat) : ∀ (sub html : Text),
    NoFuel (copyBlanks size sub html) := by
  intro sub
  induction sub with
  | nil => intro html; exact noFuel_ok _
  | cons c r ih =>
    intro html
    simp only [copyBlanks]
    split
    · split
      · exact ih _
      · intro h; cases h
    · exact noFuel_ok _

theorem noFuel_fontAttr (st : HState) : NoFuel (fontAttr st) := by
  unfold fontAttr
  split
  · exact (noFuel_adv _ _).bind fun _ _ =>
      (noFuel_copy _ _ _).bind fun _ _ => noFuel_skip _ _
  · exact (noFuel_adv _ _).bind fun _ _ => noFuel_skip _ _

/-- The attribute loop ends within its step bound. -/
theorem noFuel_fontLoop : ∀ (f : Nat) (st : HState), st.sub.length < f →
    NoFuel (fontLoop f st) := by
  intro f
  induction f with
  | zero => intro st h; omega
  | succ f ih =>
    intro st h
    simp only [fontLoop]
    split
    · exact noFuel_ok _
    · refine (noFuel_fontAttr st).bind fun st1 h1 => ?_
      obtain ⟨-, hlt⟩ := fontAttr_follows h1
      refine (noFuel_copyBlanks _ _ _).bind fun p hp => ?_
      obtain ⟨sub2, html2⟩ := p
      obtain ⟨hle, -⟩ := copyBlanks_follows _ _ _ _ _ hp
      exact ih _ (by simp only; omega)

theorem noFuel_closeTag (st : HState) : NoFuel (closeTag st) := by
  unfold closeTag
  split
  · exact noFuel_pure _
  · exact (noFuel_copy _ _ _).bind fun _ _ => (noFuel_skip _ _).bind fun _ _ => noFuel_pure _

theorem noFuel_tagBranch (st : HState) : NoFuel (tagBranch st) := by
  unfold tagBranch
  split
  · exact (noFuel_emit _ _).bind fun _ _ => (noFuel_skip _ _).bind fun _ _ => noFuel_pure _
  split
  · exact (noFuel_emit _ _).bind fun _ _ => (noFuel_push _ _).bind fun _ _ =>
      (noFuel_skip _ _).bind fun _ _ => noFuel_pure _
  split
  · exact (noFuel_emit _ _).bind fun _ _ => (noFuel_push _ _).bind fun _ _ =>
      (noFuel_skip _ _).bind fun _ _ => noFuel_pure _
  split
  · exact (noFuel_emit _ _).bind fun _ _ => (noFuel_push _ _).bind fun _ _ =>
      (noFuel_skip _ _).bind fun _ _ => noFuel_pure _
  split
  · exact (noFuel_emit _ _).bind fun _ _ => (noFuel_push _ _).bind fun _ _ =>
      (noFuel_skip _ _).bind fun st3 _ =>
      (noFuel_fontLoop _ st3 (Nat.lt_succ_self _)).bind fun _ _ =>
      (noFuel_put _ _ _).bind fun _ _ => (noFuel_skip _ _).bind fun _ _ => noFuel_pure _
  split
  · exact noFuel_closeTag st
  · exact (noFuel_skip _ _).bind fun _ _ => noFuel_pure _

theorem noFuel_ampBranch (st : HState) : NoFuel (ampBranch st) := by
  unfold ampBranch
  split
  · exact (noFuel_emit _ _).bind fun _ _ => noFuel_skip _ _
  split
  · exact (noFuel_emit _ _).bind fun _ _ => noFuel_skip _ _
  split
  · exact (noFuel_emit _ _).bind fun _ _ => noFuel_skip _ _
  · exact (noFuel_emit _ _).bind fun _ _ => noFuel_skip _ _

theorem noFuel_plainChar (nbsp : Text) (st : HState) : NoFuel (plainChar nbsp st) := by
  unfold plainChar
  split
  · intro h; cases h
  split
  · exact (noFuel_emit _ _).bind fun _ _ => noFuel_skip _ _
  · exact noFuel_skip _ _

theorem noFuel_htmlBody (nbsp : Text) (st : HState) : NoFuel (htmlBody nbsp st) := by
  unfold htmlBody
  split
  · exact (noFuel_emit _ _).bind fun _ _ => (noFuel_skip _ _).bind fun _ _ => noFuel_pure _
  split
  · exact noFuel_tagBranch st
  split
  · exact (noFuel_ampBranch st).bind fun _ _ => noFuel_pure _
  · exact (noFuel_plainChar nbsp st).bind fun _ _ => noFuel_pure _

/-- The loop of `CreateHtmlSubtitle` ends within a step bound above the length
of the text in front of the read cursor. -/
theorem noFuel_htmlLoop (nbsp : Text) : ∀ (f : Nat) (st : HState), st.sub.length < f →
    NoFuel (htmlLoop nbsp f st) := by
  intro f
  induction f with
  | zero => intro st h; omega
  | succ f ih =>
    intro st h
    simp only [htmlLoop]
    split
    · exact noFuel_ok _
    · refine (noFuel_htmlBody nbsp st).bind fun r hr => ?_
      cases r with
      | none => exact noFuel_pure _
      | some st1 =>
        obtain ⟨-, hlt⟩ := htmlBody_follows hr
        exact ih _ (by rw [grow_sub]; omega)

/-- The pass of `CreateHtmlSubtitle` always ends within its step bounds, of
the main loop and of the attribute loop: it returns, or it leaves defined
behaviour through a load or a store outside an array or a store into a freed
buffer. -/
theorem CreateHtmlSubtitle_ends (nbsp s : Text) : NoFuel (CreateHtmlSubtitle nbsp s) := by
  unfold CreateHtmlSubtitle
  refine (by rw [htmlInit_ok]; exact noFuel_ok _ : NoFuel (htmlInit s)).bind fun st1 h1 => ?_
  have hs : st1.sub = s := by
    rw [htmlInit_ok] at h1; cases h1; rfl
  refine (noFuel_htmlLoop nbsp _ st1 (by rw [hs]; exact Nat.lt_succ_self _)).bind fun r _ => ?_
  cases r with
  | none => exact fun h => by cases h
  | some st2 =>
    refine (noFuel_emit _ _).bind fun st3 _ => ?_
    show NoFuel (if st3.stack ≠ [] then pure none else pure (some st3.html))
    split <;> exact noFuel_pure _

/-! ## CreateHtmlSubtitle: the claims -/

/-- C2 (the code at the failing input): on the text that ends behind
`<font `, with no right angle bracket to close the tag, `CreateHtmlSubtitle`
moves its read cursor past the terminator in the attribute loop. -/
theorem CreateHtmlSubtitle_font_overrun :
    CreateHtmlSubtitle nbsp160 (B "<font ") = .error .readOOB ∧
      CreateHtmlSubtitle nbsp160 (B "<font color=\"red") = .error .readOOB := by
  decide

/-- Whenever the scan of `CreateHtmlSubtitle` reaches, at the head of its
loop, a text that starts with the two characters of a closing tag while the
tag stack is empty or the innermost open tag is not closed by it, the loop is
left through `break` with the buffer freed and the result pointer `NULL`,
whatever follows, and the store of the closing root tag behind the loop goes
into the freed buffer.  So it is for `p</b>s` and for `p<b>q</i>s`, for all
texts `p` and `q` without a left angle bracket and every `s`. -/
theorem CreateHtmlSubtitle_mismatch_freed (nbsp : Text) :
    (∀ (s : Text) (k : Nat) (st : HState) (r : Text),
      (htmlInit s >>= htmlIter nbsp k) = .ok (some st) → st.sub = B "</" ++ r →
      (st.stack = [] ∨ (closeMatch st).1 = false) →
      (htmlInit s >>= htmlLoop nbsp (s.length + 1)) = .ok none ∧
        CreateHtmlSubtitle nbsp s = .error .writeFreed) ∧
    (nbsp.length ≤ 9 → ∀ (p s : Text), IsText p → 60 ∉ p →
      (htmlInit (p ++ B "</b>" ++ s) >>= htmlLoop nbsp ((p ++ B "</b>" ++ s).length + 1))
          = .ok none ∧
        CreateHtmlSubtitle nbsp (p ++ B "</b>" ++ s) = .error .writeFreed) ∧
    (nbsp.length ≤ 9 → ∀ (p q s : Text), IsText p → 60 ∉ p → IsText q → 60 ∉ q →
      (htmlInit (p ++ B "<b>" ++ q ++ B "</i>" ++ s) >>=
          htmlLoop nbsp ((p ++ B "<b>" ++ q ++ B "</i>" ++ s).length + 1)) = .ok none ∧
        CreateHtmlSubtitle nbsp (p ++ B "<b>" ++ q ++ B "</i>" ++ s) = .error .writeFreed) := by
  have gen : ∀ (s : Text) (k : Nat) (st : HState) (r : Text),
      htmlIter nbsp k { sub := s, html := B "<text>", size := strlen s + 100, stack := [] }
        = .ok (some st) → st.sub = B "</" ++ r →
      (st.stack = [] ∨ (closeMatch st).1 = false) →
      (htmlInit s >>= htmlLoop nbsp (s.length + 1)) = .ok none ∧
        CreateHtmlSubtitle nbsp s = .error .writeFreed := by
    intro s k st r hk hat hm
    have h0 : peek st.sub ≠ 0 := by rw [hat]; simp [B_close, peek]
    have hl := htmlLoop_gives_up hk h0 (htmlBody_mismatch hat hm)
    refine ⟨?_, CreateHtmlSubtitle_freed hl⟩
    rw [htmlInit_ok]
    exact hl
  refine ⟨?_, ?_, ?_⟩
  · intro s k st r hk hat hm
    rw [htmlInit_ok] at hk
    exact gen s k st r hk hat hm
  · intro hn p s hp h60
    obtain ⟨k, st1, hk, hsub, hstk, -⟩ := scan_plain hn p.length p (B "</b>" ++ s)
      { sub := p ++ B "</b>" ++ s, html := B "<text>", size := strlen (p ++ B "</b>" ++ s) + 100,
        stack := [] } (Nat.le_refl _) hp h60 (Or.inr ⟨47 :: 98 :: 62 :: s, by simp [B_cb]⟩)
      (by simp) (htmlInit_inv _)
    exact gen _ k st1 (98 :: 62 :: s) hk (by rw [hsub]; simp [B_cb, B_close]) (Or.inl hstk)
  · intro hn p q s hp hp60 hq hq60
    obtain ⟨k, st1, hk, hsub, hstk, hi⟩ := scan_plain hn p.length p
      (B "<b>" ++ q ++ B "</i>" ++ s)
      { sub := p ++ B "<b>" ++ q ++ B "</i>" ++ s, html := B "<text>",
        size := strlen (p ++ B "<b>" ++ q ++ B "</i>" ++ s) + 100, stack := [] }
      (Nat.le_refl _) hp hp60 (Or.inr ⟨98 :: 62 :: (q ++ B "</i>" ++ s), by simp [B_b]⟩)
      (by simp) (htmlInit_inv _)
    have hs1 : st1.sub = 60 :: 98 :: 62 :: (q ++ (B "</i>" ++ s)) := by
      rw [hsub]; simp [B_b]
    have hopen := htmlBody_open nbsp st1 (Or.inl rfl) hs1 (by unfold Inv at hi; omega)
      (by rw [hstk]; simp)
    have h01 : peek st1.sub ≠ 0 := by rw [hs1]; simp [peek]
    generalize hst2 : ({ st1 with sub := q ++ (B "</i>" ++ s), html := st1.html ++ [60, 98, 62]
                                  stack := st1.stack ++ [98] } : HState) = st2 at hopen
    have hsub2 : st2.sub = q ++ (B "</i>" ++ s) := by rw [← hst2]
    have hstk2 : st2.stack = [98] := by rw [← hst2]; simp [hstk]
    obtain ⟨k2, st3, hk2, hsub3, hstk3, -⟩ := scan_plain hn q.length q (B "</i>" ++ s)
      (grow st2) (Nat.le_refl _) hq hq60 (Or.inr ⟨47 :: 105 :: 62 :: s, by simp [B_ci]⟩)
      (by rw [grow_sub, hsub2]) (htmlBody_inv hopen hi)
    have hall := htmlIter_trans k hk (htmlIter_trans 1 (by rw [htmlIter_succ h01 hopen]; rfl) hk2)
    refine gen _ _ st3 (105 :: 62 :: s) hall (by rw [hsub3]; simp [B_ci, B_close]) (Or.inr ?_)
    rw [grow_stack, hstk2] at hstk3
    simp [closeMatch, hstk3, hsub3, B_ci, B_cb, strncasecmp, peek, tolower]

set_option maxRecDepth 100000 in
/-- C3 (the code at the failing input): on `x</b>y` the scan reaches the
closing tag with no tag open.  The turn gives up: the buffer is freed, the
result pointer is set to `NULL` and the loop is left through `break`.  The
store of the closing root tag behind the loop then goes through the write
cursor, which still points into the freed buffer.  So it is on `<b>x</i>y` and
on `<u>x</b>y`, where the closing tag does not close the innermost open tag,
and on `</b>` alone. -/
theorem mismatched_close_stores_into_freed :
    (htmlInit (B "x</b>y") >>= htmlIter nbsp160 1) =
        .ok (some ⟨B "</b>y", B "<text>x", 106, []⟩) ∧
      htmlBody nbsp160 ⟨B "</b>y", B "<text>x", 106, []⟩ = .ok none ∧
      (htmlInit (B "x</b>y") >>= htmlLoop nbsp160 ((B "x</b>y").length + 1)) = .ok none ∧
      CreateHtmlSubtitle nbsp160 (B "x</b>y") = .error .writeFreed ∧
      CreateHtmlSubtitle nbsp160 (B "<b>x</i>y") = .error .writeFreed ∧
      CreateHtmlSubtitle nbsp160 (B "<u>x</b>y") = .error .writeFreed ∧
      CreateHtmlSubtitle nbsp160 (B "</b>") = .error .writeFreed := by
  decide

/-- C4 (the code at the failing input): on `<b>x<` the scan of
`CreateHtmlSubtitle` reaches the end of the text with `b` on the tag stack and
the result is `NULL`, as claimed; `StripTags` on the same text returns
nothing: it moves its read cursor past the terminator.  On the text
`<b>unterminated` of the specification both halves of the claim hold. -/
theorem open_tag_then_truncated_tag :
    (htmlInit (B "<b>x<") >>= htmlIter nbsp160 3) =
        .ok (some ⟨[], B "<text><b>x", 105, B "b"⟩) ∧
      CreateHtmlSubtitle nbsp160 (B "<b>x<") = .ok none ∧
      StripTags (B "<b>x<") = .error .readOOB ∧
      CreateHtmlSubtitle nbsp160 (B "<b>unterminated") = .ok none ∧
      StripTags (B "<b>unterminated") = .ok (B "unterminated") := by
  decide

/-- Whenever the scan of `CreateHtmlSubtitle` reaches the end of the text
with a tag on the tag stack, the result is `NULL`. -/
theorem CreateHtmlSubtitle_open_at_end (nbsp s : Text) (k : Nat) (st : HState)
    (hk : (htmlInit s >>= htmlIter nbsp k) = .ok (some st)) (h0 : peek st.sub = 0)
    (hstk : st.stack ≠ []) : CreateHtmlSubtitle nbsp s = .ok none := by
  rw [htmlInit_ok] at hk
  rw [CreateHtmlSubtitle_at_end hk h0, if_pos hstk]

/-- For a text `q` without a left angle bracket, `CreateHtmlSubtitle` of
`<b>q` is `NULL`, and `StripTags` drops the tag and goes on with `q`. -/
theorem open_b_unterminated (nbsp q : Text) (hn : nbsp.length ≤ 9) (hq : IsText q)
    (h60 : 60 ∉ q) :
    CreateHtmlSubtitle nbsp (B "<b>" ++ q) = .ok none ∧
      StripTags (B "<b>" ++ q) = StripTags q := by
  constructor
  · have hs1 : (⟨B "<b>" ++ q, B "<text>", strlen (B "<b>" ++ q) + 100, []⟩ : HState).sub =
        60 :: 98 :: 62 :: q := by simp [B_b]
    have hi := htmlInit_inv (B "<b>" ++ q)
    have hopen := htmlBody_open nbsp _ (Or.inl rfl) hs1
      (by unfold Inv at hi; simp only at hi ⊢; omega) (by simp)
    generalize hst2 : ({ (⟨B "<b>" ++ q, B "<text>", strlen (B "<b>" ++ q) + 100, []⟩ : HState)
      with sub := q, html := B "<text>" ++ [60, 98, 62], stack := [] ++ [98] } : HState) = st2
      at hopen
    have hsub2 : st2.sub = q ++ [] := by rw [← hst2]; simp
    have hstk2 : st2.stack = [98] := by rw [← hst2]; simp
    obtain ⟨k2, st3, hk2, hsub3, hstk3, -⟩ := scan_plain hn q.length q [] (grow st2)
      (Nat.le_refl _) hq h60 (Or.inl rfl) (by rw [grow_sub, hsub2]) (htmlBody_inv hopen hi)
    have hall := htmlIter_trans 1 (by rw [htmlIter_succ (by simp [peek, B_b]) hopen]; rfl) hk2
    rw [CreateHtmlSubtitle_at_end hall (by rw [hsub3]; rfl), if_pos]
    rw [hstk3, grow_stack, hstk2]
    simp
  · have hall : IsText (B "<b>" ++ q) := isText_append.mpr ⟨by decide, hq⟩
    have e : B "<b>" ++ q = 60 :: ([98] ++ 62 :: q) := by simp [B_b]
    rw [StripTags_eq_strip hall, StripTags_eq_strip hq, e, strip_tag q (by decide) (by decide)]
    cases strip q <;> simp [Functor.map, Except.map, tolower]

theorem markup_append_plain {d : Nat} {x : Text} (l : Text)
    (hl : ∀ c ∈ l, c ≠ 0 ∧ c ≠ 60 ∧ c ≠ 38 ∧ c ≠ 10) (hx : Markup d x) : Markup d (l ++ x) := by
  induction l with
  | nil => simpa using hx
  | cons c r ih =>
    obtain ⟨a1, a2, a3, a4⟩ := hl c (List.mem_cons_self _ _)
    exact Markup.plain d c _ a1 a2 a3 a4 (ih (fun c hc => hl c (List.mem_cons_of_mem _ hc)))

/-- C5: for every text built from ordinary characters (no NUL, left angle
bracket, ampersand or line feed, and no blank directly behind a blank),
`<br/>`, and properly nested pairs of `<b>`, `<i>`, `<u>` in lower case with
at most 99 tags open at once, `CreateHtmlSubtitle` returns the text itself
between `<text>` and `</text>`. -/
theorem CreateHtmlSubtitle_markup (nbsp x : Text) (hx : Markup 99 x)
    (hnd : noDoubleBlank x = true) :
    CreateHtmlSubtitle nbsp x = .ok (some (B "<text>" ++ x ++ B "</text>")) := by
  have ht := markup_isText hx
  obtain ⟨k, hk⟩ := scan_markup nbsp hx []
    ⟨x, B "<text>", strlen x + 100, []⟩ (by simp) (by simp)
    (by simp [B_text, strlen_of_isText ht]; omega)
    (by
      show noDoubleBlank ((B "<text>").getLastD 0 :: (x ++ [])) = true
      rw [List.append_nil]
      exact noDoubleBlank_cons (by decide) hnd)
  rw [CreateHtmlSubtitle_at_end hk rfl]
  simp

/-- C5 at the two texts of the specification, `Hello <b>world</b>!` and
`Line1<br/>Line2`. -/
theorem CreateHtmlSubtitle_markup_witness :
    CreateHtmlSubtitle nbsp160 (B "Hello <b>world</b>!") =
        .ok (some (B "<text>" ++ B "Hello <b>world</b>!" ++ B "</text>")) ∧
      CreateHtmlSubtitle nbsp160 (B "Line1<br/>Line2") =
        .ok (some (B "<text>" ++ B "Line1<br/>Line2" ++ B "</text>")) := by
  have m1 : Markup 99 (B "Hello <b>world</b>!") := by
    have e : B "Hello <b>world</b>!" =
        B "Hello " ++ ([60, 98, 62] ++ B "world" ++ [60, 47, 98, 62] ++ B "!") := by decide
    rw [e]
    exact markup_append_plain _ (by decide)
      (Markup.pair 98 98 _ _ (Or.inl rfl)
        (by simpa using markup_append_plain (B "world") (by decide) (Markup.nil 98))
        (by simpa using markup_append_plain (B "!") (by decide) (Markup.nil 99)))
  have m2 : Markup 99 (B "Line1<br/>Line2") := by
    have e : B "Line1<br/>Line2" = B "Line1" ++ (B "<br/>" ++ (B "Line2" ++ [])) := by decide
    rw [e]
    exact markup_append_plain _ (by decide)
      (Markup.br 99 _ (markup_append_plain _ (by decide) (Markup.nil 99)))
  exact ⟨CreateHtmlSubtitle_markup nbsp160 _ m1 (by decide),
    CreateHtmlSubtitle_markup nbsp160 _ m2 (by decide)⟩

/-- C10 (the code at the failing input): on `a<x>b` the unknown tag `<x>` is
not consumed whole.  The read cursor stops on its right angle bracket, which
the next turn of the loop copies to the output as an ordinary character, so
the result differs from that for `ab`. -/
theorem CreateHtmlSubtitle_unknown_tag_leaves_bracket :
    CreateHtmlSubtitle nbsp160 (B "a<x>b") = .ok (some (B "<text>a>b</text>")) ∧
      CreateHtmlSubtitle nbsp160 (B "ab") = .ok (some (B "<text>ab</text>")) ∧
      (htmlInit (B "a<x>b") >>= htmlIter nbsp160 2) =
        .ok (some ⟨B ">b", B "<text>a", 105, []⟩) ∧
      StripTags (B "a<x>b") = .ok (B "ab") := by
  decide

/-! ## OpenDecoder and ParseText: the claims -/

theorem strdup_ne_nil {e : Text} : strdup e ≠ [] ↔ peek e ≠ 0 := by
  cases e with
  | nil => simp [strdup, peek]
  | cons c r =>
    by_cases h : c = 0
    · simp [strdup, peek, h]
    · simp [strdup, peek, h, List.takeWhile_cons]

theorem strcasecmp_utf8 {cs : Text}
    (h : cs.map tolower = B "utf-8" ∨ cs.map tolower = B "utf8") :
    strcasecmp cs (B "UTF-8") = true ∨ strcasecmp cs (B "utf8") = true := by
  have e1 : B "utf-8" = [117, 116, 102, 45, 56] := by decide
  have e2 : B "utf8" = [117, 116, 102, 56] := by decide
  have e3 : B "UTF-8" = [85, 84, 70, 45, 56] := by decide
  rw [e1, e2] at h
  rw [e2, e3]
  rcases h with h | h
  · left
    rcases cs with _ | ⟨a, _ | ⟨b, _ | ⟨c, _ | ⟨d, _ | ⟨e, _ | ⟨f, r⟩⟩⟩⟩⟩⟩ <;> simp at h
    obtain ⟨ha, hb, hc, hd, he⟩ := h
    have a0 := tolower_ne 0 ha (by decide)
    have b0 := tolower_ne 0 hb (by decide)
    have c0 := tolower_ne 0 hc (by decide)
    have d0 := tolower_ne 0 hd (by decide)
    have e0 := tolower_ne 0 he (by decide)
    have t1 : tolower 85 = 117 := by decide
    have t2 : tolower 84 = 116 := by decide
    have t3 : tolower 70 = 102 := by decide
    have t4 : tolower 45 = 45 := by decide
    have t5 : tolower 56 = 56 := by decide
    have t0 : tolower 0 = 0 := by decide
    simp [strcasecmp, peek, ha, hb, hc, hd, he, a0, b0, c0, d0, e0, t0, t1, t2, t3, t4, t5]
  · right
    rcases cs with _ | ⟨a, _ | ⟨b, _ | ⟨c, _ | ⟨d, _ | ⟨e, r⟩⟩⟩⟩⟩ <;> simp at h
    obtain ⟨ha, hb, hc, hd⟩ := h
    have a0 := tolower_ne 0 ha (by decide)
    have b0 := tolower_ne 0 hb (by decide)
    have c0 := tolower_ne 0 hc (by decide)
    have d0 := tolower_ne 0 hd (by decide)
    have t1 : tolower 117 = 117 := by decide
    have t2 : tolower 116 = 116 := by decide
    have t3 : tolower 102 = 102 := by decide
    have t5 : tolower 56 = 56 := by decide
    have t0 : tolower 0 = 0 := by decide
    simp [strcasecmp, peek, ha, hb, hc, hd, a0, b0, c0, d0, t0, t1, t2, t3, t5]

/-- C16: the character set that `OpenDecoder` settles on is the first that is
there of: `UTF-8` for the codec t140, the demuxer name when present and
non-empty, the configured value when present and not the default name in any
letter case, the locale fallback when available, the hard-coded `UTF-8`.  It is
one name for every combination of the inputs, and for a name that is `UTF-8` or
`utf8` in any letter case no converter is opened, whatever `vlc_iconv_open`
would give. -/
theorem OpenDecoder_charset_by_priority (env : OpenEnv) (codec : Codec)
    (psz_encoding : Option Text) :
    (OpenDecoder_charset env codec psz_encoding).1 =
        charsetByPriority (decide (codec = Codec.t140)) psz_encoding env.subsdec_encoding
          env.GetFallbackEncoding env.DEFAULT_NAME ∧
      (∃! n, (OpenDecoder_charset env codec psz_encoding).1 = n) ∧
      (∀ cs : Text, (cs.map tolower = B "utf-8" ∨ cs.map tolower = B "utf8") →
        OpenDecoder_iconv env cs = none) ∧
      (∀ (i_extra : Int) (p_sys : decoder_sys_t), codec ≠ Codec.ssa →
        OpenDecoder env codec psz_encoding i_extra = some p_sys →
        p_sys.iconv_handle =
          OpenDecoder_iconv env (OpenDecoder_charset env codec psz_encoding).1) := by
  refine ⟨?_, ⟨_, rfl, fun n h => h.symm⟩, ?_, ?_⟩
  · have u : strdup (B "UTF-8") = B "UTF-8" := by decide
    unfold OpenDecoder_charset charsetByPriority
    by_cases ht : codec = Codec.t140
    · simp [ht, firstPresent, u]
    · rcases psz_encoding with _ | e
      · rcases hc : env.subsdec_encoding with _ | v
        · rcases hf : env.GetFallbackEncoding with _ | f <;> simp [ht, firstPresent, u]
        · by_cases hd : strcasecmp v env.DEFAULT_NAME = true
          · rcases hf : env.GetFallbackEncoding with _ | f <;>
              simp [ht, firstPresent, u, hd, Option.filter]
          · simp [ht, firstPresent, hd, Option.filter]
      · by_cases he : peek e = 0
        · have hn : strdup e = [] := by
            by_contra h; exact (strdup_ne_nil.mp h) he
          rcases hc : env.subsdec_encoding with _ | v
          · rcases hf : env.GetFallbackEncoding with _ | f <;>
              simp [ht, firstPresent, u, he, hn, Option.filter]
          · by_cases hd : strcasecmp v env.DEFAULT_NAME = true
            · rcases hf : env.GetFallbackEncoding with _ | f <;>
                simp [ht, firstPresent, u, hd, he, hn, Option.filter]
            · simp [ht, firstPresent, hd, he, hn, Option.filter]
        · have hn : strdup e ≠ [] := strdup_ne_nil.mpr he
          simp [ht, firstPresent, he, hn, Option.filter]
  · intro cs h
    unfold OpenDecoder_iconv
    rcases strcasecmp_utf8 h with h1 | h1 <;> simp [h1]
  · intro i_extra p_sys hs h
    unfold OpenDecoder at h
    split at h
    · cases h
    · rw [if_neg (fun hc => hs hc.1)] at h
      cases h
      rfl

/-- C16 at a decoder for plain subtitles with nothing configured, which takes
the locale fallback `CP1252`, and at the name `Utf-8`, for which no converter
is opened. -/
theorem OpenDecoder_charset_by_priority_witness :
    (OpenDecoder_charset openDemo Codec.subt none).1 = B "CP1252" ∧
      OpenDecoder_iconv openDemo (B "Utf-8") = none ∧
      (OpenDecoder openDemo Codec.t140 (some (B "KOI8-R")) 0).map (fun p => p.iconv_handle) =
        some none :=
  ⟨(OpenDecoder_charset_by_priority openDemo Codec.subt none).1.trans (by decide),
    (OpenDecoder_charset_by_priority openDemo Codec.subt none).2.2.1 (B "Utf-8")
      (Or.inl (by decide)),
    by decide⟩

/-- C17: a packet whose timestamp is 0, and a packet whose payload is empty,
gives no subpicture, whatever else it holds and whatever the decoder state
is, and leaves the decoder state as it was. -/
theorem ParseText_rejects (env : DecEnv) (ssa : Bool) (p_sys : decoder_sys_t)
    (p_block : block_t) (h : p_block.i_pts = 0 ∨ p_block.p_buffer.length < 1) :
    ParseText env ssa p_sys p_block = .ok (none, p_sys) := by
  unfold ParseText
  rcases h with h | h
  · simp [h, pure, Except.pure]
  · by_cases h0 : p_block.i_pts = 0
    · simp [h0, pure, Except.pure]
    · simp [h0, h, pure, Except.pure]

/-- C17 at a packet with timestamp 0 and a payload, and at a packet with a
timestamp and no payload, for a decoder with an open converter and
autodetection on. -/
theorem ParseText_rejects_witness :
    ParseText envDemo false ⟨some 1, true, 0, -1, -1⟩ ⟨0, 5, B "Hello"⟩ =
        .ok (none, ⟨some 1, true, 0, -1, -1⟩) ∧
      ParseText envDemo true ⟨some 1, true, 0, -1, -1⟩ ⟨7, 5, []⟩ =
        .ok (none, ⟨some 1, true, 0, -1, -1⟩) :=
  ⟨ParseText_rejects envDemo false _ _ (Or.inl rfl),
    ParseText_rejects envDemo true _ _ (Or.inr (by decide))⟩

theorem addTime_range (a b : Int) : -(2 ^ 63) ≤ addTime a b ∧ addTime a b < 2 ^ 63 := by
  unfold addTime
  have h1 := Int.emod_nonneg (a + b + 2 ^ 63) (show (2 : Int) ^ 64 ≠ 0 by norm_num)
  have h2 := Int.emod_lt_of_pos (a + b + 2 ^ 63) (show (0 : Int) < 2 ^ 64 by norm_num)
  constructor <;> omega

theorem addTime_exact {a b : Int} (h1 : -(2 ^ 63) ≤ a + b) (h2 : a + b < 2 ^ 63) :
    addTime a b = a + b := by
  unfold addTime
  rw [Int.emod_eq_of_lt (by omega) (by omega)]
  omega

theorem addTime_wraps {a b : Int} (h : a + b < -(2 ^ 63) ∨ 2 ^ 63 ≤ a + b) :
    addTime a b ≠ a + b := by
  have := addTime_range a b
  omega

theorem ParseText_spu_times {env : DecEnv} {ssa : Bool} {p_sys p_sys1 : decoder_sys_t}
    {p_block : block_t} {psz : Text} {spu : subpicture_t}
    (h : ParseText_spu env ssa p_sys p_block psz = .ok (some spu, p_sys1)) :
    spu.i_start = p_block.i_pts ∧ spu.i_stop = addTime p_block.i_pts p_block.i_length ∧
      (spu.b_ephemer = true ↔ p_block.i_length = 0) := by
  unfold ParseText_spu at h
  split at h
  · cases h
  · split at h
    · cases h
    · split at h
      · obtain ⟨text, -, h⟩ := bind_ok h
        obtain ⟨html, -, h⟩ := bind_ok h
        cases h
        exact ⟨rfl, rfl, by simp⟩
      · cases h
        exact ⟨rfl, rfl, by simp⟩

/-- C18 (counterexample): for the packet of plain text with the timestamp
`2^63 - 1`, the last value of `mtime_t`, and the duration 1, `ParseText`
returns a subpicture that stops at `-2^63`, which is not timestamp plus
duration. -/
theorem ParseText_stop_wraps :
    ParseText envDemo false sysDemo ⟨2 ^ 63 - 1, 1, B "Hello <b>world</b>!"⟩ =
        .ok (some { spuDemoText with
          i_start := 2 ^ 63 - 1, i_stop := -(2 ^ 63), b_ephemer := false }, sysDemo) ∧
      (-(2 ^ 63) : Int) ≠ (2 ^ 63 - 1) + 1 := by
  decide

/-- C18 (amended): every subpicture that `ParseText` returns, for plain text
and for SSA, starts at the timestamp of the packet and stops at the 64-bit sum
of timestamp and duration, which is the sum reduced modulo `2^64` into the
range from `-2^63` to `2^63 - 1`: it is timestamp plus duration whenever that
lies in the range of `mtime_t`, and another value whenever it does not.  The
subpicture is ephemeral exactly when the duration is 0. -/
theorem ParseText_times (env : DecEnv) (ssa : Bool) (p_sys p_sys1 : decoder_sys_t)
    (p_block : block_t) (spu : subpicture_t)
    (h : ParseText env ssa p_sys p_block = .ok (some spu, p_sys1)) :
    spu.i_start = p_block.i_pts ∧
      spu.i_stop = (p_block.i_pts + p_block.i_length + 2 ^ 63) % 2 ^ 64 - 2 ^ 63 ∧
      (-(2 ^ 63) ≤ p_block.i_pts + p_block.i_length →
        p_block.i_pts + p_block.i_length < 2 ^ 63 →
        spu.i_stop = p_block.i_pts + p_block.i_length) ∧
      (p_block.i_pts + p_block.i_length < -(2 ^ 63) ∨
          2 ^ 63 ≤ p_block.i_pts + p_block.i_length →
        spu.i_stop ≠ p_block.i_pts + p_block.i_length) ∧
      (spu.b_ephemer = true ↔ p_block.i_length = 0) := by
  have key : spu.i_start = p_block.i_pts ∧
      spu.i_stop = addTime p_block.i_pts p_block.i_length ∧
      (spu.b_ephemer = true ↔ p_block.i_length = 0) := by
    unfold ParseText at h
    split at h
    · cases h
    split at h
    · cases h
    split at h
    · exact ParseText_spu_times h
    · split at h
      · split at h
        · cases h
        · exact ParseText_spu_times h
      · exact ParseText_spu_times h
  obtain ⟨h1, h2, h3⟩ := key
  refine ⟨h1, h2, fun ha hb => ?_, fun hab => ?_, h3⟩
  · rw [h2]; exact addTime_exact ha hb
  · rw [h2]; exact addTime_wraps hab

/-- C18 (amended) at a packet of plain text with duration 0, which gives an
ephemeral subpicture from 1000 to 1000, and at an SSA packet with duration 250,
which gives one from 1000 to 1250 that is not ephemeral. -/
theorem ParseText_times_witness :
    (ParseText envDemo false sysDemo ⟨1000, 0, B "Hello <b>world</b>!"⟩ =
        .ok (some spuDemoText, sysDemo) ∧
      spuDemoText.i_start = 1000 ∧ spuDemoText.i_stop = 1000 ∧ spuDemoText.b_ephemer = true) ∧
    (ParseText envDemo true sysDemo ⟨1000, 250, B "Dialogue"⟩ =
        .ok (some spuDemoSSA, sysDemo) ∧
      spuDemoSSA.i_start = 1000 ∧ spuDemoSSA.i_stop = 1250 ∧ spuDemoSSA.b_ephemer = false) :=
  have h1 := ParseText_times envDemo false sysDemo sysDemo
    ⟨1000, 0, B "Hello <b>world</b>!"⟩ spuDemoText (by decide)
  have h2 := ParseText_times envDemo true sysDemo sysDemo
    ⟨1000, 250, B "Dialogue"⟩ spuDemoSSA (by decide)
  ⟨⟨by decide, h1.1, h1.2.2.1 (by decide) (by decide), h1.2.2.2.2.mpr rfl⟩,
    ⟨by decide, h2.1, h2.2.2.1 (by decide) (by decide), by decide⟩⟩

/-! ## CreateHtmlSubtitle: where the stored bytes come from -/

theorem Emits.same (P : Nat → Prop) (st : HState) : Emits P st st :=
  fun h => ⟨⟨[], by simp, by simp⟩, h⟩

theorem Emits.andThen {P : Nat → Prop} {a b c : HState} (h1 : Emits P a b)
    (h2 : Emits P b c) : Emits P a c := by
  intro ha
  obtain ⟨⟨e1, he1, hp1⟩, hb⟩ := h1 ha
  obtain ⟨⟨e2, he2, hp2⟩, hc⟩ := h2 hb
  refine ⟨⟨e1 ++ e2, by rw [he2, he1, List.append_assoc], ?_⟩, hc⟩
  intro x hx
  rcases List.mem_append.mp hx with h | h
  · exact hp1 x h
  · exact hp2 x h

theorem emit_emits {P : Nat → Prop} {st st1 : HState} {lit : Text}
    (h : emit st lit = .ok st1) (hl : ∀ c ∈ lit, P c) : Emits P st st1 := by
  obtain ⟨rfl, -⟩ := emit_ok h
  exact fun hs => ⟨⟨lit, rfl, hl⟩, hs⟩

theorem push_emits {P : Nat → Prop} {st st1 : HState} {c : Nat}
    (h : push st c = .ok st1) : Emits P st st1 := by
  obtain ⟨rfl, -⟩ := push_ok h
  exact fun hs => ⟨⟨[], by simp, by simp⟩, hs⟩

theorem skip_emits {P : Nat → Prop} {st st1 : HState} {n : Nat}
    (h : skip n st = .ok st1) : Emits P st st1 := by
  obtain ⟨rfl, -⟩ := skip_ok h
  exact fun hs => ⟨⟨[], by simp, by simp⟩, fun c hc => hs c (List.mem_of_mem_drop hc)⟩

theorem strncpy_bytes {P : Nat → Prop} (p : Text) (n : Nat) (h0 : P 0)
    (hp : ∀ c ∈ p, P c) : ∀ c ∈ strncpy p n, P c := by
  intro c hc
  simp only [strncpy, List.mem_append, List.mem_replicate] at hc
  rcases hc with hc | ⟨-, rfl⟩
  · exact hp c ((List.takeWhile_sublist _).subset (List.mem_of_mem_take hc))
  · exact h0

theorem copy_emits {P : Nat → Prop} {st st1 : HState} {n : Nat} (h0 : P 0)
    (h : copy st st.sub n = .ok st1) : Emits P st st1 := by
  obtain ⟨rfl, -⟩ := copy_ok h
  exact fun hs => ⟨⟨_, rfl, strncpy_bytes _ _ h0 hs⟩, hs⟩

theorem peek_bytes {P : Nat → Prop} {sub : Text} (h0 : P 0) (hs : ∀ c ∈ sub, P c) :
    P (peek sub) := by
  cases sub with
  | nil => exact h0
  | cons c r => exact hs c (List.mem_cons_self _ _)

theorem copyBlanks_emits {P : Nat → Prop} (size : Nat) : ∀ (sub html sub2 html2 : Text),
    copyBlanks size sub html = .ok (sub2, html2) → (∀ c ∈ sub, P c) →
      (∃ e, html2 = html ++ e ∧ ∀ c ∈ e, P c) ∧ ∀ c ∈ sub2, P c := by
  intro sub
  induction sub with
  | nil =>
    intro html sub2 html2 h hs
    simp only [copyBlanks, Except.ok.injEq, Prod.mk.injEq] at h
    obtain ⟨rfl, rfl⟩ := h
    exact ⟨⟨[], by simp, by simp⟩, hs⟩
  | cons c r ih =>
    intro html sub2 html2 h hs
    simp only [copyBlanks] at h
    split at h
    · rename_i hc
      split at h
      · obtain ⟨⟨e, he, hp⟩, h2⟩ := ih _ _ _ h (fun x hx => hs x (List.mem_cons_of_mem _ hx))
        refine ⟨⟨32 :: e, by rw [he]; simp, ?_⟩, h2⟩
        intro x hx
        rcases List.mem_cons.mp hx with rfl | hx
        · exact hc ▸ hs c (List.mem_cons_self _ _)
        · exact hp x hx
      · cases h
    · simp only [Except.ok.injEq, Prod.mk.injEq] at h
      obtain ⟨rfl, rfl⟩ := h
      exact ⟨⟨[], by simp, by simp⟩, hs⟩

theorem fontAttr_emits {P : Nat → Prop} {st st1 : HState} (h0 : P 0)
    (h : fontAttr st = .ok st1) : Emits P st st1 := by
  unfold fontAttr at h
  split at h
  · obtain ⟨r, -, h⟩ := bind_ok h
    obtain ⟨st2, h2, h⟩ := bind_ok h
    exact (copy_emits h0 h2).andThen (skip_emits h)
  · obtain ⟨r, -, h⟩ := bind_ok h
    exact skip_emits h

theorem fontLoop_emits {P : Nat → Prop} (h0 : P 0) : ∀ (f : Nat) (st st1 : HState),
    fontLoop f st = .ok st1 → Emits P st st1 := by
  intro f
  induction f with
  | zero => intro st st1 h; cases h
  | succ f ih =>
    intro st st1 h
    simp only [fontLoop] at h
    split at h
    · cases h; exact Emits.same _ _
    · obtain ⟨st2, h2, h⟩ := bind_ok h
      obtain ⟨⟨sub3, html3⟩, h3, h⟩ := bind_ok h
      have e2 := fontAttr_emits (P := P) h0 h2
      have e3 : Emits P st2 { st2 with sub := sub3, html := html3 } :=
        fun hs => copyBlanks_emits _ _ _ _ _ h3 hs
      exact (e2.andThen e3).andThen (ih _ _ h)

theorem lit_bytes {P : Nat → Prop} (hl : ∀ c ∈ loopBytes, P c) {lit : Text}
    (h : ∀ c ∈ lit, c ∈ loopBytes) : ∀ c ∈ lit, P c :=
  fun c hc => hl c (h c hc)

theorem closeTag_emits {P : Nat → Prop} {st st1 : HState} (h0 : P 0)
    (h : closeTag st = .ok (some st1)) : Emits P st st1 := by
  unfold closeTag at h
  split at h
  · cases h
  · obtain ⟨st2, h2, h⟩ := bind_ok h
    obtain ⟨st3, h3, h⟩ := bind_ok h
    cases h
    have e0 : Emits P st { st with stack := st.stack.dropLast } :=
      fun hs => ⟨⟨[], by simp, by simp⟩, hs⟩
    have e2 : Emits P { st with stack := st.stack.dropLast } st2 := copy_emits h0 h2
    exact (e0.andThen e2).andThen (skip_emits h3)

theorem tagBranch_emits {P : Nat → Prop} {st st1 : HState} (h0 : P 0)
    (hl : ∀ c ∈ loopBytes, P c) (h : tagBranch st = .ok (some st1)) : Emits P st st1 := by
  unfold tagBranch at h
  split at h
  · obtain ⟨st2, h2, h⟩ := bind_ok h
    obtain ⟨st3, h3, h⟩ := bind_ok h
    cases h
    exact (emit_emits h2 (lit_bytes hl (by decide))).andThen (skip_emits h3)
  split at h
  · obtain ⟨st2, h2, h⟩ := bind_ok h
    obtain ⟨st3, h3, h⟩ := bind_ok h
    obtain ⟨st4, h4, h⟩ := bind_ok h
    cases h
    exact ((emit_emits h2 (lit_bytes hl (by decide))).andThen (push_emits h3)).andThen
      (skip_emits h4)
  split at h
  · obtain ⟨st2, h2, h⟩ := bind_ok h
    obtain ⟨st3, h3, h⟩ := bind_ok h
    obtain ⟨st4, h4, h⟩ := bind_ok h
    cases h
    exact ((emit_emits h2 (lit_bytes hl (by decide))).andThen (push_emits h3)).andThen
      (skip_emits h4)
  split at h
  · obtain ⟨st2, h2, h⟩ := bind_ok h
    obtain ⟨st3, h3, h⟩ := bind_ok h
    obtain ⟨st4, h4, h⟩ := bind_ok h
    cases h
    exact ((emit_emits h2 (lit_bytes hl (by decide))).andThen (push_emits h3)).andThen
      (skip_emits h4)
  split at h
  · obtain ⟨st2, h2, h⟩ := bind_ok h
    obtain ⟨st3, h3, h⟩ := bind_ok h
    obtain ⟨st4, h4, h⟩ := bind_ok h
    obtain ⟨st5, h5, h⟩ := bind_ok h
    obtain ⟨html6, h6, h⟩ := bind_ok h
    obtain ⟨st7, h7, h⟩ := bind_ok h
    cases h
    obtain ⟨rfl, -⟩ := put_inv h6
    have e6 : Emits P st5 { st5 with html := st5.html ++ [peek st5.sub] } :=
      fun hs => ⟨⟨[peek st5.sub], rfl, by
        intro c hc
        rw [List.mem_singleton] at hc
        rw [hc]; exact peek_bytes h0 hs⟩, hs⟩
    exact (((((emit_emits h2 (lit_bytes hl (by decide))).andThen (push_emits h3)).andThen
      (skip_emits h4)).andThen (fontLoop_emits h0 _ _ _ h5)).andThen e6).andThen (skip_emits h7)
  split at h
  · exact closeTag_emits h0 h
  · obtain ⟨st2, h2, h⟩ := bind_ok h
    cases h
    exact skip_emits h2

theorem ampBranch_emits {P : Nat → Prop} {st st1 : HState} (hl : ∀ c ∈ loopBytes, P c)
    (h : ampBranch st = .ok st1) : Emits P st st1 := by
  unfold ampBranch at h
  split at h
  · obtain ⟨st2, h2, h⟩ := bind_ok h
    exact (emit_emits h2 (lit_bytes hl (by decide))).andThen (skip_emits h)
  split at h
  · obtain ⟨st2, h2, h⟩ := bind_ok h
    exact (emit_emits h2 (lit_bytes hl (by decide))).andThen (skip_emits h)
  split at h
  · obtain ⟨st2, h2, h⟩ := bind_ok h
    exact (emit_emits h2 (lit_bytes hl (by decide))).andThen (skip_emits h)
  · obtain ⟨st2, h2, h⟩ := bind_ok h
    exact (emit_emits h2 (lit_bytes hl (by decide))).andThen (skip_emits h)

theorem plainChar_emits {P : Nat → Prop} {nbsp : Text} {st st1 : HState} (h0 : P 0)
    (hn : ∀ c ∈ nbsp, P c) (h : plainChar nbsp st = .ok st1) : Emits P st st1 := by
  unfold plainChar at h
  split at h
  · cases h
  split at h
  · obtain ⟨st2, h2, h⟩ := bind_ok h
    exact (emit_emits h2 hn).andThen (skip_emits h)
  · have e1 : Emits P st { st with html := st.html ++ [peek st.sub] } :=
      fun hs => ⟨⟨[peek st.sub], rfl, by
        intro c hc
        rw [List.mem_singleton] at hc
        rw [hc]; exact peek_bytes h0 hs⟩, hs⟩
    exact e1.andThen (skip_emits h)

/-- Every byte that a turn of the loop stores is a byte of one of the
literals of the loop, of the marker, of the text in front of the read cursor,
or a NUL that `strncpy` has filled in. -/
theorem htmlBody_emits {P : Nat → Prop} {nbsp : Text} {st st1 : HState} (h0 : P 0)
    (hl : ∀ c ∈ loopBytes, P c) (hn : ∀ c ∈ nbsp, P c)
    (h : htmlBody nbsp st = .ok (some st1)) : Emits P st st1 := by
  unfold htmlBody at h
  split at h
  · obtain ⟨st2, h2, h⟩ := bind_ok h
    obtain ⟨st3, h3, h⟩ := bind_ok h
    cases h
    exact (emit_emits h2 (lit_bytes hl (by decide))).andThen (skip_emits h3)
  split at h
  · exact tagBranch_emits h0 hl h
  split at h
  · obtain ⟨st2, h2, h⟩ := bind_ok h
    cases h
    exact ampBranch_emits hl h2
  · obtain ⟨st2, h2, h⟩ := bind_ok h
    cases h
    exact plainChar_emits h0 hn h2

theorem htmlLoop_emits {P : Nat → Prop} {nbsp : Text} (h0 : P 0)
    (hl : ∀ c ∈ loopBytes, P c) (hn : ∀ c ∈ nbsp, P c) : ∀ (f : Nat) (st st1 : HState),
    htmlLoop nbsp f st = .ok (some st1) → Emits P st st1 := by
  intro f
  induction f with
  | zero => intro st st1 h; cases h
  | succ f ih =>
    intro st st1 h
    simp only [htmlLoop] at h
    split at h
    · cases h; exact Emits.same _ _
    · obtain ⟨r, hr, h⟩ := bind_ok h
      cases r with
      | none => cases h
      | some st2 =>
        have e1 := htmlBody_emits h0 hl hn hr
        have eg : Emits P st2 (grow st2) := by
          intro hs
          refine ⟨⟨[], ?_, by simp⟩, by rw [grow_sub]; exact hs⟩
          unfold grow
          split <;> simp
        exact (e1.andThen eg).andThen (ih _ _ h)

/-- C12: every value that `CreateHtmlSubtitle` returns is `<text>`, then what
the loop has stored, then `</text>`.  What the loop has stored is made of bytes
of its own literals (the tags `<br/>`, `<b>`, `<i>`, `<u>`, `<font ` and the
entities `&lt;`, `&gt;`, `&amp;`), of the marker, and of the input, and of
padding NULs; so, for an input and a marker without the letter `x`, it holds
no `x`, and the root tags at the two ends are the only ones in the value. -/
theorem CreateHtmlSubtitle_wrapped (nbsp s m : Text)
    (h : CreateHtmlSubtitle nbsp s = .ok (some m)) :
    ∃ body, m = B "<text>" ++ body ++ B "</text>" ∧
      (∀ c ∈ body, c ∈ loopBytes ∨ c ∈ nbsp ∨ c ∈ s ∨ c = 0) ∧
      (120 ∉ nbsp → 120 ∉ s → 120 ∉ body) := by
  unfold CreateHtmlSubtitle at h
  obtain ⟨st1, h1, h⟩ := bind_ok h
  rw [htmlInit_ok] at h1
  cases h1
  obtain ⟨r, hr, h⟩ := bind_ok h
  cases r with
  | none => cases h
  | some st2 =>
    obtain ⟨st3, h3, h⟩ := bind_ok h
    obtain ⟨rfl, -⟩ := emit_ok h3
    have hm : m = st2.html ++ B "</text>" := by
      by_cases hs : st2.stack ≠ []
      · simp [hs, pure, Except.pure] at h
      · simp only [hs, if_false, pure, Except.pure, Except.ok.injEq, Option.some.injEq] at h
        exact h.symm
    have he := htmlLoop_emits (P := fun c => c ∈ loopBytes ∨ c ∈ nbsp ∨ c ∈ s ∨ c = 0)
      (Or.inr (Or.inr (Or.inr rfl))) (fun c hc => Or.inl hc)
      (fun c hc => Or.inr (Or.inl hc)) _ _ _ hr
    obtain ⟨⟨body, hb, hp⟩, -⟩ := he (fun c hc => Or.inr (Or.inr (Or.inl hc)))
    refine ⟨body, by rw [hm, hb], hp, fun hn hs hx => ?_⟩
    rcases hp 120 hx with h1 | h1 | h1 | h1
    · exact absurd h1 (by decide)
    · exact hn h1
    · exact hs h1
    · cases h1

/-- C12 at `Hello <b>world</b>!`. -/
theorem CreateHtmlSubtitle_wrapped_witness :
    ∃ body, B "<text>Hello <b>world</b>!</text>" = B "<text>" ++ body ++ B "</text>" ∧
      (∀ c ∈ body, c ∈ loopBytes ∨ c ∈ nbsp160 ∨ c ∈ B "Hello <b>world</b>!" ∨ c = 0) ∧
      (120 ∉ nbsp160 → 120 ∉ B "Hello <b>world</b>!" → 120 ∉ body) :=
  CreateHtmlSubtitle_wrapped nbsp160 (B "Hello <b>world</b>!")
    (B "<text>Hello <b>world</b>!</text>") (by decide)

/-! ## CreateHtmlSubtitle: entities, line breaks and blanks -/

theorem grow_html (st : HState) : (grow st).html = st.html := by
  unfold grow; split <;> rfl

/-- The branch for `&lt;`, `&gt;` and `&amp;` in any letter case: the whole
entity is consumed and its lower-case form is stored. -/
theorem htmlBody_entity (nbsp : Text) (st : HState) (E q b : Text)
    (hq : q = B "&lt;" ∨ q = B "&gt;" ∨ q = B "&amp;") (hE : E.map tolower = q)
    (hs : st.sub = E ++ b) (hi : Inv st) :
    htmlBody nbsp st = .ok (some { st with sub := b, html := st.html ++ q }) := by
  obtain ⟨sub, html, size, stack⟩ := st
  simp only [Inv] at hi
  simp only at hs ⊢
  subst hs
  have e38 : ∀ c, tolower c = 38 ↔ c = 38 := fun c => tolower_eq_fixed (by omega)
  have e59 : ∀ c, tolower c = 59 ↔ c = 59 := fun c => tolower_eq_fixed (by omega)
  rcases hq with rfl | rfl | rfl
  · rw [B_lt] at hE
    rcases E with _ | ⟨e0, _ | ⟨e1, _ | ⟨e2, _ | ⟨e3, _ | ⟨e4, r⟩⟩⟩⟩⟩ <;> simp [e38, e59] at hE
    obtain ⟨rfl, h1, h2, rfl⟩ := hE
    have hm : strncasecmp (38 :: e1 :: e2 :: 59 :: b) (B "&lt;") 4 = true := by
      rw [lt_match]; simp [h1, h2]; decide
    have hfit : html.length + (B "&lt;").length + 1 ≤ size := by
      rw [B_lt]; simp only [List.length_cons, List.length_nil]; omega
    simp [htmlBody, peek, ampBranch, hm, emit, hfit, skip, adv, bind, Except.bind, pure,
      Except.pure]
  · rw [B_gt] at hE
    rcases E with _ | ⟨e0, _ | ⟨e1, _ | ⟨e2, _ | ⟨e3, _ | ⟨e4, r⟩⟩⟩⟩⟩ <;> simp [e38, e59] at hE
    obtain ⟨rfl, h1, h2, rfl⟩ := hE
    have hl : strncasecmp (38 :: e1 :: e2 :: 59 :: b) (B "&lt;") 4 = false := by
      rw [← Bool.not_eq_true, lt_match]; simp [h1, h2]
    have hm : strncasecmp (38 :: e1 :: e2 :: 59 :: b) (B "&gt;") 4 = true := by
      rw [gt_match]; simp [h1, h2]; decide
    have hfit : html.length + (B "&gt;").length + 1 ≤ size := by
      rw [B_gt]; simp only [List.length_cons, List.length_nil]; omega
    simp [htmlBody, peek, ampBranch, hl, hm, emit, hfit, skip, adv, bind, Except.bind,
      pure, Except.pure]
  · rw [B_amp] at hE
    rcases E with _ | ⟨e0, _ | ⟨e1, _ | ⟨e2, _ | ⟨e3, _ | ⟨e4, _ | ⟨e5, r⟩⟩⟩⟩⟩⟩ <;>
      simp [e38, e59] at hE
    obtain ⟨rfl, h1, h2, h3, rfl⟩ := hE
    have hl : strncasecmp (38 :: e1 :: e2 :: e3 :: 59 :: b) (B "&lt;") 4 = false := by
      rw [← Bool.not_eq_true, lt_match]; simp [h1, h2, h3]
    have hg : strncasecmp (38 :: e1 :: e2 :: e3 :: 59 :: b) (B "&gt;") 4 = false := by
      rw [← Bool.not_eq_true, gt_match]; simp [h1, h2, h3]
    have hm : strncasecmp (38 :: e1 :: e2 :: e3 :: 59 :: b) (B "&amp;") 5 = true := by
      rw [amp_match]; simp [h1, h2, h3]; decide
    have hfit : html.length + (B "&amp;").length + 1 ≤ size := by
      rw [B_amp]; simp only [List.length_cons, List.length_nil]; omega
    simp [htmlBody, peek, ampBranch, hl, hg, hm, emit, hfit, skip, adv, bind,
      Except.bind, pure, Except.pure]

/-- The branch for an ampersand that starts none of `&lt;`, `&gt;`, `&amp;`:
`&amp;` is stored and one byte is consumed.  This is also the branch that an
ampersand in front of `quot;` takes. -/
theorem htmlBody_amp_bare (nbsp : Text) (st : HState) (r : Text) (hs : st.sub = 38 :: r)
    (hl : strncasecmp st.sub (B "&lt;") 4 = false)
    (hg : strncasecmp st.sub (B "&gt;") 4 = false)
    (ha : strncasecmp st.sub (B "&amp;") 5 = false) (hi : Inv st) :
    htmlBody nbsp st = .ok (some { st with sub := r, html := st.html ++ B "&amp;" }) := by
  obtain ⟨sub, html, size, stack⟩ := st
  simp only [Inv] at hi
  simp only at hs hl hg ha ⊢
  subst hs
  have hfit : html.length + (B "&amp;").length + 1 ≤ size := by
    rw [B_amp]; simp only [List.length_cons, List.length_nil]; omega
  simp [htmlBody, peek, ampBranch, hl, hg, ha, emit, hfit, skip, adv, bind, Except.bind,
    pure, Except.pure]

/-- C11 (the code at the failing input): `CreateHtmlSubtitle` has no branch
for `&quot;`.  The ampersand in front of `quot;` is taken for a bare one: it is
stored as `&amp;` and one byte is consumed, so `a &quot; b` gives
`a &amp;quot; b` where the claim has `a &quot; b`; `StripTags` decodes the same
entity to the quotation mark.  The other three entities, in any letter case,
and a bare ampersand are treated as the claim says. -/
theorem CreateHtmlSubtitle_quot_not_an_entity :
    CreateHtmlSubtitle nbsp160 (B "a &quot; b") =
        .ok (some (B "<text>a &amp;quot; b</text>")) ∧
      (htmlInit (B "a &quot; b") >>= htmlIter nbsp160 3) =
        .ok (some ⟨B "quot; b", B "<text>a &amp;", 110, []⟩) ∧
      StripTags (B "a &quot; b") = .ok (B "a \" b") ∧
      CreateHtmlSubtitle nbsp160 (B "&LT;&gt;&Amp;&x") =
        .ok (some (B "<text>&lt;&gt;&amp;&amp;x</text>")) := by
  decide

/-- One turn of the loop in front of a line feed and in front of a spelling
of `<br/>` in any letter case, from the same state otherwise: the two turns
have the same result.  With the head-room of the loop head both store the
lower-case `<br/>`, consume the line break and leave the tag stack alone. -/
theorem htmlBody_newline_br (nbsp : Text) (st : HState) (T b : Text)
    (hT : T.map tolower = B "<br/>") :
    htmlBody nbsp { st with sub := T ++ b } = htmlBody nbsp { st with sub := 10 :: b } ∧
      (Inv st → htmlBody nbsp { st with sub := 10 :: b } =
        .ok (some { st with sub := b, html := st.html ++ B "<br/>" })) := by
  obtain ⟨sub, html, size, stack⟩ := st
  have e60 : ∀ c, tolower c = 60 ↔ c = 60 := fun c => tolower_eq_fixed (by omega)
  have e47 : ∀ c, tolower c = 47 ↔ c = 47 := fun c => tolower_eq_fixed (by omega)
  have e62 : ∀ c, tolower c = 62 ↔ c = 62 := fun c => tolower_eq_fixed (by omega)
  rw [B_br] at hT
  rcases T with _ | ⟨e0, _ | ⟨e1, _ | ⟨e2, _ | ⟨e3, _ | ⟨e4, _ | ⟨e5, r⟩⟩⟩⟩⟩⟩ <;>
    simp [e60, e47, e62] at hT
  obtain ⟨rfl, h1, h2, rfl, rfl⟩ := hT
  have hm : strncasecmp (60 :: e1 :: e2 :: 47 :: 62 :: b) (B "<br/>") 5 = true := by
    rw [br_match]; simp [h1, h2]; decide
  constructor
  · by_cases hfit : html.length + (B "<br/>").length + 1 ≤ size
    · simp [htmlBody, peek, tagBranch, hm, emit, hfit, skip, adv, bind, Except.bind, pure,
        Except.pure]
    · simp [htmlBody, peek, tagBranch, hm, emit, hfit, skip, adv, bind, Except.bind, pure,
        Except.pure]
  · intro hi
    simp only [Inv] at hi
    have hfit : html.length + (B "<br/>").length + 1 ≤ size := by
      rw [B_br]; simp only [List.length_cons, List.length_nil]; omega
    simp [htmlBody, peek, emit, hfit, skip, adv, bind, Except.bind, pure, Except.pure]

set_option maxRecDepth 100000 in
/-- C13 (the code at the failing input): behind 25 line feeds, a line feed
and `<br/>` in front of `<font size="1"></font>` are not interchangeable.  The
text with the line feed is four bytes shorter, and so is the buffer, which is
sized from the length of the text; after 26 line breaks the write cursor is at
136 in both, the copy of `size="1"` ends at 150, inside the 152 bytes of the one
buffer and behind the 148 bytes of the other. -/
theorem newline_and_br_differ_in_room :
    CreateHtmlSubtitle nbsp160
        (List.replicate 25 10 ++ B "\n" ++ B "<font size=\"1\"></font>") = .error .writeOOB ∧
      CreateHtmlSubtitle nbsp160
        (List.replicate 25 10 ++ B "<br/>" ++ B "<font size=\"1\"></font>") =
        .ok (some (B "<text>" ++ (List.replicate 26 (B "<br/>")).flatten ++
          B "<font size=\"1\"></font></text>")) ∧
      (htmlInit (List.replicate 25 10 ++ B "\n" ++ B "<font size=\"1\"></font>") >>=
          htmlIter nbsp160 26) =
        .ok (some ⟨B "<font size=\"1\"></font>",
          B "<text>" ++ (List.replicate 26 (B "<br/>")).flatten, 148, []⟩) ∧
      (htmlInit (List.replicate 25 10 ++ B "<br/>" ++ B "<font size=\"1\"></font>") >>=
          htmlIter nbsp160 26) =
        .ok (some ⟨B "<font size=\"1\"></font>",
          B "<text>" ++ (List.replicate 26 (B "<br/>")).flatten, 152, []⟩) := by
  decide

/-- C15 (counterexample): three blanks give a blank, one marker and a blank,
not a blank and two markers. -/
theorem three_blanks_one_marker :
    CreateHtmlSubtitle nbsp160 (B "a   b") = .ok (some (B "<text>a &#160; b</text>")) ∧
      CreateHtmlSubtitle nbsp160 (B "a   b") ≠
        .ok (some (B "<text>a " ++ nbsp160 ++ nbsp160 ++ B "b</text>")) := by
  decide

/-- The branch for a blank behind a blank: the marker is stored. -/
theorem htmlBody_second_blank (nbsp : Text) (st : HState) {c : Nat} {r : Text}
    (hn : nbsp.length ≤ 9) (hs : st.sub = c :: r) (hc : isBlank c = true)
    (hp : isBlank (st.html.getLastD 0) = true) (hi : Inv st) :
    htmlBody nbsp st = .ok (some { st with sub := r, html := st.html ++ nbsp }) := by
  obtain ⟨sub, html, size, stack⟩ := st
  simp only [Inv] at hi
  simp only at hs hp ⊢
  subst hs
  have hc2 : c = 32 ∨ c = 9 := by simpa [isBlank] using hc
  have h10 : c ≠ 10 := by omega
  have h60 : c ≠ 60 := by omega
  have h38 : c ≠ 38 := by omega
  have hne : html ≠ [] := by
    rintro rfl
    simp [isBlank] at hp
  have hfit1 : ¬ size ≤ html.length := by omega
  have hfitn : html.length + nbsp.length + 1 ≤ size := by omega
  have hd : html ≠ [] ∧ isBlank (peek (c :: r)) = true ∧ isBlank (html.getLastD 0) = true :=
    ⟨hne, hc, hp⟩
  simp only [htmlBody, peek, List.headD_cons, h10, h60, h38, if_false, plainChar, hfit1]
  rw [if_pos (by simpa [peek] using hd)]
  simp [emit, hfitn, skip, adv, bind, Except.bind, pure, Except.pure]

/-- The scan over a run of blanks: the blanks that follow a blank in the
output are replaced by the marker, the others are stored as they are. -/
theorem scan_blanks {nbsp : Text} (hn : nbsp.length ≤ 9) (hne : nbsp ≠ [])
    (hl : isBlank (nbsp.getLastD 0) = false) :
    ∀ (run rest : Text) (st : HState), (∀ c ∈ run, isBlank c = true) →
      st.sub = run ++ rest → Inv st →
      ∃ st1, htmlIter nbsp run.length st = .ok (some st1) ∧ st1.sub = rest ∧
        st1.html = st.html ++ markRun nbsp (isBlank (st.html.getLastD 0)) run ∧
        st1.stack = st.stack ∧ Inv st1 := by
  intro run
  induction run with
  | nil =>
    intro rest st _ hs hi
    exact ⟨st, rfl, by simpa using hs, by simp [markRun], rfl, hi⟩
  | cons c run ih =>
    intro rest st hrun hs hi
    have hc : isBlank c = true := hrun c (List.mem_cons_self _ _)
    have hc2 : c = 32 ∨ c = 9 := by simpa [isBlank] using hc
    have hs1 : st.sub = c :: (run ++ rest) := by rw [hs]; rfl
    have h0 : peek st.sub ≠ 0 := by rw [hs1]; simp only [peek, List.headD_cons]; omega
    have hrun1 : ∀ x ∈ run, isBlank x = true := fun x hx => hrun x (List.mem_cons_of_mem _ hx)
    cases hp : isBlank (st.html.getLastD 0) with
    | false =>
      have hb := htmlBody_char nbsp st hs1 (by omega) (by omega) (by omega)
        (by rw [hp]; simp) (by unfold Inv at hi; omega)
      generalize hst1 : ({ st with sub := run ++ rest, html := st.html ++ [c] } : HState) = st1
        at hb
      have hsub : (grow st1).sub = run ++ rest := by rw [grow_sub, ← hst1]
      have hhtml : (grow st1).html = st.html ++ [c] := by rw [grow_html, ← hst1]
      have hstk : (grow st1).stack = st.stack := by rw [grow_stack, ← hst1]
      obtain ⟨st2, hk, hs2, hh2, hstk2, hi2⟩ := ih rest (grow st1) hrun1 hsub
        (htmlBody_inv hb hi)
      refine ⟨st2, ?_, hs2, ?_, by rw [hstk2, hstk], hi2⟩
      · rw [List.length_cons, htmlIter_succ h0 hb]; exact hk
      · rw [hh2, hhtml]
        simp [markRun, hc]
    | true =>
      have hb := htmlBody_second_blank nbsp st hn hs1 hc hp hi
      generalize hst1 : ({ st with sub := run ++ rest, html := st.html ++ nbsp } : HState) = st1
        at hb
      have hsub : (grow st1).sub = run ++ rest := by rw [grow_sub, ← hst1]
      have hhtml : (grow st1).html = st.html ++ nbsp := by rw [grow_html, ← hst1]
      have hstk : (grow st1).stack = st.stack := by rw [grow_stack, ← hst1]
      obtain ⟨st2, hk, hs2, hh2, hstk2, hi2⟩ := ih rest (grow st1) hrun1 hsub
        (htmlBody_inv hb hi)
      refine ⟨st2, ?_, hs2, ?_, by rw [hstk2, hstk], hi2⟩
      · rw [List.length_cons, htmlIter_succ h0 hb]; exact hk
      · rw [hh2, hhtml]
        have hlast : (st.html ++ nbsp).getLastD 0 = nbsp.getLastD 0 := by
          obtain ⟨a, x, rfl⟩ : ∃ a x, nbsp = a ++ [x] :=
            ⟨nbsp.dropLast, nbsp.getLast hne, (List.dropLast_append_getLast hne).symm⟩
          rw [← List.append_assoc, List.getLastD_concat, List.getLastD_concat]
        rw [hlast, hl]
        simp [markRun]

theorem noDoubleBlank_append : ∀ (x y : Text), noDoubleBlank x = true →
    noDoubleBlank (x.getLastD 0 :: y) = true → noDoubleBlank (x ++ y) = true := by
  intro x
  induction x with
  | nil => intro y _ h; exact noDoubleBlank_tail h
  | cons a x ih =>
    intro y hx hy
    cases x with
    | nil => exact hy
    | cons b x =>
      have e : noDoubleBlank (a :: b :: x) =
          (!(isBlank a && isBlank b) && noDoubleBlank (b :: x)) := rfl
      have e1 : noDoubleBlank (a :: b :: x ++ y) =
          (!(isBlank a && isBlank b) && noDoubleBlank (b :: x ++ y)) := rfl
      rw [e, Bool.and_eq_true] at hx
      rw [e1, Bool.and_eq_true]
      exact ⟨hx.1, ih y hx.2 hy⟩

/-- With a marker that neither starts nor ends with a blank and holds no
blank behind a blank, what is stored for a run holds no blank behind a
blank. -/
theorem noDoubleBlank_markRun {nbsp : Text} (hne : nbsp ≠ [])
    (hh : isBlank (nbsp.headD 0) = false) (hl : isBlank (nbsp.getLastD 0) = false)
    (hnd : noDoubleBlank nbsp = true) :
    ∀ (run : Text), (∀ p, isBlank p = false → noDoubleBlank (p :: markRun nbsp false run) = true) ∧
      ∀ c, noDoubleBlank (c :: markRun nbsp true run) = true := by
  intro run
  induction run with
  | nil => exact ⟨fun p _ => rfl, fun c => rfl⟩
  | cons d r ih =>
    refine ⟨fun p hp => ?_, fun c => ?_⟩
    · have e : noDoubleBlank (p :: markRun nbsp false (d :: r)) =
          (!(isBlank p && isBlank d) && noDoubleBlank (d :: markRun nbsp true r)) := rfl
      rw [e, ih.2 d, hp]; rfl
    · obtain ⟨h, t, rfl⟩ : ∃ h t, nbsp = h :: t := List.exists_cons_of_ne_nil hne
      have e : noDoubleBlank (c :: markRun (h :: t) true (d :: r)) =
          (!(isBlank c && isBlank h) &&
            noDoubleBlank ((h :: t) ++ markRun (h :: t) false r)) := rfl
      have hh1 : isBlank h = false := hh
      rw [e, hh1, noDoubleBlank_append _ _ hnd (ih.1 _ hl)]; simp

/-- C15 (amended): whenever the scan of `CreateHtmlSubtitle` stands, at the
head of its loop, in front of a run of spaces and tabs and the byte stored last
is not a blank, the turns over the run store the first blank unchanged,
the marker for the second, the third unchanged, the marker for the fourth, and
so on: the test is on the byte stored last, which after a marker is the last
byte of the marker.  This holds for every marker of one to nine bytes that
does not end in a blank.  If the marker does not start with a blank either and
holds no blank behind a blank, then no blank that is stored for the run stands
behind a blank, and the output holds no blank behind a blank if it held none
before. -/
theorem CreateHtmlSubtitle_blank_run (nbsp s run rest : Text) (k : Nat) (st : HState)
    (hn : nbsp.length ≤ 9) (hne : nbsp ≠ []) (hl : isBlank (nbsp.getLastD 0) = false)
    (hrun : ∀ c ∈ run, isBlank c = true)
    (hk : (htmlInit s >>= htmlIter nbsp k) = .ok (some st)) (hs : st.sub = run ++ rest)
    (hp : isBlank (st.html.getLastD 0) = false) :
    ∃ st1, (htmlInit s >>= htmlIter nbsp (k + run.length)) = .ok (some st1) ∧
      st1.sub = rest ∧ st1.html = st.html ++ markRun nbsp false run ∧
      st1.stack = st.stack ∧
      (isBlank (nbsp.headD 0) = false → noDoubleBlank nbsp = true →
        noDoubleBlank (st.html.getLastD 0 :: st1.html.drop st.html.length) = true ∧
        (noDoubleBlank st.html = true → noDoubleBlank st1.html = true)) := by
  rw [htmlInit_ok] at hk
  obtain ⟨hi, -⟩ := htmlIter_inv k hk (htmlInit_inv s)
  obtain ⟨st1, h1, h2, h3, h4, -⟩ := scan_blanks hn hne hl run rest st hrun hs hi
  rw [hp] at h3
  refine ⟨st1, ?_, h2, h3, h4, fun hh hnd => ?_⟩
  · rw [htmlInit_ok]
    exact htmlIter_trans k hk h1
  · have hm := (noDoubleBlank_markRun hne hh hl hnd run).1 _ hp
    rw [h3, List.drop_left]
    exact ⟨hm, fun h0 => noDoubleBlank_append _ _ h0 hm⟩

/-- C15 (amended) at `a   b`, in the state behind the `a`: the three blanks
are stored as a blank, the marker and a blank. -/
theorem CreateHtmlSubtitle_blank_run_witness :
    ∃ st1, (htmlInit (B "a   b") >>= htmlIter nbsp160 (1 + (B "   ").length)) = .ok (some st1) ∧
      st1.sub = B "b" ∧ st1.html = B "<text>a" ++ B " &#160; " ∧ st1.stack = [] ∧
      noDoubleBlank (97 :: st1.html.drop (B "<text>a").length) = true ∧
      noDoubleBlank st1.html = true :=
  have ⟨st1, h1, h2, h3, h4, h5⟩ :=
    CreateHtmlSubtitle_blank_run nbsp160 (B "a   b") (B "   ") (B "b") 1
      ⟨B "   b", B "<text>a", 105, []⟩ (by decide) (by decide) (by decide) (by decide)
      (by decide) (by decide) (by decide)
  ⟨st1, h1, h2, h3, h4, (h5 (by decide) (by decide)).1,
    (h5 (by decide) (by decide)).2 (by decide)⟩

/-- The marker must not start with a blank for this: with the marker ` x`,
two blanks are stored as a blank and the marker, a blank behind a blank. -/
theorem blank_run_marker_starting_blank :
    CreateHtmlSubtitle (B " x") (B "a  b") = .ok (some (B "<text>a  xb</text>")) := by
  decide

/-! ## CreateHtmlSubtitle: the bounds of the buffer and of the tag stack -/

set_option maxRecDepth 100000 in
/-- C19 (the code at the failing input): on 26 line feeds in front of
`<font size="1">x</font>` the buffer has 149 bytes.  Each line feed stores five
bytes for one, and after the 26th the write cursor is at 136, which is not
above 149 - 10, so the buffer is not enlarged.  The turn for the font tag
stores `<font ` up to 142 and then copies the eight bytes of `size="1"`, the
last of them to index 149, behind the buffer. -/
theorem CreateHtmlSubtitle_buffer_overrun :
    (htmlInit (List.replicate 26 10 ++ B "<font size=\"1\">x</font>") >>=
        htmlIter nbsp160 26) =
        .ok (some ⟨B "<font size=\"1\">x</font>",
          B "<text>" ++ (List.replicate 26 (B "<br/>")).flatten, 149, []⟩) ∧
      htmlBody nbsp160 ⟨B "<font size=\"1\">x</font>",
          B "<text>" ++ (List.replicate 26 (B "<br/>")).flatten, 149, []⟩ = .error .writeOOB ∧
      CreateHtmlSubtitle nbsp160 (List.replicate 26 10 ++ B "<font size=\"1\">x</font>") =
        .error .writeOOB := by
  decide

set_option maxRecDepth 100000 in
/-- C20 (the code at the failing input): on a hundred `<b>` the first 99
pushes fill the array of 100 bytes, terminator included, and the push of the
hundredth tag finds 99 characters on the stack: its character takes the last
byte and the terminator is stored behind the array. -/
theorem CreateHtmlSubtitle_stack_overrun :
    (htmlInit (List.replicate 100 (B "<b>")).flatten >>= htmlIter nbsp160 99) =
        .ok (some ⟨B "<b>", B "<text>" ++ (List.replicate 99 (B "<b>")).flatten, 400,
          List.replicate 99 98⟩) ∧
      htmlBody nbsp160 ⟨B "<b>", B "<text>" ++ (List.replicate 99 (B "<b>")).flatten, 400,
          List.replicate 99 98⟩ = .error .stackOOB ∧
      CreateHtmlSubtitle nbsp160 (List.replicate 100 (B "<b>")).flatten = .error .stackOOB := by
  decide

/-! ## CreateHtmlSubtitle: the font tag -/

theorem psz_attribs_eq : psz_attribs = fontNames.map (fun en => en ++ [61, 34]) := by decide

theorem strncasecmp_cons (x y : Nat) (p q : Text) (n : Nat) :
    strncasecmp (x :: p) (y :: q) (n + 1) =
      if tolower x ≠ tolower y then false else if x = 0 then true else strncasecmp p q n := rfl

/-- An entry of the table matches exactly the attributes with its name. -/
theorem attr_match (en : Text) (hen : ∀ c ∈ en, c ≠ 0 ∧ tolower c = c ∧ c ≠ 61 ∧ c ≠ 34) :
    ∀ (name rest : Text), 34 ∉ name →
      (strncasecmp (name ++ 61 :: 34 :: rest) (en ++ [61, 34]) (en.length + 2) = true ↔
        name.map tolower = en) := by
  have e61 : ∀ c, tolower c = 61 ↔ c = 61 := fun c => tolower_eq_fixed (by omega)
  have e34 : ∀ c, tolower c = 34 ↔ c = 34 := fun c => tolower_eq_fixed (by omega)
  induction en with
  | nil =>
    intro name rest h34
    cases name with
    | nil => simp [strncasecmp, peek, tolower]
    | cons x n =>
      simp only [List.mem_cons, not_or] at h34
      cases n with
      | nil =>
        by_cases hx : x = 61
        · subst hx; simp [strncasecmp, peek, tolower]
        · have : tolower x ≠ 61 := fun h => hx ((e61 x).mp h)
          have t61 : tolower 61 = 61 := by decide
          simp [strncasecmp, peek, this, t61]
      | cons y n =>
        simp only [List.mem_cons, not_or] at h34
        have hy : tolower y ≠ 34 := fun h => h34.2.1 ((e34 y).mp h).symm
        have t61 : tolower 61 = 61 := by decide
        have t34 : tolower 34 = 34 := by decide
        by_cases hx : x = 61
        · subst hx; simp [strncasecmp, peek, t61, t34, hy]
        · have : tolower x ≠ 61 := fun h => hx ((e61 x).mp h)
          simp [strncasecmp, peek, this, t61]
  | cons e en ih =>
    intro name rest h34
    obtain ⟨e0, el, e61n, e34n⟩ := hen e (List.mem_cons_self _ _)
    have ih2 := ih (fun c hc => hen c (List.mem_cons_of_mem _ hc))
    cases name with
    | nil =>
      have t61 : tolower 61 = 61 := by decide
      have : ¬ (61 = e) := fun h => e61n h.symm
      simp [strncasecmp, peek, t61, el, this]
    | cons x n =>
      simp only [List.mem_cons, not_or] at h34
      by_cases hx : tolower x = e
      · have hx0 : x ≠ 0 := fun h => e0 (by rw [← hx, h]; rfl)
        have := ih2 n rest h34.2
        rw [List.cons_append, List.cons_append, List.length_cons,
          show en.length + 1 + 2 = (en.length + 2) + 1 by omega, strncasecmp_cons, el, hx]
        simp only [ne_eq, not_true_eq_false, if_false, hx0, List.map_cons, List.cons.injEq,
          hx, true_and]
        exact this
      · simp [strncasecmp, peek, el, hx]

theorem findAttrib_names (name rest : Text) (h34 : 34 ∉ name) : ∀ (names : List Text),
    (∀ en ∈ names, ∀ c ∈ en, c ≠ 0 ∧ tolower c = c ∧ c ≠ 61 ∧ c ≠ 34) →
    findAttrib (name ++ 61 :: 34 :: rest) (names.map (fun en => en ++ [61, 34])) =
      if name.map tolower ∈ names then some (name.map tolower ++ [61, 34]) else none := by
  intro names
  induction names with
  | nil => intro _; simp [findAttrib]
  | cons en names ih =>
    intro h
    have hm := attr_match en (h en (List.mem_cons_self _ _)) name rest h34
    have ih2 := ih (fun e he => h e (List.mem_cons_of_mem _ he))
    simp only [List.map_cons, findAttrib, List.length_append, List.length_cons, List.length_nil]
    by_cases he : name.map tolower = en
    · rw [if_pos (hm.mpr he), if_pos (by rw [he]; exact List.mem_cons_self _ _), he]
    · have hf : ¬ strncasecmp (name ++ 61 :: 34 :: rest) (en ++ [61, 34]) (en.length + (0 + 1 + 1))
          = true := fun hh => he (hm.mp hh)
      rw [if_neg hf, ih2]
      simp [he]

theorem fontNames_ok : ∀ en ∈ fontNames, ∀ c ∈ en, c ≠ 0 ∧ tolower c = c ∧ c ≠ 61 ∧ c ≠ 34 := by
  decide

/-- The search of the table on an attribute of the form `name="value"`: it
finds an entry exactly when the name, in lower case, is in the table. -/
theorem findAttrib_attr (name rest : Text) (h34 : 34 ∉ name) :
    findAttrib (name ++ 61 :: 34 :: rest) psz_attribs =
      if name.map tolower ∈ fontNames then some (name.map tolower ++ [61, 34]) else none := by
  rw [psz_attribs_eq]
  exact findAttrib_names name rest h34 fontNames fontNames_ok

theorem strncpy_prefix (w rest : Text) (hw : IsText w) : strncpy (w ++ rest) w.length = w := by
  have h : ((w ++ rest).takeWhile (fun c => c ≠ 0)).take w.length = w := by
    induction w with
    | nil => simp
    | cons c w ih =>
      rw [isText_cons] at hw
      simpa [List.takeWhile, hw.1] using ih hw.2
  simp only [strncpy, h]
  simp

theorem fontAttr_listed (st : HState) (name value rest : Text) (hname : IsText name)
    (h34 : 34 ∉ name) (hv : IsText value) (hv34 : 34 ∉ value)
    (hl : name.map tolower ∈ fontNames)
    (hs : st.sub = name ++ 61 :: 34 :: (value ++ 34 :: rest))
    (hfit : st.html.length + (name.length + value.length + 3) ≤ st.size) :
    fontAttr st =
      .ok { st with sub := rest, html := st.html ++ (name ++ 61 :: 34 :: (value ++ [34])) } := by
  obtain ⟨sub, html, size, stack⟩ := st
  simp only at hs hfit ⊢
  subst hs
  have hfind := findAttrib_attr name (value ++ 34 :: rest) h34
  rw [if_pos hl] at hfind
  have hlen : (name.map tolower ++ [61, 34]).length = name.length + 2 := by simp
  have hsplit : name ++ 61 :: 34 :: (value ++ 34 :: rest) =
      (name ++ [61, 34]) ++ (value ++ 34 :: rest) := by simp
  have hadv : adv (name.length + 2) (name ++ 61 :: 34 :: (value ++ 34 :: rest)) =
      .ok (value ++ 34 :: rest) := by
    rw [adv_ok (by simp), hsplit]
    exact congrArg Except.ok (List.drop_left' (by simp))
  have hspn := strcspn_append 34 rest hv hv34
  have hw : IsText (name ++ 61 :: 34 :: (value ++ [34])) := by
    rw [isText_append, isText_cons, isText_cons, isText_append]
    exact ⟨hname, by omega, by omega, hv, by simp [IsText]⟩
  have hwl : (name ++ 61 :: 34 :: (value ++ [34])).length =
      name.length + 2 + value.length + 1 := by simp; omega
  have hsplit2 : name ++ 61 :: 34 :: (value ++ 34 :: rest) =
      (name ++ 61 :: 34 :: (value ++ [34])) ++ rest := by simp
  have hcopy : strncpy (name ++ 61 :: 34 :: (value ++ 34 :: rest))
      (name.length + 2 + value.length + 1) = name ++ 61 :: 34 :: (value ++ [34]) := by
    rw [hsplit2, ← hwl]
    exact strncpy_prefix _ rest hw
  have hadv2 : adv (name.length + 2 + value.length + 1)
      (name ++ 61 :: 34 :: (value ++ 34 :: rest)) = .ok rest := by
    rw [adv_ok (by simp; omega), hsplit2, ← hwl]
    exact congrArg Except.ok (List.drop_left' rfl)
  have hfit2 : html.length + (name.length + 2 + value.length + 1) ≤ size := by omega
  simp only [fontAttr, hfind, hlen, hadv, hspn, copy, hfit2, hcopy, skip, hadv2, if_true,
    bind, Except.bind, pure, Except.pure]

theorem fontAttr_unlisted (st : HState) (name value rest : Text) (hname : IsText name)
    (h34 : 34 ∉ name) (hv : IsText value) (hv34 : 34 ∉ value)
    (hl : name.map tolower ∉ fontNames)
    (hs : st.sub = name ++ 61 :: 34 :: (value ++ 34 :: rest)) :
    fontAttr st = .ok { st with sub := rest } := by
  obtain ⟨sub, html, size, stack⟩ := st
  simp only at hs ⊢
  subst hs
  have hfind := findAttrib_attr name (value ++ 34 :: rest) h34
  rw [if_neg hl] at hfind
  have hsplit : name ++ 61 :: 34 :: (value ++ 34 :: rest) =
      (name ++ [61, 34]) ++ (value ++ 34 :: rest) := by simp
  have hspn0 : strcspn (name ++ 61 :: 34 :: (value ++ 34 :: rest)) 34 = name.length + 1 := by
    have h := strcspn_append (t := name ++ [61]) 34 (value ++ 34 :: rest)
      (isText_append.mpr ⟨hname, by simp [IsText]⟩) (by simp [h34])
    simpa using h
  have hadv : adv (name.length + 1 + 1) (name ++ 61 :: 34 :: (value ++ 34 :: rest)) =
      .ok (value ++ 34 :: rest) := by
    rw [adv_ok (by simp; omega), hsplit]
    exact congrArg Except.ok (List.drop_left' (by simp))
  have hspn := strcspn_append 34 rest hv hv34
  have hsplit2 : name ++ 61 :: 34 :: (value ++ 34 :: rest) =
      (name ++ 61 :: 34 :: (value ++ [34])) ++ rest := by simp
  have hadv2 : adv (name.length + 1 + 1 + value.length + 1)
      (name ++ 61 :: 34 :: (value ++ 34 :: rest)) = .ok rest := by
    rw [adv_ok (by simp; omega), hsplit2]
    exact congrArg Except.ok (List.drop_left' (by simp; omega))
  simp only [fontAttr, hfind, hspn0, hadv, hspn, skip, hadv2, bind, Except.bind, pure,
    Except.pure]

theorem copyBlanks_run (size : Nat) (rest : Text) (hr : rest.headD 0 ≠ 32) :
    ∀ (k : Nat) (html : Text), html.length + k ≤ size →
      copyBlanks size (List.replicate k 32 ++ rest) html =
        .ok (rest, html ++ List.replicate k 32) := by
  intro k
  induction k with
  | zero =>
    intro html _
    cases rest with
    | nil => simp [copyBlanks]
    | cons c r =>
      have : c ≠ 32 := by simpa using hr
      simp [copyBlanks, this]
  | succ k ih =>
    intro html hfit
    have hlt : html.length < size := by omega
    rw [List.replicate_succ, List.cons_append, copyBlanks, if_pos rfl, if_pos hlt,
      ih (html ++ [32]) (by simp; omega)]
    simp

theorem attrsIn_head (as : List Attribute) (rest : Text) (h : ∀ a ∈ as, AttrOk a) :
    (attrsIn as ++ 62 :: rest).headD 0 ≠ 32 := by
  cases as with
  | nil => simp [attrsIn]
  | cons a r =>
    obtain ⟨-, -, -, h32, -, -⟩ := h a (List.mem_cons_self _ _)
    cases hn : a.name with
    | nil => simp [attrsIn, hn]
    | cons c n =>
      rw [hn] at h32
      simpa [attrsIn, hn] using h32

theorem attrsIn_length (as : List Attribute) : as.length ≤ (attrsIn as).length := by
  induction as with
  | nil => simp
  | cons a r ih => simp [attrsIn]; omega

/-- The loop over the attributes of a font tag, with room for what it
stores: the attributes with a name of the table are copied as they stand, the
others are jumped over, and the spaces behind each of them are copied. -/
theorem fontLoop_attrs : ∀ (as : List Attribute) (rest : Text) (st : HState) (f : Nat),
    (∀ a ∈ as, AttrOk a) → st.sub = attrsIn as ++ 62 :: rest →
    st.html.length + (attrsOut as).length ≤ st.size → as.length < f →
    fontLoop f st = .ok { st with sub := 62 :: rest, html := st.html ++ attrsOut as } := by
  intro as
  induction as with
  | nil =>
    intro rest st f _ hs _ hf
    obtain ⟨f, rfl⟩ : ∃ g, f = g + 1 := ⟨f - 1, by simp at hf; omega⟩
    obtain ⟨sub, html, size, stack⟩ := st
    simp only [attrsIn, List.nil_append] at hs
    subst hs
    simp [fontLoop, peek, attrsOut]
  | cons a as ih =>
    intro rest st f hok hs hfit hf
    obtain ⟨f, rfl⟩ : ∃ g, f = g + 1 := ⟨f - 1, by simp at hf; omega⟩
    obtain ⟨hname, h34, h62, h32, hv, hv34⟩ := hok a (List.mem_cons_self _ _)
    have hok2 : ∀ x ∈ as, AttrOk x := fun x hx => hok x (List.mem_cons_of_mem _ hx)
    have hpk : peek st.sub ≠ 62 := by
      rw [hs]
      cases hn : a.name with
      | nil => simp [attrsIn, hn, peek]
      | cons c n =>
        rw [hn] at h62
        simpa [attrsIn, hn, peek] using h62
    have hs1 : st.sub = a.name ++ 61 :: 34 :: (a.value ++ 34 ::
        (List.replicate a.blanks 32 ++ (attrsIn as ++ 62 :: rest))) := by
      rw [hs]; simp [attrsIn]
    have hhead := attrsIn_head as rest hok2
    simp only [attrsOut, List.length_append, List.length_replicate] at hfit
    rw [fontLoop, if_neg hpk]
    by_cases hl : a.name.map tolower ∈ fontNames
    · rw [if_pos hl] at hfit
      simp only [List.length_append, List.length_cons, List.length_nil] at hfit
      rw [fontAttr_listed st a.name a.value _ hname h34 hv hv34 hl hs1 (by omega)]
      simp only [bind, Except.bind]
      rw [copyBlanks_run _ _ hhead a.blanks _ (by simp; omega)]
      simp only
      rw [ih rest _ f hok2 rfl (by simp; omega) (by simp at hf; omega)]
      simp [attrsOut, hl]
    · rw [if_neg hl] at hfit
      simp only [List.length_nil] at hfit
      rw [fontAttr_unlisted st a.name a.value _ hname h34 hv hv34 hl hs1]
      simp only [bind, Except.bind]
      rw [copyBlanks_run _ _ hhead a.blanks _ (by omega)]
      simp only
      rw [ih rest _ f hok2 rfl (by simp; omega) (by simp at hf; omega)]
      simp [attrsOut, hl]

/-- The turn of the loop for a font tag in any letter case, closed by a right
angle bracket, with attributes of the form `name="value"`, when there is room
in the buffer for what the turn stores and on the tag stack for one entry:
`<font ` is stored, then the attributes with a name of the table as they
stand, with the spaces behind every attribute, then the bracket; the names and
values of the other attributes are dropped, and one `f` is pushed. -/
theorem htmlBody_font (nbsp : Text) (st : HState) (F rest : Text) (as : List Attribute)
    (hF : F.map tolower = B "<font ") (hok : ∀ a ∈ as, AttrOk a)
    (hs : st.sub = F ++ (attrsIn as ++ 62 :: rest))
    (hroom : st.html.length + 6 + (attrsOut as).length + 1 ≤ st.size)
    (hstk : st.stack.length ≤ 98) :
    htmlBody nbsp st = .ok (some { st with
      sub := rest, html := st.html ++ B "<font " ++ attrsOut as ++ [62],
      stack := st.stack ++ [102] }) := by
  obtain ⟨sub, html, size, stack⟩ := st
  simp only at hs hroom hstk ⊢
  subst hs
  have e60 : ∀ c, tolower c = 60 ↔ c = 60 := fun c => tolower_eq_fixed (by omega)
  have e32 : ∀ c, tolower c = 32 ↔ c = 32 := fun c => tolower_eq_fixed (by omega)
  rw [B_font] at hF
  rcases F with _ | ⟨e0, _ | ⟨e1, _ | ⟨e2, _ | ⟨e3, _ | ⟨e4, _ | ⟨e5, _ | ⟨e6, r⟩⟩⟩⟩⟩⟩⟩ <;>
    simp [e60, e32] at hF
  obtain ⟨rfl, h1, h2, h3, h4, rfl⟩ := hF
  have a1 := tolower_ne 0 h1 (by decide)
  have hbr : strncasecmp (60 :: e1 :: e2 :: e3 :: e4 :: 32 :: (attrsIn as ++ 62 :: rest))
      (B "<br/>") 5 = false := by
    rw [← Bool.not_eq_true, br_match]; simp [h1]
  have hb : strncasecmp (60 :: e1 :: e2 :: e3 :: e4 :: 32 :: (attrsIn as ++ 62 :: rest))
      (B "<b>") 3 = false := by
    rw [← Bool.not_eq_true, B_b]
    intro h
    have := (strncasecmp_iff [60, 98, 62] (by decide) _).mp h
    simp [h1] at this
  have hi : strncasecmp (60 :: e1 :: e2 :: e3 :: e4 :: 32 :: (attrsIn as ++ 62 :: rest))
      (B "<i>") 3 = false := by
    rw [← Bool.not_eq_true, B_i]
    intro h
    have := (strncasecmp_iff [60, 105, 62] (by decide) _).mp h
    simp [h1] at this
  have hu : strncasecmp (60 :: e1 :: e2 :: e3 :: e4 :: 32 :: (attrsIn as ++ 62 :: rest))
      (B "<u>") 3 = false := by
    rw [← Bool.not_eq_true, B_u]
    intro h
    have := (strncasecmp_iff [60, 117, 62] (by decide) _).mp h
    simp [h1] at this
  have hf : strncasecmp (60 :: e1 :: e2 :: e3 :: e4 :: 32 :: (attrsIn as ++ 62 :: rest))
      (B "<font ") 6 = true := by
    have := strncasecmp_iff [60, 102, 111, 110, 116, 32] (by decide)
      (60 :: e1 :: e2 :: e3 :: e4 :: 32 :: (attrsIn as ++ 62 :: rest))
    rw [B_font]
    exact this.mpr (by simp [h1, h2, h3, h4]; decide)
  have hloop := fontLoop_attrs as rest
    ⟨attrsIn as ++ 62 :: rest, html ++ B "<font ", size, stack ++ [102]⟩
    ((attrsIn as ++ 62 :: rest).length + 1) hok rfl
    (by rw [B_font]; simp only [List.length_append, List.length_cons, List.length_nil]; omega)
    (by have := attrsIn_length as; simp only [List.length_append]; omega)
  simp only [List.length_append, List.length_cons] at hloop
  have hBl : (B "<font ").length = 6 := by decide
  have hput : html.length + (6 + (attrsOut as).length) < size := by omega
  have hfit6 : html.length + 6 + 1 ≤ size := by omega
  simp [htmlBody, peek, tagBranch, hbr, hb, hi, hu, hf, emit, hfit6, push, hstk, skip, adv,
    hloop, put, hBl, hput, bind, Except.bind, pure, Except.pure]

set_option maxRecDepth 100000 in
/-- C14 (the code at the failing input): behind 26 line feeds the font tag
`<font color="red">` is closed and has one attribute of the table, and the turn
for it does not store what the claim says: `<font ` goes to the bytes 136 to
141 of a buffer of 152 bytes, and the copy of the eleven bytes of
`color="red"` ends at 153, behind the buffer.  Behind 99 open tags the push of
the font entry runs over the tag stack.  On the text of the claim,
`<font color="red">x</font>`, the result is the one of the claim. -/
theorem font_tag_without_room :
    (htmlInit (List.replicate 26 10 ++ B "<font color=\"red\">x</font>") >>=
        htmlIter nbsp160 26) =
        .ok (some ⟨B "<font color=\"red\">x</font>",
          B "<text>" ++ (List.replicate 26 (B "<br/>")).flatten, 152, []⟩) ∧
      htmlBody nbsp160 ⟨B "<font color=\"red\">x</font>",
          B "<text>" ++ (List.replicate 26 (B "<br/>")).flatten, 152, []⟩ = .error .writeOOB ∧
      CreateHtmlSubtitle nbsp160 (List.replicate 26 10 ++ B "<font color=\"red\">x</font>") =
        .error .writeOOB ∧
      CreateHtmlSubtitle nbsp160
          ((List.replicate 99 (B "<b>")).flatten ++ B "<font color=\"red\">x</font>") =
        .error .stackOOB ∧
      CreateHtmlSubtitle nbsp160 (B "<font color=\"red\">x</font>") =
        .ok (some (B "<text><font color=\"red\">x</font></text>")) := by
  decide

/-! ## CreateHtmlSubtitle: two runs that differ in the size of the buffer -/

theorem Agree.ok {α : Type} {R : α → α → Prop} {a b : α} (h : R a b) :
    Agree R (.ok a : Except Fault α) (.ok b) := Or.inr (Or.inr h)

theorem Agree.chain {α β : Type} {R : α → α → Prop} {S : β → β → Prop}
    {x y : Except Fault α} {f g : α → Except Fault β} (h : Agree R x y)
    (hf : ∀ a b, x = .ok a → y = .ok b → R a b → Agree S (f a) (g b)) :
    Agree S (x >>= f) (y >>= g) := by
  rcases h with rfl | rfl | h
  · exact Or.inl rfl
  · exact Or.inr (Or.inl rfl)
  · cases x with
    | error e =>
      cases y with
      | error e1 =>
        simp only at h
        subst h
        exact Or.inr (Or.inr rfl)
      | ok b => exact absurd h (by simp)
    | ok a =>
      cases y with
      | error e1 => exact absurd h (by simp)
      | ok b => exact hf a b rfl rfl h

theorem Agree.self {α : Type} {R : α → α → Prop} (hR : ∀ a, R a a) (x : Except Fault α) :
    Agree R x x := by
  cases x with
  | error e => exact Or.inr (Or.inr rfl)
  | ok a => exact Or.inr (Or.inr (hR a))

theorem emit_agree {st st1 : HState} (lit : Text) (h : Resized st st1) :
    Agree Resized (emit st lit) (emit st1 lit) := by
  obtain ⟨sub, html, size, stack⟩ := st
  obtain ⟨sub1, html1, size1, stack1⟩ := st1
  obtain ⟨rfl, rfl, rfl⟩ := h
  unfold emit
  by_cases h1 : html1.length + lit.length + 1 ≤ size <;>
    by_cases h2 : html1.length + lit.length + 1 ≤ size1 <;>
    simp [Agree, Resized, h1, h2]

theorem copy_agree {st st1 : HState} (p : Text) (n : Nat) (h : Resized st st1) :
    Agree Resized (copy st p n) (copy st1 p n) := by
  obtain ⟨sub, html, size, stack⟩ := st
  obtain ⟨sub1, html1, size1, stack1⟩ := st1
  obtain ⟨rfl, rfl, rfl⟩ := h
  unfold copy
  by_cases h1 : html1.length + n ≤ size <;> by_cases h2 : html1.length + n ≤ size1 <;>
    simp [Agree, Resized, h1, h2]

theorem push_agree {st st1 : HState} (c : Nat) (h : Resized st st1) :
    Agree Resized (push st c) (push st1 c) := by
  obtain ⟨sub, html, size, stack⟩ := st
  obtain ⟨sub1, html1, size1, stack1⟩ := st1
  obtain ⟨rfl, rfl, rfl⟩ := h
  unfold push
  by_cases h1 : stack1.length + 2 ≤ 100 <;> simp [Agree, Resized, h1]

theorem skip_agree {st st1 : HState} (n : Nat) (h : Resized st st1) :
    Agree Resized (skip n st) (skip n st1) := by
  obtain ⟨sub, html, size, stack⟩ := st
  obtain ⟨sub1, html1, size1, stack1⟩ := st1
  obtain ⟨rfl, rfl, rfl⟩ := h
  unfold skip adv
  by_cases h1 : n ≤ sub1.length <;>
    simp [Agree, Resized, h1, bind, Except.bind, pure, Except.pure]

theorem put_agree (cap cap1 : Nat) (out : Text) (c : Nat) :
    Agree (fun a b => a = b) (put cap out c) (put cap1 out c) := by
  unfold put
  by_cases h1 : out.length < cap <;> by_cases h2 : out.length < cap1 <;>
    simp [Agree, h1, h2]

theorem copyBlanks_agree (size size1 : Nat) : ∀ (sub html : Text),
    Agree (fun a b => a = b) (copyBlanks size sub html) (copyBlanks size1 sub html) := by
  intro sub
  induction sub with
  | nil => intro html; exact Agree.ok rfl
  | cons c r ih =>
    intro html
    simp only [copyBlanks]
    by_cases hc : c = 32
    · by_cases h1 : html.length < size <;> by_cases h2 : html.length < size1
      · simp only [hc, if_true, h1, h2]; exact ih _
      · simp [Agree, hc, h1, h2]
      · simp [Agree, hc, h1, h2]
      · simp [Agree, hc, h1, h2]
    · simp only [hc, if_false]; exact Agree.ok rfl

theorem fontAttr_agree {st st1 : HState} (h : Resized st st1) :
    Agree Resized (fontAttr st) (fontAttr st1) := by
  have hs : st1.sub = st.sub := h.1
  unfold fontAttr
  rw [hs]
  cases findAttrib st.sub psz_attribs with
  | some a =>
    simp only
    refine Agree.chain (Agree.self (R := fun x y => x = y) (fun _ => rfl) _)
      (fun r r1 _ _ hr => ?_)
    subst hr
    exact Agree.chain (copy_agree _ _ h) (fun a b _ _ hab => skip_agree _ hab)
  | none =>
    simp only
    refine Agree.chain (Agree.self (R := fun x y => x = y) (fun _ => rfl) _)
      (fun r r1 _ _ hr => ?_)
    subst hr
    exact skip_agree _ h

theorem fontLoop_agree : ∀ (f : Nat) {st st1 : HState}, Resized st st1 →
    Agree Resized (fontLoop f st) (fontLoop f st1) := by
  intro f
  induction f with
  | zero => intro st st1 _; exact Or.inr (Or.inr rfl)
  | succ f ih =>
    intro st st1 h
    have hs : st1.sub = st.sub := h.1
    simp only [fontLoop]
    rw [hs]
    by_cases h62 : peek st.sub = 62
    · simp only [h62, if_true]; exact Agree.ok h
    · simp only [h62, if_false]
      refine Agree.chain (fontAttr_agree h) (fun a b _ _ hab => ?_)
      obtain ⟨e1, e2, e3⟩ := hab
      rw [e1, e2]
      refine Agree.chain (copyBlanks_agree a.size b.size a.sub a.html) (fun p q _ _ hpq => ?_)
      subst hpq
      exact ih ⟨rfl, rfl, e3⟩

theorem closeTag_agree {st st1 : HState} (h : Resized st st1) :
    Agree ResizedOpt (closeTag st) (closeTag st1) := by
  obtain ⟨sub, html, size, stack⟩ := st
  obtain ⟨sub1, html1, size1, stack1⟩ := st1
  obtain ⟨rfl, rfl, rfl⟩ := h
  have hm : closeMatch ⟨sub1, html1, size1, stack1⟩ = closeMatch ⟨sub1, html1, size, stack1⟩ :=
    rfl
  unfold closeTag
  rw [hm]
  by_cases hb : (closeMatch ⟨sub1, html1, size, stack1⟩).1 = false
  · simp only [hb, if_true]; exact Agree.ok trivial
  · simp only [hb, if_false]
    refine Agree.chain (copy_agree _ _ ⟨rfl, rfl, rfl⟩) (fun a b _ _ hab => ?_)
    exact Agree.chain (skip_agree _ hab) (fun a b _ _ hab => Agree.ok hab)

theorem tagBranch_agree {st st1 : HState} (h : Resized st st1) :
    Agree ResizedOpt (tagBranch st) (tagBranch st1) := by
  have hs : st1.sub = st.sub := h.1
  unfold tagBranch
  rw [hs]
  split
  · refine Agree.chain (emit_agree _ h) (fun a b _ _ hab => ?_)
    exact Agree.chain (skip_agree _ hab) (fun a b _ _ hab => Agree.ok hab)
  split
  · refine Agree.chain (emit_agree _ h) (fun a b _ _ hab => ?_)
    refine Agree.chain (push_agree _ hab) (fun a b _ _ hab => ?_)
    exact Agree.chain (skip_agree _ hab) (fun a b _ _ hab => Agree.ok hab)
  split
  · refine Agree.chain (emit_agree _ h) (fun a b _ _ hab => ?_)
    refine Agree.chain (push_agree _ hab) (fun a b _ _ hab => ?_)
    exact Agree.chain (skip_agree _ hab) (fun a b _ _ hab => Agree.ok hab)
  split
  · refine Agree.chain (emit_agree _ h) (fun a b _ _ hab => ?_)
    refine Agree.chain (push_agree _ hab) (fun a b _ _ hab => ?_)
    exact Agree.chain (skip_agree _ hab) (fun a b _ _ hab => Agree.ok hab)
  split
  · refine Agree.chain (emit_agree _ h) (fun a b _ _ hab => ?_)
    refine Agree.chain (push_agree _ hab) (fun a b _ _ hab => ?_)
    refine Agree.chain (skip_agree _ hab) (fun a b _ _ hab => ?_)
    rw [hab.1]
    refine Agree.chain (fontLoop_agree _ hab) (fun a b _ _ hab => ?_)
    obtain ⟨e1, e2, e3⟩ := hab
    rw [e1, e2]
    refine Agree.chain (put_agree a.size b.size a.html (peek a.sub)) (fun p q _ _ hpq => ?_)
    subst hpq
    exact Agree.chain (skip_agree 1 ⟨rfl, rfl, e3⟩) (fun a b _ _ hab => Agree.ok hab)
  split
  · exact closeTag_agree h
  · exact Agree.chain (skip_agree _ h) (fun a b _ _ hab => Agree.ok hab)

theorem ampBranch_agree {st st1 : HState} (h : Resized st st1) :
    Agree Resized (ampBranch st) (ampBranch st1) := by
  have hs : st1.sub = st.sub := h.1
  unfold ampBranch
  rw [hs]
  split
  · exact Agree.chain (emit_agree _ h) (fun a b _ _ hab => skip_agree _ hab)
  split
  · exact Agree.chain (emit_agree _ h) (fun a b _ _ hab => skip_agree _ hab)
  split
  · exact Agree.chain (emit_agree _ h) (fun a b _ _ hab => skip_agree _ hab)
  · exact Agree.chain (emit_agree _ h) (fun a b _ _ hab => skip_agree _ hab)

theorem plainChar_agree (nbsp : Text) {st st1 : HState} (h : Resized st st1) :
    Agree Resized (plainChar nbsp st) (plainChar nbsp st1) := by
  obtain ⟨e1, e2, e3⟩ := h
  unfold plainChar
  rw [e1, e2]
  by_cases h1 : st.size ≤ st.html.length
  · left; simp [h1]
  by_cases h2 : st1.size ≤ st.html.length
  · right; left; simp [h2]
  simp only [h1, h2, if_false]
  split
  · exact Agree.chain (emit_agree _ ⟨e1, e2, e3⟩) (fun a b _ _ hab => skip_agree _ hab)
  · exact skip_agree 1 ⟨rfl, rfl, e3⟩

/-- One turn of the loop from two states that differ at most in the size of
the buffer: unless one of the two writes behind its buffer, the turns end
alike. -/
theorem htmlBody_agree (nbsp : Text) {st st1 : HState} (h : Resized st st1) :
    Agree ResizedOpt (htmlBody nbsp st) (htmlBody nbsp st1) := by
  have hs : st1.sub = st.sub := h.1
  unfold htmlBody
  rw [hs]
  split
  · refine Agree.chain (emit_agree _ h) (fun a b _ _ hab => ?_)
    exact Agree.chain (skip_agree _ hab) (fun a b _ _ hab => Agree.ok hab)
  split
  · exact tagBranch_agree h
  split
  · exact Agree.chain (ampBranch_agree h) (fun a b _ _ hab => Agree.ok hab)
  · exact Agree.chain (plainChar_agree nbsp h) (fun a b _ _ hab => Agree.ok hab)

theorem grow_resized {st st1 : HState} (h : Resized st st1) : Resized (grow st) (grow st1) := by
  obtain ⟨e1, e2, e3⟩ := h
  exact ⟨by rw [grow_sub, grow_sub, e1], by rw [grow_html, grow_html, e2],
    by rw [grow_stack, grow_stack, e3]⟩

theorem htmlLoop_agree (nbsp : Text) : ∀ (f : Nat) {st st1 : HState}, Resized st st1 →
    Agree ResizedOpt (htmlLoop nbsp f st) (htmlLoop nbsp f st1) := by
  intro f
  induction f with
  | zero => intro st st1 _; exact Or.inr (Or.inr rfl)
  | succ f ih =>
    intro st st1 h
    have hs : st1.sub = st.sub := h.1
    simp only [htmlLoop]
    rw [hs]
    by_cases h0 : peek st.sub = 0
    · simp only [h0, if_true]; exact Agree.ok h
    · simp only [h0, if_false]
      refine Agree.chain (htmlBody_agree nbsp h) (fun a b _ _ hab => ?_)
      cases a with
      | none =>
        cases b with
        | none => exact Agree.ok trivial
        | some b => exact absurd hab (by simp [ResizedOpt])
      | some a =>
        cases b with
        | none => exact absurd hab (by simp [ResizedOpt])
        | some b => exact ih (grow_resized hab)

/-- The step bound of the loop does not matter once it is above the length of
the text. -/
theorem htmlLoop_fuel (nbsp : Text) : ∀ (f g : Nat) (st : HState), st.sub.length < f →
    st.sub.length < g → htmlLoop nbsp f st = htmlLoop nbsp g st := by
  intro f
  induction f with
  | zero => intro g st h _; omega
  | succ f ih =>
    intro g st hf hg
    obtain ⟨g, rfl⟩ : ∃ k, g = k + 1 := ⟨g - 1, by omega⟩
    simp only [htmlLoop]
    by_cases h0 : peek st.sub = 0
    · simp [h0]
    · simp only [h0, if_false]
      cases hb : htmlBody nbsp st with
      | error e => rfl
      | ok r =>
        cases r with
        | none => rfl
        | some st1 =>
          obtain ⟨-, hlt⟩ := htmlBody_follows hb
          exact ih g (grow st1) (by rw [grow_sub]; omega) (by rw [grow_sub]; omega)

/-- One turn of the loop in front of the same character, other than a left
angle bracket and an ampersand, from two states with the same output and tag
stack. -/
theorem plain_step_agree (nbsp : Text) (c : Nat) (r r1 html : Text) (size size1 : Nat)
    (stack : Text) (h60 : c ≠ 60) (h38 : c ≠ 38) :
    Agree (Tails r r1) (htmlBody nbsp ⟨c :: r, html, size, stack⟩)
      (htmlBody nbsp ⟨c :: r1, html, size1, stack⟩) := by
  unfold htmlBody
  simp only [peek, List.headD_cons]
  by_cases h10 : c = 10
  · simp only [h10, if_true]
    by_cases f1 : html.length + (B "<br/>").length + 1 ≤ size <;>
      by_cases f2 : html.length + (B "<br/>").length + 1 ≤ size1 <;>
      simp [Agree, Tails, emit, skip, adv, f1, f2, bind, Except.bind, pure, Except.pure]
  · simp only [h10, h60, h38, if_false]
    unfold plainChar
    simp only [peek, List.headD_cons]
    by_cases h1 : size ≤ html.length
    · left; simp [h1, bind, Except.bind]
    by_cases h2 : size1 ≤ html.length
    · right; left; simp [h2, bind, Except.bind]
    simp only [if_neg h1, if_neg h2]
    by_cases hd : html ≠ [] ∧ isBlank c = true ∧ isBlank (html.getLastD 0) = true
    · rw [if_pos hd, if_pos hd]
      by_cases f1 : html.length + nbsp.length + 1 ≤ size <;>
        by_cases f2 : html.length + nbsp.length + 1 ≤ size1 <;>
        simp [Agree, Tails, emit, skip, adv, f1, f2, bind, Except.bind, pure, Except.pure]
    · rw [if_neg hd, if_neg hd]
      simp [Agree, Tails, skip, adv, bind, Except.bind, pure, Except.pure]

theorem br_spelling {T : Text} (hT : T.map tolower = B "<br/>") :
    T.length = 5 ∧ ∀ b : Text, peek (T ++ b) = 60 := by
  have e60 : ∀ c, tolower c = 60 ↔ c = 60 := fun c => tolower_eq_fixed (by omega)
  constructor
  · have := congrArg List.length hT
    simpa [B_br] using this
  · intro b
    rw [B_br] at hT
    cases T with
    | nil => simp at hT
    | cons t r =>
      simp only [List.map_cons, List.cons.injEq, e60] at hT
      simp [peek, hT.1]

/-- The loop over a text `a` without a left angle bracket and an ampersand
and then over a line break, which is a line feed in the one run and a spelling
of `<br/>` in the other. -/
theorem newline_br_loop (nbsp T b : Text) (hT : T.map tolower = B "<br/>") :
    ∀ (a : Text), IsText a → 60 ∉ a → 38 ∉ a →
      ∀ (html : Text) (size size1 : Nat) (stack : Text) (f f1 : Nat),
      (a ++ 10 :: b).length < f → (a ++ (T ++ b)).length < f1 →
      Agree ResizedOpt (htmlLoop nbsp f ⟨a ++ 10 :: b, html, size, stack⟩)
        (htmlLoop nbsp f1 ⟨a ++ (T ++ b), html, size1, stack⟩) := by
  obtain ⟨hlen, hpk⟩ := br_spelling hT
  intro a
  induction a with
  | nil =>
    intro _ _ _ html size size1 stack f f1 hf hf1
    obtain ⟨g, rfl⟩ : ∃ k, f = k + 1 := ⟨f - 1, by omega⟩
    obtain ⟨g1, rfl⟩ : ∃ k, f1 = k + 1 := ⟨f1 - 1, by omega⟩
    simp only [List.nil_append, List.length_cons, List.length_append] at hf hf1
    have hbr := (htmlBody_newline_br nbsp ⟨[], html, size1, stack⟩ T b hT).1
    simp only at hbr
    have p1 : peek (10 :: b) ≠ 0 := by simp [peek]
    have p2 : peek (T ++ b) ≠ 0 := by rw [hpk b]; omega
    simp only [List.nil_append, htmlLoop, if_neg p1, if_neg p2]
    rw [hbr]
    refine Agree.chain
      (@htmlBody_agree nbsp ⟨10 :: b, html, size, stack⟩ ⟨10 :: b, html, size1, stack⟩
        ⟨rfl, rfl, rfl⟩)
      (fun x y hx hy hxy => ?_)
    cases x with
    | none =>
      cases y with
      | none => exact Agree.ok trivial
      | some y => exact absurd hxy (by simp [ResizedOpt])
    | some x =>
      cases y with
      | none => exact absurd hxy (by simp [ResizedOpt])
      | some y =>
        obtain ⟨-, lx⟩ := htmlBody_follows hx
        obtain ⟨-, ly⟩ := htmlBody_follows hy
        simp only [List.length_cons] at lx ly
        show Agree ResizedOpt (htmlLoop nbsp g (grow x)) (htmlLoop nbsp g1 (grow y))
        rw [htmlLoop_fuel nbsp g (g + g1) (grow x) (by rw [grow_sub]; omega)
            (by rw [grow_sub]; omega),
          htmlLoop_fuel nbsp g1 (g + g1) (grow y) (by rw [grow_sub]; omega)
            (by rw [grow_sub]; omega)]
        exact htmlLoop_agree nbsp _ (grow_resized hxy)
  | cons c a ih =>
    intro ha h60 h38 html size size1 stack f f1 hf hf1
    obtain ⟨g, rfl⟩ : ∃ k, f = k + 1 := ⟨f - 1, by omega⟩
    obtain ⟨g1, rfl⟩ : ∃ k, f1 = k + 1 := ⟨f1 - 1, by omega⟩
    rw [isText_cons] at ha
    simp only [List.mem_cons, not_or] at h60 h38
    simp only [List.cons_append, List.length_cons] at hf hf1
    have p1 : peek (c :: (a ++ 10 :: b)) ≠ 0 := by simpa [peek] using ha.1
    have p2 : peek (c :: (a ++ (T ++ b))) ≠ 0 := by simpa [peek] using ha.1
    simp only [List.cons_append, htmlLoop, if_neg p1, if_neg p2]
    refine Agree.chain
      (plain_step_agree nbsp c (a ++ 10 :: b) (a ++ (T ++ b)) html size size1 stack
        (fun h => h60.1 h.symm) (fun h => h38.1 h.symm))
      (fun x y _ _ hxy => ?_)
    cases x with
    | none => exact absurd hxy (by simp [Tails])
    | some x =>
      cases y with
      | none => exact absurd hxy (by simp [Tails])
      | some y =>
        obtain ⟨e1, e2, e3, e4⟩ := hxy
        show Agree ResizedOpt (htmlLoop nbsp g (grow x)) (htmlLoop nbsp g1 (grow y))
        have gx : grow x = ⟨a ++ 10 :: b, x.html, (grow x).size, x.stack⟩ := by
          rw [← e1, ← grow_sub x, ← grow_html x, ← grow_stack x]
        have gy : grow y = ⟨a ++ (T ++ b), x.html, (grow y).size, x.stack⟩ := by
          rw [← e2, ← e3, ← e4, ← grow_sub y, ← grow_html y, ← grow_stack y]
        rw [gx, gy]
        exact ih ha.2 h60.2 h38.2 _ _ _ _ g g1 (by omega) (by omega)

/-- For every text `a` without NUL, left angle bracket and ampersand, every
spelling `T` of `<br/>` and every `b`: unless one of the two runs writes behind
its buffer, `CreateHtmlSubtitle` gives the same for `a`, line feed, `b` and for
`a`, `T`, `b`.  The two buffers differ by the four bytes that the tag is longer
than the line feed. -/
theorem newline_br_agree (nbsp a T b : Text) (ha : IsText a) (h60 : 60 ∉ a) (h38 : 38 ∉ a)
    (hT : T.map tolower = B "<br/>") :
    CreateHtmlSubtitle nbsp (a ++ B "\n" ++ b) = .error .writeOOB ∨
      CreateHtmlSubtitle nbsp (a ++ T ++ b) = .error .writeOOB ∨
      CreateHtmlSubtitle nbsp (a ++ B "\n" ++ b) = CreateHtmlSubtitle nbsp (a ++ T ++ b) := by
  have e1 : a ++ B "\n" ++ b = a ++ 10 :: b := by
    rw [show B "\n" = [10] by decide]; simp
  rw [e1, List.append_assoc]
  have key : Agree (fun x y => x = y) (CreateHtmlSubtitle nbsp (a ++ 10 :: b))
      (CreateHtmlSubtitle nbsp (a ++ (T ++ b))) := by
    unfold CreateHtmlSubtitle
    refine Agree.chain
      (R := fun st st1 => st = ⟨a ++ 10 :: b, B "<text>", strlen (a ++ 10 :: b) + 100, []⟩ ∧
        st1 = ⟨a ++ (T ++ b), B "<text>", strlen (a ++ (T ++ b)) + 100, []⟩)
      (by rw [htmlInit_ok, htmlInit_ok]; exact Agree.ok ⟨rfl, rfl⟩)
      (fun st st1 _ _ hst => ?_)
    obtain ⟨rfl, rfl⟩ := hst
    refine Agree.chain
      (newline_br_loop nbsp T b hT a ha h60 h38 _ _ _ _ _ _ (Nat.lt_succ_self _)
        (Nat.lt_succ_self _))
      (fun r r1 _ _ hr => ?_)
    cases r with
    | none =>
      cases r1 with
      | none => exact Or.inr (Or.inr rfl)
      | some y => exact absurd hr (by simp [ResizedOpt])
    | some x =>
      cases r1 with
      | none => exact absurd hr (by simp [ResizedOpt])
      | some y =>
        refine Agree.chain (emit_agree (B "</text>") hr) (fun u v _ _ huv => ?_)
        obtain ⟨-, h2, h3⟩ := huv
        rw [h2, h3]
        exact Agree.self (fun _ => rfl) _
  rcases key with h | h | h
  · exact Or.inl h
  · exact Or.inr (Or.inl h)
  · right; right
    cases hx : CreateHtmlSubtitle nbsp (a ++ 10 :: b) with
    | error e =>
      cases hy : CreateHtmlSubtitle nbsp (a ++ (T ++ b)) with
      | error e1 => rw [hx, hy] at h; simp only at h; rw [h]
      | ok v => rw [hx, hy] at h; exact absurd h (by simp)
    | ok u =>
      cases hy : CreateHtmlSubtitle nbsp (a ++ (T ++ b)) with
      | error e1 => rw [hx, hy] at h; exact absurd h (by simp)
      | ok v => rw [hx, hy] at h; simp only at h; rw [h]

/-! ## GotoNextLine: the claim -/

theorem GotoNextLine_run_spec : ∀ (f : Nat) (p : Text), p.length < f →
    ∃ run rest, p = run ++ rest ∧ GotoNextLine_run f p = .ok rest ∧
      (∀ c ∈ run, c = 10 ∨ c = 13) ∧ peek rest ≠ 10 ∧ peek rest ≠ 13 := by
  intro f
  induction f with
  | zero => intro p h; omega
  | succ f ih =>
    intro p hf
    cases p with
    | nil => exact ⟨[], [], rfl, by simp [GotoNextLine_run, peek, pure, Except.pure],
        by simp, by simp [peek], by simp [peek]⟩
    | cons c r =>
      by_cases hc : c = 10 ∨ c = 13
      · obtain ⟨run, rest, e, h, hr, h10, h13⟩ := ih r (by simp at hf; omega)
        refine ⟨c :: run, rest, by rw [e]; rfl, ?_, ?_, h10, h13⟩
        · simp only [GotoNextLine_run, peek, List.headD_cons, if_pos hc]
          simpa [adv, bind, Except.bind] using h
        · intro x hx
          rcases List.mem_cons.mp hx with rfl | hx
          · exact hc
          · exact hr x hx
      · refine ⟨[], c :: r, rfl, ?_, by simp, ?_, ?_⟩
        · simp [GotoNextLine_run, peek, hc, pure, Except.pure]
        · simp only [peek, List.headD_cons]; exact fun h => hc (Or.inl h)
        · simp only [peek, List.headD_cons]; exact fun h => hc (Or.inr h)

theorem GotoNextLine_loop_spec : ∀ (f : Nat) (p : Text), p.length < f →
    ∃ pre run rest, p = pre ++ run ++ rest ∧ GotoNextLine_loop f p = .ok rest ∧
      (∀ c ∈ pre, c ≠ 0 ∧ c ≠ 10 ∧ c ≠ 13) ∧ (∀ c ∈ run, c = 10 ∨ c = 13) ∧
      peek rest ≠ 10 ∧ peek rest ≠ 13 ∧ (run = [] → peek rest = 0) := by
  intro f
  induction f with
  | zero => intro p h; omega
  | succ f ih =>
    intro p hf
    cases p with
    | nil =>
      exact ⟨[], [], [], rfl, by simp [GotoNextLine_loop, peek, pure, Except.pure], by simp,
        by simp, by simp [peek], by simp [peek], fun _ => rfl⟩
    | cons c r =>
      have hr : r.length < f := by simp at hf; omega
      by_cases h0 : c = 0
      · refine ⟨[], [], c :: r, rfl, ?_, by simp, by simp, ?_, ?_, fun _ => ?_⟩
        · simp [GotoNextLine_loop, peek, h0, pure, Except.pure]
        · simp [peek, h0]
        · simp [peek, h0]
        · simp [peek, h0]
      by_cases hc : c = 10 ∨ c = 13
      · obtain ⟨run, rest, e, h, hrun, h10, h13⟩ := GotoNextLine_run_spec f r hr
        refine ⟨[], c :: run, rest, by rw [e]; rfl, ?_, by simp, ?_, h10, h13, by simp⟩
        · simp only [GotoNextLine_loop, peek, List.headD_cons, ne_eq, h0, not_false_eq_true,
            if_true, if_pos hc]
          simpa [adv, bind, Except.bind] using h
        · intro x hx
          rcases List.mem_cons.mp hx with rfl | hx
          · exact hc
          · exact hrun x hx
      · obtain ⟨pre, run, rest, e, h, hpre, hrun, h10, h13, hend⟩ := ih r hr
        refine ⟨c :: pre, run, rest, by rw [e]; rfl, ?_, ?_, hrun, h10, h13, hend⟩
        · simp only [GotoNextLine_loop, peek, List.headD_cons, ne_eq, h0, not_false_eq_true,
            if_true, if_neg hc]
          simpa [adv, bind, Except.bind] using h
        · intro x hx
          rcases List.mem_cons.mp hx with rfl | hx
          · exact ⟨h0, fun h => hc (Or.inl h), fun h => hc (Or.inr h)⟩
          · exact hpre x hx

/-- C24: for every text `GotoNextLine` returns, without leaving the text, the
position behind the first maximal run of line feeds and carriage returns: the
text splits into a part without NUL, line feed and carriage return, a run of
line feeds and carriage returns, and the text from the returned position on,
which starts with neither of the two; the run is empty only when the returned
position is at the end of the string.  So the returned text is a suffix of the
input, the position is an index between the start and the end, and for a text
without line feed and carriage return it is the end. -/
theorem GotoNextLine_next_line (s : Text) :
    ∃ pre run rest, s = pre ++ run ++ rest ∧ GotoNextLine s = .ok rest ∧
      (∀ c ∈ pre, c ≠ 0 ∧ c ≠ 10 ∧ c ≠ 13) ∧ (∀ c ∈ run, c = 10 ∨ c = 13) ∧
      peek rest ≠ 10 ∧ peek rest ≠ 13 ∧ (run = [] → peek rest = 0) ∧
      rest <:+ s ∧ pre.length + run.length ≤ s.length ∧
      rest = s.drop (pre.length + run.length) ∧
      (IsText s → 10 ∉ s → 13 ∉ s → rest = []) := by
  obtain ⟨pre, run, rest, e, h, hpre, hrun, h10, h13, hend⟩ :=
    GotoNextLine_loop_spec (s.length + 1) s (Nat.lt_succ_self _)
  refine ⟨pre, run, rest, e, h, hpre, hrun, h10, h13, hend, ⟨pre ++ run, e.symm⟩,
    by rw [e]; simp, by rw [e, ← List.length_append]; simp, fun ht n10 n13 => ?_⟩
  have hrun0 : run = [] := by
    cases run with
    | nil => rfl
    | cons c r =>
      have hc : c ∈ s := by rw [e]; simp
      rcases hrun c (List.mem_cons_self _ _) with rfl | rfl
      · exact absurd hc n10
      · exact absurd hc n13
  have hp := hend hrun0
  cases rest with
  | nil => rfl
  | cons c r =>
    have hc : c ∈ s := by rw [e]; simp
    exact absurd (by simpa [peek] using hp) (ht c hc)

/-- C24 at `ab`, carriage return, two line feeds, `cd`, line feed, `ef`: the
returned position is in front of `cd`; and at `abc`, where it is the end. -/
theorem GotoNextLine_next_line_witness :
    (∃ pre run rest, B "ab\r\n\ncd\nef" = pre ++ run ++ rest ∧
      GotoNextLine (B "ab\r\n\ncd\nef") = .ok rest ∧
      (∀ c ∈ pre, c ≠ 0 ∧ c ≠ 10 ∧ c ≠ 13) ∧ (∀ c ∈ run, c = 10 ∨ c = 13) ∧
      peek rest ≠ 10 ∧ peek rest ≠ 13 ∧ (run = [] → peek rest = 0) ∧
      rest <:+ B "ab\r\n\ncd\nef" ∧ pre.length + run.length ≤ (B "ab\r\n\ncd\nef").length ∧
      rest = (B "ab\r\n\ncd\nef").drop (pre.length + run.length) ∧
      (IsText (B "ab\r\n\ncd\nef") → 10 ∉ B "ab\r\n\ncd\nef" →
        13 ∉ B "ab\r\n\ncd\nef" → rest = [])) ∧
      GotoNextLine (B "ab\r\n\ncd\nef") = .ok (B "cd\nef") ∧
      GotoNextLine (B "abc") = .ok [] :=
  ⟨GotoNextLine_next_line (B "ab\r\n\ncd\nef"), by decide, by decide⟩

/-! ## ParseText: the autodetection flag -/

theorem ParseText_spu_sys {env : DecEnv} {ssa : Bool} {p_sys p_sys1 : decoder_sys_t}
    {p_block : block_t} {psz : Text} {r : Option subpicture_t}
    (h : ParseText_spu env ssa p_sys p_block psz = .ok (r, p_sys1)) : p_sys1 = p_sys := by
  unfold ParseText_spu at h
  split at h
  · cases h; rfl
  · split at h
    · cases h; rfl
    · split at h
      · obtain ⟨text, -, h⟩ := bind_ok h
        obtain ⟨html, -, h⟩ := bind_ok h
        cases h; rfl
      · cases h; rfl

/-- What one call of `ParseText` does to the decoder state. -/
theorem ParseText_sys {env : DecEnv} {ssa : Bool} {p_sys p_sys1 : decoder_sys_t}
    {p_block : block_t} {r : Option subpicture_t}
    (h : ParseText env ssa p_sys p_block = .ok (r, p_sys1)) :
    p_sys1.iconv_handle = p_sys.iconv_handle ∧
      (p_sys.b_autodetect_utf8 = false → p_sys1.b_autodetect_utf8 = false) ∧
      (p_sys.iconv_handle ≠ none → p_block.i_pts ≠ 0 → 1 ≤ p_block.p_buffer.length →
        env.IsUTF8 (strdup p_block.p_buffer) = false → p_sys1.b_autodetect_utf8 = false) := by
  unfold ParseText at h
  split at h
  · rename_i h0
    cases h
    exact ⟨rfl, fun h => h, fun _ hp _ _ => absurd h0 hp⟩
  split at h
  · rename_i h1
    cases h
    exact ⟨rfl, fun h => h, fun _ _ hl _ => absurd h1 (by omega)⟩
  split at h
  · rename_i hh
    have := ParseText_spu_sys h
    subst this
    exact ⟨rfl, fun h => h, fun hn _ _ _ => absurd hh hn⟩
  · rename_i handle hh
    split at h
    · split at h
      · cases h
        exact ⟨rfl, fun _ => rfl, fun _ _ _ _ => rfl⟩
      · have := ParseText_spu_sys h
        subst this
        exact ⟨rfl, fun _ => rfl, fun _ _ _ _ => rfl⟩
    · rename_i ha
      have := ParseText_spu_sys h
      subst this
      have ha2 : ParseText_autodetect env p_sys (strdup p_block.p_buffer) = true := by
        simpa using ha
      unfold ParseText_autodetect at ha2
      refine ⟨rfl, fun hf => ?_, fun _ _ _ hu => ?_⟩
      · rw [hf] at ha2; simp at ha2
      · rw [hu] at ha2; simp at ha2

theorem ParseText_seq_off {env : DecEnv} {ssa : Bool} : ∀ (blocks : List block_t)
    (p_sys p_sys1 : decoder_sys_t), p_sys.b_autodetect_utf8 = false →
    ParseText_seq env ssa p_sys blocks = .ok p_sys1 →
    p_sys1.b_autodetect_utf8 = false ∧ p_sys1.iconv_handle = p_sys.iconv_handle := by
  intro blocks
  induction blocks with
  | nil =>
    intro p_sys p_sys1 hf h
    cases h
    exact ⟨hf, rfl⟩
  | cons b r ih =>
    intro p_sys p_sys1 hf h
    simp only [ParseText_seq] at h
    obtain ⟨res, hres, h⟩ := bind_ok h
    obtain ⟨hh, hoff, -⟩ := @ParseText_sys env ssa p_sys res.2 b res.1 hres
    obtain ⟨h1, h2⟩ := ih res.2 p_sys1 (hoff hf) h
    exact ⟨h1, by rw [h2, hh]⟩

/-- C23: a call of `ParseText` leaves the converter handle as it is and never
sets a cleared autodetection flag.  A call with an open converter on a packet
with a timestamp and a payload whose text fails the validity check leaves the
flag cleared.  From a state with the flag cleared, the calls on every sequence
of packets leave it cleared and the converter open; and in such a state a call
with an open converter never takes the text as it is: it returns `NULL` for a
packet without timestamp or payload and for a failed conversion, and builds
the subpicture from what the converter has written otherwise. -/
theorem ParseText_autodetect_stays_off (env : DecEnv) (ssa : Bool) :
    (∀ (p_sys p_sys1 : decoder_sys_t) (p_block : block_t) (r : Option subpicture_t),
      ParseText env ssa p_sys p_block = .ok (r, p_sys1) →
      p_sys1.iconv_handle = p_sys.iconv_handle ∧
      (p_sys.b_autodetect_utf8 = false → p_sys1.b_autodetect_utf8 = false) ∧
      (p_sys.iconv_handle ≠ none → p_block.i_pts ≠ 0 → 1 ≤ p_block.p_buffer.length →
        env.IsUTF8 (strdup p_block.p_buffer) = false →
        p_sys1.b_autodetect_utf8 = false)) ∧
    (∀ (blocks : List block_t) (p_sys p_sys1 : decoder_sys_t),
      p_sys.b_autodetect_utf8 = false → ParseText_seq env ssa p_sys blocks = .ok p_sys1 →
      p_sys1.b_autodetect_utf8 = false ∧ p_sys1.iconv_handle = p_sys.iconv_handle) ∧
    (∀ (p_sys : decoder_sys_t) (p_block : block_t) (handle : Nat),
      p_sys.iconv_handle = some handle → p_sys.b_autodetect_utf8 = false →
      ParseText env ssa p_sys p_block =
        if p_block.i_pts = 0 ∨ p_block.p_buffer.length < 1 then .ok (none, p_sys)
        else if (env.vlc_iconv handle (strdup p_block.p_buffer)).1 = true ∨
            (env.vlc_iconv handle (strdup p_block.p_buffer)).2.1 ≠ 0 then .ok (none, p_sys)
        else ParseText_spu env ssa p_sys p_block
          (env.vlc_iconv handle (strdup p_block.p_buffer)).2.2) := by
  refine ⟨fun p_sys p_sys1 p_block r h => ParseText_sys h, ParseText_seq_off, ?_⟩
  intro p_sys p_block handle hh hf
  obtain ⟨a, b, c, d, e⟩ := p_sys
  simp only at hh hf
  subst hh hf
  have ha : ParseText_autodetect env ⟨some handle, false, c, d, e⟩ (strdup p_block.p_buffer) =
      false := by
    simp [ParseText_autodetect]
  unfold ParseText
  by_cases h0 : p_block.i_pts = 0
  · simp [h0, pure, Except.pure]
  by_cases h1 : p_block.p_buffer.length < 1
  · simp [h0, h1, pure, Except.pure]
  simp only [h0, h1, if_false, false_or, ha, if_true, pure, Except.pure]

/-- C23 for a decoder with an open converter and autodetection on, in an
environment whose validity check fails on a byte above 127: the packet `caf`,
`0xE9` clears the flag, and two more packets, one of them plain ASCII, leave
it cleared; the packet `abc` is then handed to the converter. -/
theorem ParseText_autodetect_stays_off_witness :
    ParseText envLatin false ⟨some 1, true, 0, -1, -1⟩ ⟨7, 5, B "caf" ++ [233]⟩ =
        .ok (some spuDemoLatin, ⟨some 1, false, 0, -1, -1⟩) ∧
      (⟨some 1, false, 0, -1, -1⟩ : decoder_sys_t).b_autodetect_utf8 = false ∧
      ((⟨some 1, false, 0, -1, -1⟩ : decoder_sys_t).b_autodetect_utf8 = false ∧
        (⟨some 1, false, 0, -1, -1⟩ : decoder_sys_t).iconv_handle = some 1) ∧
      ParseText envLatin false ⟨some 1, false, 0, -1, -1⟩ ⟨9, 0, B "abc"⟩ =
        ParseText_spu envLatin false ⟨some 1, false, 0, -1, -1⟩ ⟨9, 0, B "abc"⟩
          (envLatin.vlc_iconv 1 (strdup (B "abc"))).2.2 :=
  ⟨by decide,
    ((ParseText_autodetect_stays_off envLatin false).1 ⟨some 1, true, 0, -1, -1⟩
      ⟨some 1, false, 0, -1, -1⟩ ⟨7, 5, B "caf" ++ [233]⟩ (some spuDemoLatin) (by decide)).2.2
      (by decide) (by decide) (by decide) (by decide),
    (ParseText_autodetect_stays_off envLatin false).2.1
      [⟨8, 5, B "abc"⟩, ⟨9, 0, B "na" ++ [239] ++ B "ve"⟩] ⟨some 1, false, 0, -1, -1⟩
      ⟨some 1, false, 0, -1, -1⟩ rfl (by decide),
    ((ParseText_autodetect_stays_off envLatin false).2.2 ⟨some 1, false, 0, -1, -1⟩
      ⟨9, 0, B "abc"⟩ 1 rfl rfl).trans (by decide)⟩

/-! ## CreateHtmlSubtitle: tags in any letter case -/

theorem htmlLoop_step_ok {nbsp : Text} {f : Nat} {st st1 : HState}
    (h : htmlLoop nbsp f st = .ok (some st1)) (h0 : peek st.sub ≠ 0) :
    ∃ g st2, f = g + 1 ∧ htmlBody nbsp st = .ok (some st2) ∧
      htmlLoop nbsp g (grow st2) = .ok (some st1) := by
  cases f with
  | zero => cases h
  | succ g =>
    simp only [htmlLoop, if_neg h0] at h
    obtain ⟨r, hr, h⟩ := bind_ok h
    cases r with
    | none => cases h
    | some st2 => exact ⟨g, st2, rfl, hr, h⟩

theorem open_match (c : Nat) (r : Text) (u : Nat) (hu : u = 98 ∨ u = 105 ∨ u = 117) :
    strncasecmp (60 :: c :: 62 :: r) [60, u, 62] 3 = true ↔ tolower c = u := by
  have t60 : tolower 60 = 60 := by decide
  have t62 : tolower 62 = 62 := by decide
  have h := strncasecmp_iff [60, u, 62] (by rcases hu with rfl | rfl | rfl <;> decide)
    (60 :: c :: 62 :: r)
  simp only [List.length_cons, List.length_nil] at h
  rw [h]
  simp [t60, t62]

/-- The branch for one of the opening tags `<b>`, `<i>`, `<u>` in any letter
case: the tag is stored in lower case and its letter is pushed, unless the
tag stack is full. -/
theorem htmlBody_open_any (nbsp : Text) (st : HState) {c t : Nat} {r : Text}
    (ht : t = 98 ∨ t = 105 ∨ t = 117) (hc : tolower c = t) (hs : st.sub = 60 :: c :: 62 :: r)
    (hfit : st.html.length + 4 ≤ st.size) :
    htmlBody nbsp st =
      if st.stack.length + 2 ≤ 100 then
        .ok (some { st with sub := r, html := st.html ++ [60, t, 62], stack := st.stack ++ [t] })
      else .error .stackOOB := by
  obtain ⟨sub, html, size, stack⟩ := st
  simp only at hs hfit ⊢
  subst hs
  have hbr : strncasecmp (60 :: c :: 62 :: r) (B "<br/>") 5 = false := by
    rw [← Bool.not_eq_true, br_match]
    have t62 : tolower 62 = 62 := by decide
    simp [t62]
  have hb := open_match c r 98 (Or.inl rfl)
  have hi := open_match c r 105 (Or.inr (Or.inl rfl))
  have hu := open_match c r 117 (Or.inr (Or.inr rfl))
  have hfb : html.length + (B "<b>").length + 1 ≤ size := by
    rw [B_b]; simp only [List.length_cons, List.length_nil]; omega
  have hfi : html.length + (B "<i>").length + 1 ≤ size := by
    rw [B_i]; simp only [List.length_cons, List.length_nil]; omega
  have hfu : html.length + (B "<u>").length + 1 ≤ size := by
    rw [B_u]; simp only [List.length_cons, List.length_nil]; omega
  rcases ht with rfl | rfl | rfl
  · have hb1 : strncasecmp (60 :: c :: 62 :: r) (B "<b>") 3 = true := by
      rw [B_b]; exact hb.mpr hc
    rw [← B_b]
    by_cases hstk : stack.length + 2 ≤ 100 <;>
      simp [htmlBody, peek, tagBranch, hbr, hb1, emit, push, skip, adv, hfb, hstk, bind,
        Except.bind, pure, Except.pure]
  · have hb1 : strncasecmp (60 :: c :: 62 :: r) (B "<b>") 3 = false := by
      rw [← Bool.not_eq_true, B_b, hb, hc]; decide
    have hi1 : strncasecmp (60 :: c :: 62 :: r) (B "<i>") 3 = true := by
      rw [B_i]; exact hi.mpr hc
    rw [← B_i]
    by_cases hstk : stack.length + 2 ≤ 100 <;>
      simp [htmlBody, peek, tagBranch, hbr, hb1, hi1, emit, push, skip, adv, hfi, hstk,
        bind, Except.bind, pure, Except.pure]
  · have hb1 : strncasecmp (60 :: c :: 62 :: r) (B "<b>") 3 = false := by
      rw [← Bool.not_eq_true, B_b, hb, hc]; decide
    have hi1 : strncasecmp (60 :: c :: 62 :: r) (B "<i>") 3 = false := by
      rw [← Bool.not_eq_true, B_i, hi, hc]; decide
    have hu1 : strncasecmp (60 :: c :: 62 :: r) (B "<u>") 3 = true := by
      rw [B_u]; exact hu.mpr hc
    rw [← B_u]
    by_cases hstk : stack.length + 2 ≤ 100 <;>
      simp [htmlBody, peek, tagBranch, hbr, hb1, hi1, hu1, emit, push, skip, adv, hfu,
        hstk, bind, Except.bind, pure, Except.pure]

theorem close_match (c : Nat) (r : Text) (u : Nat) (hu : u = 98 ∨ u = 105 ∨ u = 117) :
    strncasecmp (60 :: 47 :: c :: 62 :: r) [60, 47, u, 62] 4 = true ↔ tolower c = u := by
  have t60 : tolower 60 = 60 := by decide
  have t47 : tolower 47 = 47 := by decide
  have t62 : tolower 62 = 62 := by decide
  have h := strncasecmp_iff [60, 47, u, 62] (by rcases hu with rfl | rfl | rfl <;> decide)
    (60 :: 47 :: c :: 62 :: r)
  simp only [List.length_cons, List.length_nil] at h
  rw [h]
  simp [t60, t47, t62]

/-- The innermost open tag that a closing tag `</b>`, `</i>`, `</u>` in any
letter case matches is the one of its name, and four bytes are copied. -/
theorem closeMatch_close {st : HState} {c t : Nat} {r : Text}
    (ht : t = 98 ∨ t = 105 ∨ t = 117) (hc : tolower c = t)
    (hs : st.sub = 60 :: 47 :: c :: 62 :: r) (hm : ¬ (closeMatch st).1 = false) :
    (closeMatch st).2 = 4 ∧ st.stack.getLast? = some t := by
  have hfont : strncasecmp (60 :: 47 :: c :: 62 :: r) (B "</font>") 7 = false := by
    rw [← Bool.not_eq_true, B_cfont]
    intro h
    have := (strncasecmp_iff [60, 47, 102, 111, 110, 116, 62] (by decide) _).mp h
    simp [hc] at this
    rcases ht with rfl | rfl | rfl <;> omega
  have hb := close_match c r 98 (Or.inl rfl)
  have hi := close_match c r 105 (Or.inr (Or.inl rfl))
  have hu := close_match c r 117 (Or.inr (Or.inr rfl))
  unfold closeMatch at hm ⊢
  rw [hs] at hm ⊢
  cases hl : st.stack.getLast? with
  | none => rw [hl] at hm; exact absurd rfl hm
  | some x =>
    rw [hl] at hm
    simp only at hm ⊢
    by_cases h98 : x = 98
    · subst h98
      simp only [if_true, B_cb] at hm ⊢
      have := hb.mp (by simpa using hm)
      exact ⟨trivial, by rw [← this, hc]⟩
    by_cases h105 : x = 105
    · subst h105
      simp only [h98, if_false, if_true, B_ci] at hm ⊢
      have := hi.mp (by simpa using hm)
      exact ⟨trivial, by rw [← this, hc]⟩
    by_cases h117 : x = 117
    · subst h117
      simp only [h98, h105, if_false, if_true, B_cu] at hm ⊢
      have := hu.mp (by simpa using hm)
      exact ⟨trivial, by rw [← this, hc]⟩
    by_cases h102 : x = 102
    · subst h102
      simp only [h98, h105, h117, if_false, if_true, hfont] at hm
      exact absurd trivial hm
    · simp only [h98, h105, h117, h102, if_false] at hm
      exact absurd trivial hm

/-- The branch for one of the closing tags `</b>`, `</i>`, `</u>` in any
letter case: when the turn does not give up, the innermost open tag was the
one of its name, and the closing tag has been stored as the input spells
it. -/
theorem htmlBody_close_any {nbsp : Text} {st st1 : HState} {c t : Nat} {r : Text}
    (ht : t = 98 ∨ t = 105 ∨ t = 117) (hc : tolower c = t)
    (hs : st.sub = 60 :: 47 :: c :: 62 :: r) (h : htmlBody nbsp st = .ok (some st1)) :
    st1 = { st with sub := r, html := st.html ++ [60, 47, c, 62],
                    stack := st.stack.dropLast } ∧
      st.stack.getLast? = some t := by
  have hsub : st.sub = B "</" ++ (c :: 62 :: r) := by rw [hs, B_close]; rfl
  obtain ⟨n1, n2, n3, n4, n5, hcl⟩ := close_not_open hsub
  have p10 : ¬ peek st.sub = 10 := by rw [hs]; simp [peek]
  have p60 : peek st.sub = 60 := by rw [hs]; simp [peek]
  unfold htmlBody at h
  rw [if_neg p10, if_pos p60] at h
  unfold tagBranch at h
  simp only [n1, n2, n3, n4, n5, hcl, if_true, Bool.false_eq_true, if_false] at h
  unfold closeTag at h
  split at h
  · cases h
  · rename_i hm
    obtain ⟨h4, hlast⟩ := closeMatch_close ht hc hs hm
    rw [h4] at h
    obtain ⟨st2, h2, h⟩ := bind_ok h
    obtain ⟨st3, h3, h⟩ := bind_ok h
    obtain ⟨e2, -⟩ := copy_ok h2
    obtain ⟨e3, -⟩ := skip_ok h3
    have c0 : c ≠ 0 := by
      rintro rfl
      rcases ht with rfl | rfl | rfl <;> simp [tolower] at hc
    have hcp : strncpy st.sub 4 = [60, 47, c, 62] := by
      rw [hs]
      exact strncpy_prefix [60, 47, c, 62] r (by simp [IsText, c0])
    have e1 : st1 = st3 := by
      simp only [pure, Except.pure, Except.ok.injEq, Option.some.injEq] at h
      exact h.symm
    refine ⟨?_, hlast⟩
    rw [e1, e3, e2, hcp]
    simp [hs]

/-- C21 (the code at the failing input): the opening tags are stored in
lower case and the closing tags as the input spells them, so for `<B>x</B>`
and `<FONT color="red">x</FONT>` the returned markup opens `b` and `font` and
closes `B` and `FONT`, which are other names in XML.  For tags in lower case
the names agree. -/
theorem closing_tag_keeps_input_case :
    CreateHtmlSubtitle nbsp160 (B "<B>x</B>") = .ok (some (B "<text><b>x</B></text>")) ∧
      CreateHtmlSubtitle nbsp160 (B "<FONT color=\"red\">x</FONT>") =
        .ok (some (B "<text><font color=\"red\">x</FONT></text>")) ∧
      CreateHtmlSubtitle nbsp160 (B "<b><I>x</i></B>") =
        .ok (some (B "<text><b><i>x</i></B></text>")) ∧
      (htmlInit (B "<B>x</B>") >>= htmlIter nbsp160 2) =
        .ok (some ⟨B "</B>", B "<text><b>x", 108, B "b"⟩) ∧
      htmlBody nbsp160 ⟨B "</B>", B "<text><b>x", 108, B "b"⟩ =
        .ok (some ⟨[], B "<text><b>x</B>", 108, []⟩) ∧
      CreateHtmlSubtitle nbsp160 (B "<b>x</b>") = .ok (some (B "<text><b>x</b></text>")) := by
  decide

/-! ## The markup and the plain text of a cue -/

theorem samePlain_nil : SamePlain [] [] := by
  refine ⟨isText_nil, [], by decide, fun t => ?_⟩
  rw [List.nil_append]
  cases strip t <;> simp [Functor.map, Except.map]

/-- A token of the input and the bytes stored for it give the same plain
text `o1`: so do the texts that they stand in front of. -/
theorem samePlain_cons {x x1 tok e1 o1 : Text} (htok : IsText tok)
    (hout : ∀ t, strip (tok ++ t) = (fun y => o1 ++ y) <$> strip t)
    (hin : strip x = (fun y => o1 ++ y) <$> strip x1) (h : SamePlain x1 e1) :
    SamePlain x (tok ++ e1) := by
  obtain ⟨h1, o, h2, h3⟩ := h
  refine ⟨isText_append.mpr ⟨htok, h1⟩, o1 ++ o, ?_, fun t => ?_⟩
  · rw [hin, h2]; rfl
  · rw [List.append_assoc, hout, h3]
    cases strip t <;> simp [Functor.map, Except.map]

/-- One turn of the scan over a token, followed by the scan over the rest. -/
theorem simple_step {nbsp x x1 tok o1 : Text} {st st1 st2 : HState} {g : Nat}
    (hb : htmlBody nbsp st = .ok (some st2)) (hi : Inv st) (hsub : st2.sub = x1)
    (hhtml : st2.html = st.html ++ tok) (htok : IsText tok)
    (hout : ∀ t, strip (tok ++ t) = (fun y => o1 ++ y) <$> strip t)
    (hin : strip x = (fun y => o1 ++ y) <$> strip x1)
    (hloop : htmlLoop nbsp g (grow st2) = .ok (some st1))
    (hnd : noDoubleBlank ((st.html ++ tok).getLastD 0 :: x1) = true)
    (ih : ∀ (st : HState) (f : Nat) (st1 : HState), st.sub = x1 → Inv st →
      noDoubleBlank (st.html.getLastD 0 :: x1) = true →
      htmlLoop nbsp f st = .ok (some st1) → ∃ e, st1.html = st.html ++ e ∧ SamePlain x1 e) :
    ∃ e, st1.html = st.html ++ e ∧ SamePlain x e := by
  obtain ⟨e1, h1, h2⟩ := ih (grow st2) g st1 (by rw [grow_sub, hsub]) (htmlBody_inv hb hi)
    (by rw [grow_html, hhtml]; exact hnd) hloop
  refine ⟨tok ++ e1, ?_, samePlain_cons htok hout hin h2⟩
  rw [h1, grow_html, hhtml, List.append_assoc]

theorem noDoubleBlank_after {prev last : Nat} {tok x1 : Text}
    (h : noDoubleBlank (prev :: (tok ++ x1)) = true) (hl : isBlank last = false) :
    noDoubleBlank (last :: x1) = true := by
  have := noDoubleBlank_drop (tok.length + 1) h
  exact noDoubleBlank_cons hl (by simpa using this)

theorem getLastD_append_cons (h a : Text) (c d : Nat) :
    (h ++ (a ++ [c])).getLastD d = c := by
  rw [← List.append_assoc, List.getLastD_concat]

/-- A spelling of a tag: its brackets are brackets, and what stands between
them has neither a NUL nor a right angle bracket. -/
theorem tag_spelling {T qq : Text} (h : T.map tolower = 60 :: (qq ++ [62]))
    (hq : ∀ c ∈ qq, c ≠ 0 ∧ c ≠ 62) :
    ∃ tt, T = 60 :: (tt ++ [62]) ∧ tt.map tolower = qq ∧ IsText tt ∧ 62 ∉ tt := by
  have e60 : ∀ c, tolower c = 60 ↔ c = 60 := fun c => tolower_eq_fixed (by omega)
  have e62 : ∀ c, tolower c = 62 ↔ c = 62 := fun c => tolower_eq_fixed (by omega)
  cases T with
  | nil => simp at h
  | cons c0 rest =>
    simp only [List.map_cons, List.cons.injEq, e60] at h
    obtain ⟨rfl, h⟩ := h
    obtain ⟨l1, l2, rfl, h1, h2⟩ := List.map_eq_append_iff.mp h
    cases l2 with
    | nil => simp at h2
    | cons c1 l3 =>
      simp only [List.map_cons, List.cons.injEq, e62, List.map_eq_nil_iff] at h2
      obtain ⟨rfl, rfl⟩ := h2
      refine ⟨l1, rfl, h1, fun c hc => ?_, fun hc => ?_⟩
      · have hm : tolower c ∈ qq := by rw [← h1]; exact List.mem_map_of_mem _ hc
        exact fun h0 => (hq _ hm).1 (by rw [h0]; rfl)
      · have hm : tolower 62 ∈ qq := by rw [← h1]; exact List.mem_map_of_mem _ hc
        exact (hq _ hm).2 (by decide)

/-- The pass of `StripTags` over one of the tags of `simpleTags` in any letter
case: a line feed for `<br/>`, nothing for the others. -/
theorem strip_simple_tag {T : Text} (hT : T.map tolower ∈ simpleTags) :
    IsText T ∧ T.getLastD 0 = 62 ∧
      ∀ t, strip (T ++ t) =
        (fun y => (if T.map tolower = B "<br/>" then [10] else []) ++ y) <$> strip t := by
  have key : ∀ qq : Text, T.map tolower = 60 :: (qq ++ [62]) → (∀ c ∈ qq, c ≠ 0 ∧ c ≠ 62) →
      IsText T ∧ T.getLastD 0 = 62 ∧
      ∀ t, strip (T ++ t) =
        (fun y => (if qq = [98, 114, 47] then [10] else []) ++ y) <$> strip t := by
    intro qq h hq
    obtain ⟨tt, rfl, h1, h2, h3⟩ := tag_spelling h hq
    refine ⟨?_, ?_, fun t => ?_⟩
    · rw [isText_cons, isText_append]
      exact ⟨by decide, h2, by decide⟩
    · rw [show (60 :: (tt ++ [62]) : Text) = [60] ++ (tt ++ [62]) from rfl]
      exact getLastD_append_cons _ _ _ _
    · rw [show 60 :: (tt ++ [62]) ++ t = 60 :: (tt ++ 62 :: t) by simp, strip_tag t h2 h3, h1]
  simp only [simpleTags, List.mem_cons, List.mem_singleton, List.not_mem_nil, or_false] at hT
  rcases hT with h | h | h | h | h | h | h
  · have := key [98, 114, 47] (by rw [h]; decide) (by decide)
    rw [h]; simpa using this
  · have := key [98] (by rw [h]; decide) (by decide)
    rw [h]; simpa [show ¬ B "<b>" = B "<br/>" by decide] using this
  · have := key [105] (by rw [h]; decide) (by decide)
    rw [h]; simpa [show ¬ B "<i>" = B "<br/>" by decide] using this
  · have := key [117] (by rw [h]; decide) (by decide)
    rw [h]; simpa [show ¬ B "<u>" = B "<br/>" by decide] using this
  · have := key [47, 98] (by rw [h]; decide) (by decide)
    rw [h]; simpa [show ¬ B "</b>" = B "<br/>" by decide] using this
  · have := key [47, 105] (by rw [h]; decide) (by decide)
    rw [h]; simpa [show ¬ B "</i>" = B "<br/>" by decide] using this
  · have := key [47, 117] (by rw [h]; decide) (by decide)
    rw [h]; simpa [show ¬ B "</u>" = B "<br/>" by decide] using this

theorem peek_spelling {E q : Text} (x : Text) (h : E.map tolower = q) (hq : ∀ c ∈ q, c ≠ 0)
    (hne : q ≠ []) : peek (E ++ x) ≠ 0 := by
  cases E with
  | nil => exact absurd h.symm (by simpa using hne)
  | cons c r =>
    have hm : tolower c ∈ q := by rw [← h]; simp
    have := hq _ hm
    simp only [List.cons_append, peek, List.headD_cons]
    exact fun h0 => this (by rw [h0]; rfl)

theorem with_sub_self {st : HState} {x : Text} (hs : st.sub = x) :
    ({ st with sub := x } : HState) = st := by
  cases st
  simp only at hs
  subst hs
  rfl

/-- The scan over a line break, spelled as a line feed or as `<br/>` in any
letter case, and then over the rest. -/
theorem simple_break {nbsp x T : Text} {st st1 : HState} {f : Nat}
    (hT : T = [10] ∨ T.map tolower = B "<br/>") (hs : st.sub = T ++ x) (hi : Inv st)
    (hnd : noDoubleBlank (st.html.getLastD 0 :: (T ++ x)) = true)
    (h : htmlLoop nbsp f st = .ok (some st1))
    (ih : ∀ (st : HState) (f : Nat) (st1 : HState), st.sub = x → Inv st →
      noDoubleBlank (st.html.getLastD 0 :: x) = true →
      htmlLoop nbsp f st = .ok (some st1) → ∃ e, st1.html = st.html ++ e ∧ SamePlain x e) :
    ∃ e, st1.html = st.html ++ e ∧ SamePlain (T ++ x) e := by
  have hp : peek st.sub ≠ 0 := by
    rw [hs]
    rcases hT with rfl | hT
    · simp [peek]
    · exact peek_spelling x hT (by decide) (by decide)
  obtain ⟨g, st2, rfl, hb, hloop⟩ := htmlLoop_step_ok h hp
  have hlf := (htmlBody_newline_br nbsp st (B "<br/>") x (by decide)).2 hi
  have hstep : htmlBody nbsp st =
      .ok (some { st with sub := x, html := st.html ++ B "<br/>" }) := by
    rcases hT with rfl | hT
    · have hs1 : st.sub = 10 :: x := hs
      rw [← hlf, with_sub_self hs1]
    · rw [← hlf, ← (htmlBody_newline_br nbsp st T x hT).1, with_sub_self hs]
  rw [hstep] at hb
  simp only [Except.ok.injEq, Option.some.injEq] at hb
  subst hb
  have hout := (strip_simple_tag (T := B "<br/>") (by decide)).2.2
  simp only [show (B "<br/>").map tolower = B "<br/>" by decide, if_true] at hout
  have hin : strip (T ++ x) = (fun y => [10] ++ y) <$> strip x := by
    rcases hT with rfl | hT
    · exact strip_cons_plain x (by decide) (by decide) (by decide)
    · have := (strip_simple_tag (T := T) (by rw [hT]; decide)).2.2 x
      rw [if_pos hT] at this
      exact this
  refine simple_step hstep hi rfl rfl (by decide) hout hin hloop ?_ ih
  rw [show B "<br/>" = [60, 98, 114, 47] ++ [62] by decide, getLastD_append_cons]
  exact noDoubleBlank_after hnd (by decide)

/-- The scan over an opening tag `<b>`, `<i>`, `<u>` in any letter case, and
then over the rest. -/
theorem simple_open {nbsp x : Text} {c t : Nat} {st st1 : HState} {f : Nat}
    (ht : t = 98 ∨ t = 105 ∨ t = 117) (hc : tolower c = t) (hs : st.sub = [60, c, 62] ++ x)
    (hi : Inv st) (hnd : noDoubleBlank (st.html.getLastD 0 :: ([60, c, 62] ++ x)) = true)
    (h : htmlLoop nbsp f st = .ok (some st1))
    (ih : ∀ (st : HState) (f : Nat) (st1 : HState), st.sub = x → Inv st →
      noDoubleBlank (st.html.getLastD 0 :: x) = true →
      htmlLoop nbsp f st = .ok (some st1) → ∃ e, st1.html = st.html ++ e ∧ SamePlain x e) :
    ∃ e, st1.html = st.html ++ e ∧ SamePlain ([60, c, 62] ++ x) e := by
  have hp : peek st.sub ≠ 0 := by rw [hs]; simp [peek]
  obtain ⟨g, st2, rfl, hb, hloop⟩ := htmlLoop_step_ok h hp
  have hs1 : st.sub = 60 :: c :: 62 :: x := hs
  have hopen := htmlBody_open_any nbsp st ht hc hs1 (by unfold Inv at hi; omega)
  by_cases hstk : st.stack.length + 2 ≤ 100
  · rw [if_pos hstk] at hopen
    have hb2 := hb
    rw [hopen] at hb2
    simp only [Except.ok.injEq, Option.some.injEq] at hb2
    subst hb2
    have hmem1 : ([60, c, 62] : Text).map tolower ∈ simpleTags := by
      have t60 : tolower 60 = 60 := by decide
      have t62 : tolower 62 = 62 := by decide
      simp only [List.map_cons, List.map_nil, hc, t60, t62]
      rcases ht with rfl | rfl | rfl <;> decide
    have hmem2 : ([60, t, 62] : Text).map tolower ∈ simpleTags := by
      rcases ht with rfl | rfl | rfl <;> decide
    have hnb1 : ¬ ([60, c, 62] : Text).map tolower = B "<br/>" := by
      intro h; have := congrArg List.length h; simp [B_br] at this
    have hnb2 : ¬ ([60, t, 62] : Text).map tolower = B "<br/>" := by
      intro h; have := congrArg List.length h; simp [B_br] at this
    have hout := (strip_simple_tag hmem2).2.2
    simp only [if_neg hnb2] at hout
    have hin := (strip_simple_tag hmem1).2.2 x
    simp only [if_neg hnb1] at hin
    refine simple_step hb hi rfl rfl (strip_simple_tag hmem2).1 hout hin hloop ?_ ih
    rw [show ([60, t, 62] : Text) = [60, t] ++ [62] from rfl, getLastD_append_cons]
    exact noDoubleBlank_after hnd (by decide)
  · rw [if_neg hstk] at hopen
    rw [hopen] at hb
    cases hb

/-- The scan over a closing tag `</b>`, `</i>`, `</u>` in any letter case,
and then over the rest. -/
theorem simple_close {nbsp x : Text} {c t : Nat} {st st1 : HState} {f : Nat}
    (ht : t = 98 ∨ t = 105 ∨ t = 117) (hc : tolower c = t)
    (hs : st.sub = [60, 47, c, 62] ++ x) (hi : Inv st)
    (hnd : noDoubleBlank (st.html.getLastD 0 :: ([60, 47, c, 62] ++ x)) = true)
    (h : htmlLoop nbsp f st = .ok (some st1))
    (ih : ∀ (st : HState) (f : Nat) (st1 : HState), st.sub = x → Inv st →
      noDoubleBlank (st.html.getLastD 0 :: x) = true →
      htmlLoop nbsp f st = .ok (some st1) → ∃ e, st1.html = st.html ++ e ∧ SamePlain x e) :
    ∃ e, st1.html = st.html ++ e ∧ SamePlain ([60, 47, c, 62] ++ x) e := by
  have hp : peek st.sub ≠ 0 := by rw [hs]; simp [peek]
  obtain ⟨g, st2, rfl, hb, hloop⟩ := htmlLoop_step_ok h hp
  have hs1 : st.sub = 60 :: 47 :: c :: 62 :: x := hs
  obtain ⟨e2, -⟩ := htmlBody_close_any ht hc hs1 hb
  have hmem : ([60, 47, c, 62] : Text).map tolower ∈ simpleTags := by
    have t60 : tolower 60 = 60 := by decide
    have t47 : tolower 47 = 47 := by decide
    have t62 : tolower 62 = 62 := by decide
    simp only [List.map_cons, List.map_nil, hc, t60, t47, t62]
    rcases ht with rfl | rfl | rfl <;> decide
  have hnb : ¬ ([60, 47, c, 62] : Text).map tolower = B "<br/>" := by
    intro h; have := congrArg List.length h; simp [B_br] at this
  have hout := (strip_simple_tag hmem).2.2
  simp only [if_neg hnb] at hout
  refine simple_step hb hi (by rw [e2]) (by rw [e2]) (strip_simple_tag hmem).1 hout (hout x)
    hloop ?_ ih
  rw [show ([60, 47, c, 62] : Text) = [60, 47, c] ++ [62] from rfl, getLastD_append_cons]
  exact noDoubleBlank_after hnd (by decide)

/-- The scan over an ordinary character other than a line feed, and then over
the rest. -/
theorem simple_char {nbsp x : Text} {c : Nat} {st st1 : HState} {f : Nat}
    (h0 : c ≠ 0) (h60 : c ≠ 60) (h38 : c ≠ 38) (h10 : c ≠ 10) (hs : st.sub = c :: x)
    (hi : Inv st) (hnd : noDoubleBlank (st.html.getLastD 0 :: c :: x) = true)
    (h : htmlLoop nbsp f st = .ok (some st1))
    (ih : ∀ (st : HState) (f : Nat) (st1 : HState), st.sub = x → Inv st →
      noDoubleBlank (st.html.getLastD 0 :: x) = true →
      htmlLoop nbsp f st = .ok (some st1) → ∃ e, st1.html = st.html ++ e ∧ SamePlain x e) :
    ∃ e, st1.html = st.html ++ e ∧ SamePlain (c :: x) e := by
  have hp : peek st.sub ≠ 0 := by rw [hs]; simpa [peek] using h0
  obtain ⟨g, st2, rfl, hb, hloop⟩ := htmlLoop_step_ok h hp
  have hd : ¬ (isBlank c = true ∧ isBlank (st.html.getLastD 0) = true) := by
    intro hh
    have e : noDoubleBlank (st.html.getLastD 0 :: c :: x) =
        (!(isBlank (st.html.getLastD 0) && isBlank c) && noDoubleBlank (c :: x)) := rfl
    rw [e, hh.1, hh.2] at hnd
    simp at hnd
  have hstep := htmlBody_char nbsp st hs h60 h38 h10 hd (by unfold Inv at hi; omega)
  have hb2 := hb
  rw [hstep] at hb2
  simp only [Except.ok.injEq, Option.some.injEq] at hb2
  subst hb2
  refine @simple_step nbsp _ _ [c] [c] _ _ _ _ hb hi rfl rfl (by simp [IsText, h0])
    (fun t => strip_cons_plain t h0 h60 h38) (strip_cons_plain x h0 h60 h38) hloop ?_ ih
  rw [List.getLastD_concat]
  exact noDoubleBlank_tail hnd

/-- The scan over one of the entities `&lt;`, `&gt;`, `&amp;` in any letter
case, and then over the rest. -/
theorem simple_entity {nbsp x E : Text} {st st1 : HState} {f : Nat}
    (hE : E.map tolower ∈ simpleEntities) (hs : st.sub = E ++ x) (hi : Inv st)
    (hnd : noDoubleBlank (st.html.getLastD 0 :: (E ++ x)) = true)
    (h : htmlLoop nbsp f st = .ok (some st1))
    (ih : ∀ (st : HState) (f : Nat) (st1 : HState), st.sub = x → Inv st →
      noDoubleBlank (st.html.getLastD 0 :: x) = true →
      htmlLoop nbsp f st = .ok (some st1) → ∃ e, st1.html = st.html ++ e ∧ SamePlain x e) :
    ∃ e, st1.html = st.html ++ e ∧ SamePlain (E ++ x) e := by
  simp only [simpleEntities, List.mem_cons, List.mem_singleton, List.not_mem_nil,
    or_false] at hE
  have hp : peek st.sub ≠ 0 := by
    rw [hs]
    rcases hE with hq | hq | hq
    · exact peek_spelling x hq (by decide) (by decide)
    · exact peek_spelling x hq (by decide) (by decide)
    · exact peek_spelling x hq (by decide) (by decide)
  obtain ⟨g, st2, rfl, hb, hloop⟩ := htmlLoop_step_ok h hp
  rcases hE with hq | hq | hq
  · have hstep := htmlBody_entity nbsp st E (B "&lt;") x (Or.inl rfl) hq hs hi
    have hb2 := hb
    rw [hstep] at hb2
    simp only [Except.ok.injEq, Option.some.injEq] at hb2
    subst hb2
    refine @simple_step nbsp _ _ _ [60] _ _ _ _ hb hi rfl rfl (by decide)
      (fun t => (strip_entity (B "&lt;") t).1 (by decide))
      ((strip_entity E x).1 (by rw [hq, B_lt])) hloop ?_ ih
    rw [show B "&lt;" = [38, 108, 116] ++ [59] by decide, getLastD_append_cons]
    exact noDoubleBlank_after hnd (by decide)
  · have hstep := htmlBody_entity nbsp st E (B "&gt;") x (Or.inr (Or.inl rfl)) hq hs hi
    have hb2 := hb
    rw [hstep] at hb2
    simp only [Except.ok.injEq, Option.some.injEq] at hb2
    subst hb2
    refine @simple_step nbsp _ _ _ [62] _ _ _ _ hb hi rfl rfl (by decide)
      (fun t => (strip_entity (B "&gt;") t).2.1 (by decide))
      ((strip_entity E x).2.1 (by rw [hq, B_gt])) hloop ?_ ih
    rw [show B "&gt;" = [38, 103, 116] ++ [59] by decide, getLastD_append_cons]
    exact noDoubleBlank_after hnd (by decide)
  · have hstep := htmlBody_entity nbsp st E (B "&amp;") x (Or.inr (Or.inr rfl)) hq hs hi
    have hb2 := hb
    rw [hstep] at hb2
    simp only [Except.ok.injEq, Option.some.injEq] at hb2
    subst hb2
    refine @simple_step nbsp _ _ _ [38] _ _ _ _ hb hi rfl rfl (by decide)
      (fun t => (strip_entity (B "&amp;") t).2.2.1 (by decide))
      ((strip_entity E x).2.2.1 (by rw [hq, B_amp])) hloop ?_ ih
    rw [show B "&amp;" = [38, 97, 109, 112] ++ [59] by decide, getLastD_append_cons]
    exact noDoubleBlank_after hnd (by decide)

/-- The scan over an ampersand that starts none of the four entities of
`StripTags`, and then over the rest. -/
theorem simple_amp {nbsp x : Text} {st st1 : HState} {f : Nat}
    (he : startsEntity (38 :: x) = false) (hs : st.sub = 38 :: x) (hi : Inv st)
    (hnd : noDoubleBlank (st.html.getLastD 0 :: 38 :: x) = true)
    (h : htmlLoop nbsp f st = .ok (some st1))
    (ih : ∀ (st : HState) (f : Nat) (st1 : HState), st.sub = x → Inv st →
      noDoubleBlank (st.html.getLastD 0 :: x) = true →
      htmlLoop nbsp f st = .ok (some st1) → ∃ e, st1.html = st.html ++ e ∧ SamePlain x e) :
    ∃ e, st1.html = st.html ++ e ∧ SamePlain (38 :: x) e := by
  have hp : peek st.sub ≠ 0 := by rw [hs]; simp [peek]
  obtain ⟨g, st2, rfl, hb, hloop⟩ := htmlLoop_step_ok h hp
  have he2 := he
  simp only [startsEntity, entities, List.any_cons, List.any_nil, Bool.or_false,
    Bool.or_eq_false_iff, beq_eq_false_iff_ne, ne_eq] at he2
  obtain ⟨h1, h2, h3, -⟩ := he2
  have hl : strncasecmp st.sub (B "&lt;") 4 = false := by
    rw [hs, ← Bool.not_eq_true, lt_match]; simpa [B_lt] using h1
  have hg : strncasecmp st.sub (B "&gt;") 4 = false := by
    rw [hs, ← Bool.not_eq_true, gt_match]; simpa [B_gt] using h2
  have ha : strncasecmp st.sub (B "&amp;") 5 = false := by
    rw [hs, ← Bool.not_eq_true, amp_match]; simpa [B_amp] using h3
  have hstep := htmlBody_amp_bare nbsp st x hs hl hg ha hi
  have hb2 := hb
  rw [hstep] at hb2
  simp only [Except.ok.injEq, Option.some.injEq] at hb2
  subst hb2
  refine @simple_step nbsp _ _ _ [38] _ _ _ _ hb hi rfl rfl (by decide)
    (fun t => (strip_entity (B "&amp;") t).2.2.1 (by decide)) (strip_amp_bare x he) hloop ?_ ih
  rw [show B "&amp;" = [38, 97, 109, 112] ++ [59] by decide, getLastD_append_cons]
  exact @noDoubleBlank_after _ _ [38] _ hnd (by decide)

/-- The scan of `CreateHtmlSubtitle` over a text of the grammar `Simple`
without a blank behind a blank: whenever the loop comes to its end, what it has
stored gives the plain text of the input. -/
theorem scan_simple (nbsp : Text) {x : Text} (hx : Simple x) :
    ∀ (st : HState) (f : Nat) (st1 : HState), st.sub = x → Inv st →
      noDoubleBlank (st.html.getLastD 0 :: x) = true →
      htmlLoop nbsp f st = .ok (some st1) → ∃ e, st1.html = st.html ++ e ∧ SamePlain x e := by
  induction hx with
  | nil =>
    intro st f st1 hs _ _ h
    cases f with
    | zero => cases h
    | succ g =>
      have hp : peek st.sub = 0 := by rw [hs]; rfl
      simp only [htmlLoop, if_pos hp, Except.ok.injEq, Option.some.injEq] at h
      subst h
      exact ⟨[], by simp, samePlain_nil⟩
  | char c x h0 h60 h38 _ ih =>
    intro st f st1 hs hi hnd h
    by_cases h10 : c = 10
    · subst h10
      exact simple_break (T := [10]) (Or.inl rfl) hs hi hnd h ih
    · exact simple_char h0 h60 h38 h10 hs hi hnd h ih
  | tag T x hT _ ih =>
    intro st f st1 hs hi hnd h
    have e60 : ∀ c, tolower c = 60 ↔ c = 60 := fun c => tolower_eq_fixed (by omega)
    have e47 : ∀ c, tolower c = 47 ↔ c = 47 := fun c => tolower_eq_fixed (by omega)
    have e62 : ∀ c, tolower c = 62 ↔ c = 62 := fun c => tolower_eq_fixed (by omega)
    simp only [simpleTags, List.mem_cons, List.mem_singleton, List.not_mem_nil, or_false] at hT
    rcases hT with hq | hq | hq | hq | hq | hq | hq
    · exact simple_break (Or.inr hq) hs hi hnd h ih
    · rw [B_b] at hq
      rcases T with _ | ⟨a, _ | ⟨c, _ | ⟨b, _ | ⟨d, r⟩⟩⟩⟩ <;> simp [e60, e62] at hq
      obtain ⟨rfl, hc, rfl⟩ := hq
      exact simple_open (Or.inl rfl) hc hs hi hnd h ih
    · rw [B_i] at hq
      rcases T with _ | ⟨a, _ | ⟨c, _ | ⟨b, _ | ⟨d, r⟩⟩⟩⟩ <;> simp [e60, e62] at hq
      obtain ⟨rfl, hc, rfl⟩ := hq
      exact simple_open (Or.inr (Or.inl rfl)) hc hs hi hnd h ih
    · rw [B_u] at hq
      rcases T with _ | ⟨a, _ | ⟨c, _ | ⟨b, _ | ⟨d, r⟩⟩⟩⟩ <;> simp [e60, e62] at hq
      obtain ⟨rfl, hc, rfl⟩ := hq
      exact simple_open (Or.inr (Or.inr rfl)) hc hs hi hnd h ih
    · rw [B_cb] at hq
      rcases T with _ | ⟨a, _ | ⟨k, _ | ⟨c, _ | ⟨b, _ | ⟨d, r⟩⟩⟩⟩⟩ <;>
        simp [e60, e47, e62] at hq
      obtain ⟨rfl, rfl, hc, rfl⟩ := hq
      exact simple_close (Or.inl rfl) hc hs hi hnd h ih
    · rw [B_ci] at hq
      rcases T with _ | ⟨a, _ | ⟨k, _ | ⟨c, _ | ⟨b, _ | ⟨d, r⟩⟩⟩⟩⟩ <;>
        simp [e60, e47, e62] at hq
      obtain ⟨rfl, rfl, hc, rfl⟩ := hq
      exact simple_close (Or.inr (Or.inl rfl)) hc hs hi hnd h ih
    · rw [B_cu] at hq
      rcases T with _ | ⟨a, _ | ⟨k, _ | ⟨c, _ | ⟨b, _ | ⟨d, r⟩⟩⟩⟩⟩ <;>
        simp [e60, e47, e62] at hq
      obtain ⟨rfl, rfl, hc, rfl⟩ := hq
      exact simple_close (Or.inr (Or.inr rfl)) hc hs hi hnd h ih
  | entity E x hE _ ih =>
    intro st f st1 hs hi hnd h
    exact simple_entity hE hs hi hnd h ih
  | amp x he _ ih =>
    intro st f st1 hs hi hnd h
    exact simple_amp he hs hi hnd h ih

theorem simple_isText {x : Text} (hx : Simple x) : IsText x := by
  induction hx with
  | nil => exact isText_nil
  | char c x h0 _ _ _ ih => exact isText_cons.mpr ⟨h0, ih⟩
  | tag T x hT _ ih => exact isText_append.mpr ⟨(strip_simple_tag hT).1, ih⟩
  | entity E x hE _ ih =>
    refine isText_append.mpr ⟨fun c hc => ?_, ih⟩
    simp only [simpleEntities, List.mem_cons, List.mem_singleton, List.not_mem_nil,
      or_false] at hE
    rcases hE with hq | hq | hq
    · exact (spelling_plain hq (by decide) c hc).1
    · exact (spelling_plain hq (by decide) c hc).1
    · exact (spelling_plain hq (by decide) c hc).1
  | amp x _ _ ih => exact isText_cons.mpr ⟨by decide, ih⟩

/-- C22: for every text `x` of the grammar `Simple` (characters other than
NUL, left angle bracket and ampersand, line feeds among them; the tags
`<br/>`, `<b>`, `<i>`, `<u>`, `</b>`, `</i>`, `</u>` and the entities `&lt;`,
`&gt;`, `&amp;` in any letter case; ampersands that start none of `&lt;`,
`&gt;`, `&amp;`, `&quot;` in any letter case) without a blank directly behind a
blank, and for every marker: if `CreateHtmlSubtitle` returns a value `m` for
`x`, then `StripTags` gives the same for `m` and for `x`, and it gives a
text. -/
theorem markup_and_plain_text_agree (nbsp x m : Text) (hx : Simple x)
    (hnd : noDoubleBlank x = true) (h : CreateHtmlSubtitle nbsp x = .ok (some m)) :
    StripTags m = StripTags x ∧ ∃ o, StripTags x = .ok o := by
  unfold CreateHtmlSubtitle at h
  obtain ⟨st0, h0, h⟩ := bind_ok h
  rw [htmlInit_ok] at h0
  cases h0
  obtain ⟨r, hr, h⟩ := bind_ok h
  cases r with
  | none => cases h
  | some st2 =>
    obtain ⟨st3, h3, h⟩ := bind_ok h
    obtain ⟨rfl, -⟩ := emit_ok h3
    have hm : m = st2.html ++ B "</text>" := by
      by_cases hs : st2.stack ≠ []
      · simp [hs, pure, Except.pure] at h
      · simp only [hs, if_false, pure, Except.pure, Except.ok.injEq, Option.some.injEq] at h
        exact h.symm
    obtain ⟨e, he, hte, o, ho, hstrip⟩ := scan_simple nbsp hx _ _ _ rfl (htmlInit_inv x)
      (show noDoubleBlank ((B "<text>").getLastD 0 :: x) = true from
        noDoubleBlank_cons (by decide) hnd) hr
    simp only at he
    have hmt : IsText m := by
      rw [hm, he]
      exact isText_append.mpr ⟨isText_append.mpr ⟨by decide, hte⟩, by decide⟩
    have e1 : m = 60 :: (B "text" ++ 62 :: (e ++ B "</text>")) := by
      rw [hm, he, show B "<text>" = 60 :: (B "text" ++ [62]) by decide]
      simp
    have hsx : StripTags x = .ok o := by rw [StripTags_eq_strip (simple_isText hx), ho]
    refine ⟨?_, o, hsx⟩
    rw [hsx, StripTags_eq_strip hmt, e1, strip_tag _ (by decide) (by decide),
      if_neg (by decide), hstrip, show strip (B "</text>") = .ok [] by decide]
    simp [Functor.map, Except.map]

/-- C22 at `<B>a&amp;b</B>`, for which `CreateHtmlSubtitle` returns
`<text><b>a&amp;b</B></text>`: the plain text of both is `a&b`. -/
theorem markup_and_plain_text_agree_witness :
    (StripTags (B "<text><b>a&amp;b</B></text>") = StripTags (B "<B>a&amp;b</B>") ∧
      ∃ o, StripTags (B "<B>a&amp;b</B>") = .ok o) ∧
      StripTags (B "<B>a&amp;b</B>") = .ok (B "a&b") :=
  ⟨markup_and_plain_text_agree nbsp160 (B "<B>a&amp;b</B>") (B "<text><b>a&amp;b</B></text>")
      (Simple.tag (B "<B>") (B "a&amp;b</B>") (by decide)
        (Simple.char 97 (B "&amp;b</B>") (by decide) (by decide) (by decide)
          (Simple.entity (B "&amp;") (B "b</B>") (by decide)
            (Simple.char 98 (B "</B>") (by decide) (by decide) (by decide)
              (Simple.tag (B "</B>") [] (by decide) Simple.nil)))))
      (by decide) (by decide),
    by decide⟩

end Subsdec
